import Mathlib

/-!
# SolarEx: font metrics, glyph synthesis and flow layout

A shallow embedding of `src/font.c`, `src/sdl_stub.c` and `src/render.c`.

Conventions of the embedding.

* A C `int` is an `Int`, and the code is embedded twice.  The definitions of
  the first sections carry out `int` arithmetic in `Int` without wrapping:
  they are the code on the inputs for which no `int` operation leaves the
  range of `int`.  The definitions of `namespace Machine` are `font.c` again
  with every `int` operation reduced to 32 bits (`i32`) and the `size_t`
  index arithmetic reduced modulo `2^64` (`u64`); `machine_measure_eq` and
  `machine_render_writes_eq` state the ranges on which the two agree.
  C integer division truncates toward zero and is embedded as `Int.tdiv`.
* A C string is the list of its characters before the terminating NUL; a
  nullable `const char*` is an `Option (List Char)`.  A `Char` stands for one
  byte of the string.
* A nullable pointer to a record is an `Option` of the record.
* Out-parameters become components of the returned value.
* `calloc` / `malloc` results are decided by an explicit `Alloc` record.
* `layout` copies a text run into `char buf[1024]` with `strncpy` and no
  terminator.  `layoutElem` is the loop body for a buffer that ends with the
  copied text (a text of at most 1022 characters, or `buf[1023]` holding
  NUL); `layoutRun` takes the bytes found from `buf[1023]` on as a parameter.
-/

namespace SolarEx

/-! ## font.h / font.c -/

/-- Font face record `ReFont` of `font.h`.  The fields `tt_data` and `scale`
are never read by the code embedded here and are left out. -/
structure ReFont where
  pixel_size : Int
  tt_size : Int
  ascent : Int
  descent : Int
  line_gap : Int
  loaded : Int
deriving DecidableEq, Repr

/-- Nominal size used by `glyph_width` and `line_height`:
`f && f->pixel_size > 0 ? f->pixel_size : 16`. -/
def base_size (f : Option ReFont) : Int :=
  match f with
  | some face => if face.pixel_size > 0 then face.pixel_size else 16
  | none => 16

/-- Function `glyph_width` of `font.c`, the product `base * 3` taken in `Int`:
the value returned when `base * 3` does not exceed `INT_MAX`
(`machine_glyph_width_eq`).  `Machine.glyph_width` is the function on every
`int`. -/
def glyph_width (f : Option ReFont) : Int :=
  let base := base_size f
  let w := Int.tdiv (base * 3) 5
  if w < 3 then 3 else w

/-- Function `line_height` of `font.c`, the sum taken in `Int`: the value
returned when `base + base / 4` does not exceed `INT_MAX`
(`machine_line_height_eq`).  `Machine.line_height` is the function on every
`int`. -/
def line_height (f : Option ReFont) : Int :=
  let base := base_size f
  base + Int.tdiv base 4

/-- Function `re_font_load` of `font.c` for a non-null face: the record it
leaves behind (the return code is 0). -/
def re_font_load (pixel_size : Int) : ReFont :=
  let ps := if pixel_size > 0 then pixel_size else 16
  { pixel_size := ps
    tt_size := 0
    ascent := ps
    descent := Int.tdiv ps 4
    line_gap := Int.tdiv ps 6
    loaded := 1 }

/-- Function `re_font_free` of `font.c`: the record is zeroed. -/
def re_font_free (_f : ReFont) : ReFont :=
  { pixel_size := 0, tt_size := 0, ascent := 0, descent := 0, line_gap := 0, loaded := 0 }

/-- Local state of the `while (*p)` loop of `re_font_measure`. -/
structure MeasureState where
  width : Int
  max_width : Int
  height : Int
deriving DecidableEq, Repr

/-- The `while (*p)` loop of `re_font_measure`; `gw` is `glyph_width(f) + 1`
and `lh` is `line_height(f)`. -/
def measureLoop (gw lh : Int) : List Char → MeasureState → MeasureState
  | [], st => st
  | c :: p, st =>
    if c = '\n' then
      measureLoop gw lh p
        { width := 0
          max_width := if st.width > st.max_width then st.width else st.max_width
          height := st.height + lh }
    else
      measureLoop gw lh p { st with width := st.width + gw }

/-- Function `re_font_measure` of `font.c`, its sums taken in `Int`; the result
is `(*out_w, *out_h)`.  It is what the code returns when no `int` operation
overflows (`machine_measure_eq`); `Machine.re_font_measure` is the function
with 32-bit arithmetic. -/
def re_font_measure (f : Option ReFont) (text : Option (List Char)) : Int × Int :=
  match f, text with
  | none, _ => (0, 0)
  | some _, none => (0, 0)
  | some face, some t =>
    if face.loaded = 0 ∨ t = [] then (0, 0)
    else
      let gw := glyph_width f + 1
      let st := measureLoop gw (line_height f) t
        { width := 0, max_width := 0, height := line_height f }
      let max_width := if st.width > st.max_width then st.width else st.max_width
      let max_width := if max_width ≤ 0 then glyph_width f else max_width
      let height := if st.height ≤ 0 then line_height f else st.height
      (max_width, height)

/-! ### Measuring, as the specification words it -/

/-- Pixel size `p` of the specification: the face's pixel size, 16 when that
is not positive. -/
def specPixelSize (face : ReFont) : Int :=
  if face.pixel_size > 0 then face.pixel_size else 16

/-- Glyph width of the specification: `max(3, floor(3p/5))`. -/
def specGlyphWidth (p : Int) : Int := max 3 (3 * p / 5)

/-- Line height of the specification: `p + floor(p/4)`. -/
def specLineHeight (p : Int) : Int := p + p / 4

/-- Greatest of the widths `(characters in the line) × adv` over the
newline-separated lines of `t`. -/
def specMaxLineWidth (adv : Int) (t : List Char) : Int :=
  ((t.splitOn '\n').map (fun l => (l.length : Int) * adv)).foldr max 0

/-- Measuring as the specification states it. -/
def specMeasure (f : Option ReFont) (text : Option (List Char)) : Int × Int :=
  match f, text with
  | some face, some t =>
    if face.loaded = 0 ∨ t = [] then (0, 0)
    else
      let p := specPixelSize face
      let gw := specGlyphWidth p
      let m := specMaxLineWidth (gw + 1) t
      (if m = 0 then gw else m, specLineHeight p * ((t.count '\n' : Int) + 1))
  | _, _ => (0, 0)

/-- Widths of the lines still to be measured: the first one continues a line
that is already `width` wide. -/
def pendingWidths (adv width : Int) (ls : List (List Char)) : List Int :=
  List.modifyHead (fun x => x + width) (ls.map (fun l => (l.length : Int) * adv))

/-! ## sdl_stub.h / sdl_stub.c -/

/-- Record `SDL_Color` of `sdl_stub.h`; each channel is a `Uint8`. -/
structure SDL_Color where
  r : Nat
  g : Nat
  b : Nat
  a : Nat
deriving DecidableEq, Repr

/-- Record `SDL_Rect` of `sdl_stub.h`. -/
structure SDL_Rect where
  x : Int
  y : Int
  w : Int
  h : Int
deriving DecidableEq, Repr

/-- Record `SDL_Renderer` of `sdl_stub.h` (the window pointer and the draw
colour are not read by the code embedded here). -/
structure SDL_Renderer where
  width : Int
  height : Int
deriving DecidableEq, Repr

/-- Record `SDL_Surface` of `sdl_stub.h`; `pixels` is the borrowed buffer. -/
structure SDL_Surface where
  pixels : Option (List Nat)
  width : Int
  height : Int
  pitch : Int
deriving DecidableEq, Repr

/-- Record `SDL_Texture` of `sdl_stub.h`; `pixels` is null when the copy of the
surface could not be allocated. -/
structure SDL_Texture where
  width : Int
  height : Int
  pixels : Option (List Nat)
deriving DecidableEq, Repr

/-- Outcome of the allocations made while rendering one text: the pixel buffer
of `re_font_render`, the surface record, the texture record and the texture's
own pixel copy.  `true` means the allocation succeeds. -/
structure Alloc where
  pixels_ok : Bool
  surface_ok : Bool
  texture_ok : Bool
  copy_ok : Bool
deriving DecidableEq, Repr

/-- Every allocation succeeds. -/
def Alloc.all : Alloc :=
  { pixels_ok := true, surface_ok := true, texture_ok := true, copy_ok := true }

/-- Function `SDL_CreateRGBSurfaceFrom` of `sdl_stub.c`. -/
def SDL_CreateRGBSurfaceFrom (al : Alloc) (pixels : Option (List Nat))
    (width height pitch : Int) : Option SDL_Surface :=
  if al.surface_ok then
    some { pixels := pixels, width := width, height := height, pitch := pitch }
  else none

/-- Function `SDL_CreateTextureFromSurface` of `sdl_stub.c`. -/
def SDL_CreateTextureFromSurface (al : Alloc) (_renderer : Option SDL_Renderer)
    (surface : Option SDL_Surface) : Option SDL_Texture :=
  match surface with
  | none => none
  | some surf =>
    if al.texture_ok then
      let size : Nat :=
        if surf.height > 0 ∧ surf.pitch > 0 then surf.height.toNat * surf.pitch.toNat else 0
      let pixels : Option (List Nat) :=
        match surf.pixels with
        | some px => if size > 0 ∧ al.copy_ok = true then some (px.take size) else none
        | none => none
      some { width := surf.width, height := surf.height, pixels := pixels }
    else none

/-! ## font.c: `re_font_render` -/

/-- Byte offsets `idx` visited by the inner loop
`for (col = ..; col < gw && pen_x + col < width; ++col)` of `re_font_render`
for one `row`, in order; `fuel` bounds the number of iterations left. -/
def colIndices (gw width pitch pen_x pen_y row : Int) : Nat → Int → List Nat
  | 0, _ => []
  | fuel + 1, col =>
    if col < gw ∧ pen_x + col < width then
      ((pen_y + row).toNat * pitch.toNat + (pen_x + col).toNat * 4)
        :: colIndices gw width pitch pen_x pen_y row fuel (col + 1)
    else []

/-- Byte offsets visited by the outer loop
`for (row = ..; row < gh && pen_y + row < height; ++row)` of `re_font_render`,
in order; `fuel` bounds the number of iterations left. -/
def rowIndices (gw gh width height pitch pen_x pen_y : Int) : Nat → Int → List Nat
  | 0, _ => []
  | fuel + 1, row =>
    if row < gh ∧ pen_y + row < height then
      colIndices gw width pitch pen_x pen_y row gw.toNat 0
        ++ rowIndices gw gh width height pitch pen_x pen_y fuel (row + 1)
    else []

/-- Byte offsets `idx` of all the pixels one glyph paints with the pen at
`(pen_x, pen_y)`.  The loops count `row` up to `gh` and `col` up to `gw`, so
`gh.toNat` and `gw.toNat` iterations are all they can make. -/
def glyphIndices (gw gh width height pitch pen_x pen_y : Int) : List Nat :=
  rowIndices gw gh width height pitch pen_x pen_y gh.toNat 0

/-- The four stores `pixels[idx + 0..3] = color.{r,g,b,a}`.  A store past the
end of the list leaves the list as it is. -/
def writePixel (color : SDL_Color) (pixels : List Nat) (idx : Nat) : List Nat :=
  (((pixels.set idx color.r).set (idx + 1) color.g).set (idx + 2) color.b).set (idx + 3) color.a

/-- State of the `while (*p)` loop of `re_font_render`. -/
structure RenderState where
  pen_x : Int
  pen_y : Int
  pixels : List Nat
deriving DecidableEq, Repr

/-- One iteration of the `while (*p)` loop of `re_font_render` on character `c`. -/
def renderStep (gw gh lh width height pitch : Int) (color : SDL_Color)
    (st : RenderState) (c : Char) : RenderState :=
  if c = '\n' then
    { st with pen_x := 0, pen_y := st.pen_y + lh }
  else
    let pixels :=
      if c ≠ ' ' then
        (glyphIndices gw gh width height pitch st.pen_x st.pen_y).foldl (writePixel color) st.pixels
      else st.pixels
    let pen_x := st.pen_x + (gw + 1)
    if pen_x + gw ≥ width then
      { pen_x := 0, pen_y := st.pen_y + lh, pixels := pixels }
    else
      { pen_x := pen_x, pen_y := st.pen_y, pixels := pixels }

/-- The `while (*p)` loop of `re_font_render`. -/
def renderLoop (gw gh lh width height pitch : Int) (color : SDL_Color)
    (text : List Char) (st : RenderState) : RenderState :=
  text.foldl (renderStep gw gh lh width height pitch color) st

/-- Glyph height `gh` of `re_font_render`: `f->pixel_size > 0 ? f->pixel_size : 16`. -/
def glyph_height (face : ReFont) : Int :=
  if face.pixel_size > 0 then face.pixel_size else 16

/-- Function `re_font_render` of `font.c`, with `pitch = width * 4`, the pen
and the byte index taken in `Int`: what the code does when none of them
leaves the range of `int` (`machine_render_writes_eq`).
`Machine.re_font_render` is the function with a 32-bit `pitch` and pen and a
64-bit index. -/
def re_font_render (al : Alloc) (renderer : Option SDL_Renderer) (f : Option ReFont)
    (text : Option (List Char)) (color : SDL_Color) : Option SDL_Texture :=
  match renderer, f, text with
  | some _, some face, some t =>
    if face.loaded = 0 ∨ t = [] then none
    else
      let width := (re_font_measure f text).1
      let height := (re_font_measure f text).2
      if width ≤ 0 ∨ height ≤ 0 then none
      else
        let gw := glyph_width f
        let gh := glyph_height face
        let lh := line_height f
        let pitch := width * 4
        let buf_size : Nat := pitch.toNat * height.toNat
        if al.pixels_ok then
          let st := renderLoop gw gh lh width height pitch color t
            { pen_x := 0, pen_y := 0, pixels := List.replicate buf_size 0 }
          match SDL_CreateRGBSurfaceFrom al (some st.pixels) width height pitch with
          | none => none
          | some surface => SDL_CreateTextureFromSurface al renderer (some surface)
        else none
  | _, _, _ => none

/-- Pen `(pen_x, pen_y)` of `re_font_render` when it reaches the character at
index `k` of `t`, that is after the loop has handled the first `k` characters. -/
def renderPenAt (face : ReFont) (t : List Char) (color : SDL_Color) (k : Nat) : Int × Int :=
  let width := (re_font_measure (some face) (some t)).1
  let height := (re_font_measure (some face) (some t)).2
  let st := renderLoop (glyph_width (some face)) (glyph_height face) (line_height (some face))
    width height (width * 4) color (t.take k)
    { pen_x := 0, pen_y := 0, pixels := List.replicate ((width * 4).toNat * height.toNat) 0 }
  (st.pen_x, st.pen_y)

/-! ## Single-precision arithmetic of `layout`

`layout` scales an image with `float s = (float)w/(float)iw; ih = (int)(ih*s);`.
`ih` is converted to `float` for the product.  The operations are embedded
exactly, as IEEE 754 binary32 operations rounding to nearest, ties to even,
each result rounded to single precision, on values `± mant × 2^exp`.  The
exponent range is not modelled: for operands that come from 32-bit integers every quotient and
product met here lies well inside the normal range of binary32.  A quotient by
zero (an infinity or NaN in C, whose conversion to `int` is undefined) is
outside the model. -/

/-- A finite binary32 value `(-1)^neg × mant × 2^exp`. -/
structure F32 where
  neg : Bool
  mant : Nat
  exp : Int
deriving DecidableEq, Repr

/-- Helper of `ilog2`: halve `n` at most `fuel` times. -/
def log2Fuel : Nat → Nat → Nat
  | 0, _ => 0
  | fuel + 1, n => if n < 2 then 0 else log2Fuel fuel (n / 2) + 1

/-- Position of the leading bit of `n` (0 for `n = 0`). -/
def ilog2 (n : Nat) : Nat := log2Fuel n n

/-- Integer nearest to `n / d`, ties to the even one. -/
def roundNearestEven (n d : Nat) : Nat :=
  let q := n / d
  let r := n % d
  if 2 * r < d then q
  else if d < 2 * r then q + 1
  else if q % 2 = 0 then q else q + 1

/-- Power of two by which `f32_round` scales `n / d`: with it the scaled
quotient lies between `2^23` and `2^25`. -/
def f32_shift (n d : Nat) : Int := 24 + (ilog2 d : Int) - (ilog2 n : Int)

/-- Numerator of `n / d` scaled by `2^s`. -/
def f32_num (n : Nat) (s : Int) : Nat := if 0 ≤ s then n * 2 ^ s.toNat else n

/-- Denominator of `n / d` scaled by `2^s`. -/
def f32_den (d : Nat) (s : Int) : Nat := if 0 ≤ s then d else d * 2 ^ (-s).toNat

/-- The binary32 value nearest to `± (n / d) × 2^e` (ties to even): the
quotient is scaled by a power of two into `[2^23, 2^24)` and rounded to an
integer significand of 24 bits. -/
def f32_round (neg : Bool) (n d : Nat) (e : Int) : F32 :=
  if n = 0 then { neg := neg, mant := 0, exp := 0 }
  else
    let s : Int := f32_shift n d
    let n1 : Nat := f32_num n s
    let d1 : Nat := f32_den d s
    if 2 ^ 24 * d1 ≤ n1 then
      { neg := neg, mant := roundNearestEven n1 (2 * d1), exp := e - s + 1 }
    else
      { neg := neg, mant := roundNearestEven n1 d1, exp := e - s }

/-- Conversion `(float)x` of an `int`. -/
def f32_of_int (x : Int) : F32 := f32_round (decide (x < 0)) x.natAbs 1 0

/-- Single-precision quotient `a / b`. -/
def f32_div (a b : F32) : F32 := f32_round (xor a.neg b.neg) a.mant b.mant (a.exp - b.exp)

/-- Single-precision product `a * b`. -/
def f32_mul (a b : F32) : F32 := f32_round (xor a.neg b.neg) (a.mant * b.mant) 1 (a.exp + b.exp)

/-- Conversion `(int)a`: truncation toward zero. -/
def f32_to_int (a : F32) : Int :=
  let v : Nat := if 0 ≤ a.exp then a.mant * 2 ^ a.exp.toNat else a.mant / 2 ^ (-a.exp).toNat
  if a.neg then -(v : Int) else (v : Int)

/-- The value `(int)(ih * s)` with `s = (float)w / (float)iw` that `layout`
stores back into `ih`. -/
def scaled_height (ih w iw : Int) : Int :=
  f32_to_int (f32_mul (f32_of_int ih) (f32_div (f32_of_int w) (f32_of_int iw)))

/-- Rational number a binary32 value stands for. -/
def F32.toRat (a : F32) : ℚ :=
  (if a.neg then -1 else 1) * (a.mant : ℚ) * (2 : ℚ) ^ a.exp

/-! ## html.h, render.h -/

/-- Enumeration `ReElementType` of `html.h`. -/
inductive ReElementType where
  | RE_E_TEXT
  | RE_E_IMG
deriving DecidableEq, Repr

/-- Record `ReStyle` of `html.h`. -/
structure ReStyle where
  h1 : Int
  bold : Int
  italic : Int
  color : SDL_Color
deriving DecidableEq, Repr

/-- Record `ReElement` of `html.h`; `tex` is a nullable texture pointer. -/
structure ReElement where
  type : ReElementType
  text : List Char
  style : ReStyle
  src : List Char
  img_w : Int
  img_h : Int
  tex : Option SDL_Texture
deriving DecidableEq, Repr

/-- Record `ReDocument` of `html.h`: the list holds `elems[0 .. count-1]`. -/
structure ReDocument where
  elems : List ReElement
deriving DecidableEq, Repr

/-- Record `ReUI` of `render.h`. -/
structure ReUI where
  url : List Char
  want_go : Int
  scroll : Int
  content_w : Int
  content_h : Int
  font : ReFont
  font_h1 : ReFont
deriving DecidableEq, Repr

/-! ## render.c -/

/-- Constant `COL_TEXT` of `render.c`. -/
def COL_TEXT : SDL_Color := { r := 20, g := 20, b := 20, a := 255 }

/-- One call `SDL_RenderCopy(r, texture, NULL, &dst)`: a draw command. -/
structure RenderCopy where
  texture : SDL_Texture
  dst : SDL_Rect
deriving DecidableEq, Repr

/-- Function `draw_text` of `render.c`: the draw commands it issues (none when
`re_font_render` returns null). -/
def draw_text (al : Alloc) (r : Option SDL_Renderer) (f : ReFont) (s : List Char)
    (x y : Int) (c : SDL_Color) : List RenderCopy :=
  match re_font_render al r (some f) (some s) c with
  | none => []
  | some tex =>
    let m := re_font_measure (some f) (some s)
    [{ texture := tex, dst := { x := x, y := y, w := m.1, h := m.2 } }]

/-- Tokens `strtok(buf, " ")`, `strtok(NULL, " ")`, ... of a buffer: the
maximal runs of characters other than the space; `cur` is the run being read. -/
def strtokLoop : List Char → List Char → List (List Char)
  | cur, [] => if cur = [] then [] else [cur]
  | cur, c :: cs =>
    if c = ' ' then
      (if cur = [] then strtokLoop [] cs else cur :: strtokLoop [] cs)
    else strtokLoop (cur ++ [c]) cs

/-- All the tokens `strtok` hands out for `buf` with the delimiter `" "`. -/
def strtok_all (buf : List Char) : List (List Char) := strtokLoop [] buf

/-- The word `snprintf(word, sizeof(word), "%s ", tok)` builds in a buffer of
1024 bytes. -/
def word_of (tok : List Char) : List Char := (tok ++ [' ']).take 1023

/-- Local variables `cx`, `cy`, `lh` of `layout`. -/
structure LayoutState where
  cx : Int
  cy : Int
  lh : Int
deriving DecidableEq, Repr

/-- Body of the `while (tok)` loop of `layout` for one token: the new pen and
line height, and the draw commands issued. -/
def layoutWord (al : Alloc) (r : Option SDL_Renderer) (f : ReFont) (x w : Int)
    (st : LayoutState) (tok : List Char) : LayoutState × List RenderCopy :=
  let word := word_of tok
  let tw := (re_font_measure (some f) (some word)).1
  let th := (re_font_measure (some f) (some word)).2
  let st1 : LayoutState :=
    if st.cx + tw > x + w then
      { cx := x, cy := st.cy + (if st.lh ≠ 0 then st.lh else th), lh := 0 }
    else st
  let cmds := draw_text al r f word st1.cx st1.cy COL_TEXT
  ({ cx := st1.cx + tw, cy := st1.cy, lh := if th > st1.lh then th else st1.lh }, cmds)

/-- The `while (tok)` loop of `layout` over the tokens of one text run. -/
def layoutWords (al : Alloc) (r : Option SDL_Renderer) (f : ReFont) (x w : Int) :
    List (List Char) → LayoutState → LayoutState × List RenderCopy
  | [], st => (st, [])
  | tok :: rest, st =>
    let r1 := layoutWord al r f x w st tok
    let r2 := layoutWords al r f x w rest r1.1
    (r2.1, r1.2 ++ r2.2)

/-- Face `layout` selects for an element: `el->style.h1 ? &ui->font_h1 : &ui->font`. -/
def elemFont (ui : ReUI) (el : ReElement) : ReFont :=
  if el.style.h1 ≠ 0 then ui.font_h1 else ui.font

/-- Body of the `for` loop of `layout` for one element.  `buf` receives the
first 1023 characters of the text (`strncpy(buf, el->text, sizeof(buf)-1)`;
`el->text` is an array of 1024 bytes, so a text has at most 1023 characters),
`strchr` looks at the whole text, and the image branch runs for
`el->type == RE_E_IMG && el->tex`.  The string in `buf` is taken to end with
the copied characters: this is the loop body for a text of at most 1022
characters, which `strncpy` pads with NUL, and for a text of 1023 characters
when `buf[1023]` holds NUL (`layoutRun_eq_layoutElem`, `layoutRun_nil`).
`layoutRun` is the text-run branch for any content of `buf[1023]`. -/
def layoutElem (al : Alloc) (r : Option SDL_Renderer) (ui : ReUI) (x w : Int)
    (st : LayoutState) (el : ReElement) : LayoutState × List RenderCopy :=
  if el.type = ReElementType.RE_E_TEXT then
    let f := elemFont ui el
    let buf := el.text.take 1023
    let r1 := layoutWords al r f x w (strtok_all buf) st
    let st2 : LayoutState :=
      if '\n' ∈ el.text then
        { cx := x, cy := r1.1.cy + (if r1.1.lh ≠ 0 then r1.1.lh else 20), lh := 0 }
      else r1.1
    (st2, r1.2)
  else
    match el.tex with
    | some tex =>
      if el.type = ReElementType.RE_E_IMG then
        let iw := if el.img_w > w then w else el.img_w
        let ih := if el.img_w > w then scaled_height el.img_h w el.img_w else el.img_h
        let st1 : LayoutState :=
          if st.cx ≠ x then
            { cx := x, cy := st.cy + (if st.lh ≠ 0 then st.lh else 20), lh := 0 }
          else st
        ({ st1 with cy := st1.cy + ih + 8 },
          [{ texture := tex, dst := { x := x, y := st1.cy, w := iw, h := ih } }])
      else (st, [])
    | none => (st, [])

/-- The `for` loop of `layout` over the elements of the document. -/
def layoutElems (al : Alloc) (r : Option SDL_Renderer) (ui : ReUI) (x w : Int) :
    List ReElement → LayoutState → LayoutState × List RenderCopy
  | [], st => (st, [])
  | el :: rest, st =>
    let r1 := layoutElem al r ui x w st el
    let r2 := layoutElems al r ui x w rest r1.1
    (r2.1, r1.2 ++ r2.2)

/-- Function `layout` of `render.c`: the final values of `cx`, `cy`, `lh` and
the draw commands issued, in order. -/
def layout (al : Alloc) (r : Option SDL_Renderer) (ui : ReUI) (d : ReDocument)
    (x y w : Int) : LayoutState × List RenderCopy :=
  layoutElems al r ui x w d.elems { cx := x, cy := y - ui.scroll, lh := 0 }

/-! ## Scenario data of the specification -/

/-- A text run in body style with the given text. -/
def textRun (t : List Char) : ReElement :=
  { type := ReElementType.RE_E_TEXT, text := t
    style := { h1 := 0, bold := 0, italic := 0, color := COL_TEXT }
    src := [], img_w := 0, img_h := 0, tex := none }

/-- Text of the end-to-end scenarios 1 and 2. -/
def helloText : List Char := "Hello world".toList

/-- First token of `helloText`. -/
def tokHello : List Char := "Hello".toList

/-- Second token of `helloText`. -/
def tokWorld : List Char := "world".toList

/-- Document of the end-to-end scenarios 1 and 2: one text run `"Hello world"`. -/
def helloDoc : ReDocument := { elems := [textRun helloText] }

/-- A UI state whose body face is a 16-px face, with scroll offset `scroll`. -/
def ui16 (scroll : Int) : ReUI :=
  { url := [], want_go := 0, scroll := scroll, content_w := 940, content_h := 9999
    font := re_font_load 16, font_h1 := re_font_load 28 }


/-- Function `reui_init` of `render.c`: the state it leaves behind. -/
def reui_init : ReUI :=
  { url := "http://neverssl.com/".toList, want_go := 0, scroll := 0
    content_w := 940, content_h := 9999
    font := re_font_load 18, font_h1 := re_font_load 28 }

/-- A draw command ends at or before the right edge of the viewport, or it
starts at the left edge and is wider than the viewport. -/
def fitsOrWide (x w : Int) (c : RenderCopy) : Prop :=
  c.dst.x + c.dst.w ≤ x + w ∨ (c.dst.x = x ∧ w < c.dst.w)

/-- A document of one text run holding a single word of 45 letters. -/
def longWordDoc : ReDocument :=
  { elems := [textRun "pneumonoultramicroscopicsilicovolcanoconiosis".toList] }

/-- A draw command moved up by `delta` pixels. -/
def shiftUp (delta : Int) (c : RenderCopy) : RenderCopy :=
  { c with dst := { c.dst with y := c.dst.y - delta } }

/-- A layout state moved up by `delta` pixels. -/
def LayoutState.shiftUp (delta : Int) (st : LayoutState) : LayoutState :=
  { st with cy := st.cy - delta }

/-- The document without its Image elements whose texture is null. -/
def dropUnhydrated (d : ReDocument) : ReDocument :=
  { elems := d.elems.filter
      (fun el => decide (¬ (el.type = ReElementType.RE_E_IMG ∧ el.tex = none))) }

/-- A hydrated image of natural size 1196 × 552. -/
def wideImage : ReElement :=
  { type := ReElementType.RE_E_IMG, text := []
    style := { h1 := 0, bold := 0, italic := 0, color := COL_TEXT }
    src := [], img_w := 1196, img_h := 552, tex := some ⟨1196, 552, none⟩ }

/-- The `y` at which `layout` draws an image met with state `st`: the pen's
`cy`, after the line break made when the pen is not at the line start. -/
def imageY (x : Int) (st : LayoutState) : Int :=
  if st.cx ≠ x then st.cy + (if st.lh ≠ 0 then st.lh else 20) else st.cy


/-- Every allocation succeeds except the texture's own pixel copy
(`tex->pixels` stays null; the texture is still returned). -/
def Alloc.noCopy : Alloc :=
  { pixels_ok := true, surface_ok := true, texture_ok := true, copy_ok := false }


/-! ## render.c: `reui_handle_event` -/

/-- Constant `SDL_MOUSEWHEEL` of `sdl_stub.h`. -/
def SDL_MOUSEWHEEL : Nat := 0x207

/-- Constant `SDL_TEXTINPUT` of `sdl_stub.h`. -/
def SDL_TEXTINPUT : Nat := 0x302

/-- Constant `SDL_KEYDOWN` of `sdl_stub.h`. -/
def SDL_KEYDOWN : Nat := 0x300

/-- Constant `SDL_QUIT` of `sdl_stub.h`. -/
def SDL_QUIT : Nat := 0x100

/-- Constant `SDLK_BACKSPACE` of `sdl_stub.h`. -/
def SDLK_BACKSPACE : Int := 8

/-- Constant `SDLK_RETURN` of `sdl_stub.h`. -/
def SDLK_RETURN : Int := 13

/-- Size of the array `url` of `ReUI` (`sizeof(ui->url)`). -/
def URL_SIZE : Nat := 1024

/-- Record `SDL_Event` of `sdl_stub.h`.  The members of its union are kept as
separate fields: `wheel_y` is `e->wheel.y`, `text` is the string in
`e->text.text` (an array of 32 bytes) and `key_sym` is `e->key.keysym.sym`.
The handler reads only the member that goes with `type`. -/
structure SDL_Event where
  type : Nat
  wheel_y : Int
  text : List Char
  key_sym : Int
deriving DecidableEq, Repr

/-- The part of `reui_handle_event` from `if (e->type == SDL_KEYDOWN)` to the
final `return 0`. -/
def handle_keydown (ui : ReUI) (e : SDL_Event) : ReUI × Int :=
  if e.type = SDL_KEYDOWN then
    if e.key_sym = SDLK_BACKSPACE then
      -- `size_t n = strlen(ui->url); if (n) ui->url[n-1] = 0; return 1;`
      ({ ui with url := ui.url.dropLast }, 1)
    else if e.key_sym = SDLK_RETURN then
      ({ ui with want_go := 1 }, 1)
    else (ui, 0)
  else (ui, 0)

/-- Function `reui_handle_event` of `render.c`: the new UI state and the value
returned. -/
def reui_handle_event (ui : ReUI) (e : SDL_Event) : ReUI × Int :=
  if e.type = SDL_MOUSEWHEEL then
    let scroll := ui.scroll - e.wheel_y * 40
    ({ ui with scroll := if scroll < 0 then 0 else scroll }, 1)
  else if e.type = SDL_TEXTINPUT then
    let n := ui.url.length
    if n + e.text.length < URL_SIZE - 1 then
      ({ ui with url := ui.url ++ e.text }, 1)
    else handle_keydown ui e
  else handle_keydown ui e

/-- The UI state after the handler has taken a sequence of events in order. -/
def handle_events (ui : ReUI) (es : List SDL_Event) : ReUI :=
  es.foldl (fun u e => (reui_handle_event u e).1) ui

/-- A scroll-wheel event with vertical delta `dy`. -/
def wheelEvent (dy : Int) : SDL_Event :=
  { type := SDL_MOUSEWHEEL, wheel_y := dy, text := [], key_sym := 0 }

/-- A text-input event with payload `s`. -/
def textEvent (s : List Char) : SDL_Event :=
  { type := SDL_TEXTINPUT, wheel_y := 0, text := s, key_sym := 0 }

/-- A key-down event for the key `sym`. -/
def keyEvent (sym : Int) : SDL_Event :=
  { type := SDL_KEYDOWN, wheel_y := 0, text := [], key_sym := sym }

/-- The state invariant: the scroll offset is not negative and the URL text
fits the buffer with its terminator. -/
def uiInvariant (ui : ReUI) : Prop :=
  0 ≤ ui.scroll ∧ ui.url.length ≤ URL_SIZE - 1


/-- A URL text of `n` characters. -/
def longUrl (n : Nat) : List Char := List.replicate n 'a'


/-! ## net.c, main.c -/

/-- Outcome of `re_http_get(url, &b)`: the return code and the bytes of the
buffer (`b.size` is their number). -/
structure HttpResult where
  rc : Int
  data : List Nat
deriving DecidableEq, Repr

/-- Function `re_image_decode_rgba` of `net.c`: the pixel block (null when
`malloc` fails) and the dimensions written to `*out_w`, `*out_h`. -/
def re_image_decode_rgba (malloc_ok : Bool) (_bytes : List Nat) : Option (List Nat) × Int × Int :=
  (if malloc_ok then some [200, 200, 200, 255] else none, 1, 1)

/-- Body of the loop of `hydrate_images` of `main.c` for one element; `http`
stands for `re_http_get`, whose answers come from the network. -/
def hydrate_image (al : Alloc) (malloc_ok : Bool) (http : List Char → HttpResult)
    (r : Option SDL_Renderer) (el : ReElement) : ReElement :=
  if el.type ≠ ReElementType.RE_E_IMG then el
  else
    let b := http el.src
    if b.rc = 0 ∧ b.data.length > 0 then
      let dec := re_image_decode_rgba malloc_ok b.data
      match dec.1 with
      | some rgba =>
        if dec.2.1 > 0 ∧ dec.2.2 > 0 then
          match SDL_CreateRGBSurfaceFrom al (some rgba) dec.2.1 dec.2.2 (dec.2.1 * 4) with
          | some surf =>
            { el with tex := SDL_CreateTextureFromSurface al r (some surf)
                      img_w := dec.2.1, img_h := dec.2.2 }
          | none => el
        else el
      | none => el
    else el

/-- Function `hydrate_images` of `main.c`. -/
def hydrate_images (al : Alloc) (malloc_ok : Bool) (http : List Char → HttpResult)
    (r : Option SDL_Renderer) (d : ReDocument) : ReDocument :=
  { elems := d.elems.map (hydrate_image al malloc_ok http r) }

/-- An element of a document cleared by `memset(doc, 0, sizeof(*doc))`. -/
def zeroElement : ReElement :=
  { type := ReElementType.RE_E_TEXT, text := []
    style := { h1 := 0, bold := 0, italic := 0, color := { r := 0, g := 0, b := 0, a := 0 } }
    src := [], img_w := 0, img_h := 0, tex := none }

/-- Function `load_page` of `main.c`: the document it leaves in `*doc`.
`http` stands for `re_http_get` and `parse` for `re_parse_html`, which
`html.h` declares; both are taken as parameters. -/
def load_page (al : Alloc) (malloc_ok : Bool) (http : List Char → HttpResult)
    (parse : List Nat → ReDocument → ReDocument)
    (r : Option SDL_Renderer) (url : List Char) (doc : ReDocument) : ReDocument :=
  let b := http url
  if b.rc = 0 ∧ b.data.length > 0 then
    hydrate_images al malloc_ok http r (parse b.data doc)
  else
    { elems := [{ zeroElement with type := ReElementType.RE_E_TEXT
                                   text := "Failed to load URL.".toList }] }

/-- Function `re_http_get` of `net.c` when built without libcurl: it returns
-1 and an empty buffer for every URL. -/
def re_http_get_disabled (_url : List Char) : HttpResult := { rc := -1, data := [] }


/-- The maximal runs of characters other than the space of a text, in order:
the pieces between spaces, the empty ones left out. -/
def spaceRuns (t : List Char) : List (List Char) :=
  (t.splitOn ' ').filter (fun l => decide (l ≠ []))

/-- A text run whose two letters are separated by a tab. -/
def tabDoc : ReDocument := { elems := [textRun ['a', '\t', 'b']] }


/-- Width at which `layout` draws an image in a viewport of width `w`. -/
def drawnWidth (w : Int) (el : ReElement) : Int :=
  if el.img_w > w then w else el.img_w

/-- Height at which `layout` draws an image in a viewport of width `w`. -/
def drawnHeight (w : Int) (el : ReElement) : Int :=
  if el.img_w > w then scaled_height el.img_h w el.img_w else el.img_h

/-- A hydrated image of natural size 100 × 40. -/
def smallImage : ReElement :=
  { type := ReElementType.RE_E_IMG, text := []
    style := { h1 := 0, bold := 0, italic := 0, color := COL_TEXT }
    src := [], img_w := 100, img_h := 40, tex := some ⟨100, 40, none⟩ }


/-! ## font.c: the stores of `re_font_render` -/

/-- Byte offsets `idx` of the pixel stores the `while (*p)` loop of
`re_font_render` performs on `text` from state `st`, in order: the offsets of
the glyph of every character that is neither a newline nor a space, with the
pen evolving by `renderStep`.  Each `idx` stands for the four stores
`pixels[idx + 0 .. idx + 3]`. -/
def renderWrites (gw gh lh width height pitch : Int) (color : SDL_Color) :
    List Char → RenderState → List Nat
  | [], _ => []
  | c :: cs, st =>
    (if c = '\n' then []
      else if c ≠ ' ' then glyphIndices gw gh width height pitch st.pen_x st.pen_y
      else [])
      ++ renderWrites gw gh lh width height pitch color cs
          (renderStep gw gh lh width height pitch color st c)

/-- Number of bytes `buf_size` of the pixel buffer `re_font_render` allocates
for a face and a text: `(size_t)pitch * (size_t)height` with `pitch = width * 4`
taken in `Int` (`Machine.render_buf_size` has the 32-bit `pitch`). -/
def render_buf_size (face : ReFont) (t : List Char) : Nat :=
  ((re_font_measure (some face) (some t)).1 * 4).toNat
    * (re_font_measure (some face) (some t)).2.toNat

/-- Byte offsets of all the pixel stores `re_font_render` performs for a
loaded face and a non-empty text. -/
def re_font_render_writes (face : ReFont) (t : List Char) (color : SDL_Color) : List Nat :=
  let width := (re_font_measure (some face) (some t)).1
  let height := (re_font_measure (some face) (some t)).2
  renderWrites (glyph_width (some face)) (glyph_height face) (line_height (some face))
    width height (width * 4) color t
    { pen_x := 0, pen_y := 0, pixels := List.replicate (render_buf_size face t) 0 }


/-! ## font.c with the 32-bit `int` of C

The definitions above carry out `int` arithmetic in `Int`.  The definitions of
`namespace Machine` are the same functions of `font.c` with every `int`
operation reduced to 32 bits by two's-complement wrap-around (`i32`), and the
`size_t` arithmetic of the pixel index reduced modulo `2^64` (`u64`).  The two
families agree whenever no intermediate result leaves the range of `int`
(`machine_measure_eq`, `machine_render_writes_eq`).  The fields of a face are
`int`s: a `pixel_size` is at most `INT_MAX = 2147483647`. -/

/-- Value held by a C `int` after an operation whose mathematical result is
`x`: reduction to 32 bits, two's complement. -/
def i32 (x : Int) : Int := (x + 2147483648) % 4294967296 - 2147483648

/-- Value of `(size_t)x`, and of a `size_t` result `x`, with a `size_t` of 64
bits. -/
def u64 (x : Int) : Nat := (x % 18446744073709551616).toNat

namespace Machine

/-- Function `glyph_width` of `font.c`, `int` arithmetic in 32 bits. -/
def glyph_width (f : Option ReFont) : Int :=
  let base := base_size f
  let w := Int.tdiv (i32 (base * 3)) 5
  if w < 3 then 3 else w

/-- Function `line_height` of `font.c`, `int` arithmetic in 32 bits. -/
def line_height (f : Option ReFont) : Int :=
  let base := base_size f
  i32 (base + Int.tdiv base 4)

/-- The `while (*p)` loop of `re_font_measure`, `int` arithmetic in 32 bits. -/
def measureLoop (gw lh : Int) : List Char → MeasureState → MeasureState
  | [], st => st
  | c :: p, st =>
    if c = '\n' then
      measureLoop gw lh p
        { width := 0
          max_width := if st.width > st.max_width then st.width else st.max_width
          height := i32 (st.height + lh) }
    else
      measureLoop gw lh p { st with width := i32 (st.width + gw) }

/-- Function `re_font_measure` of `font.c`, `int` arithmetic in 32 bits; the
result is `(*out_w, *out_h)`. -/
def re_font_measure (f : Option ReFont) (text : Option (List Char)) : Int × Int :=
  match f, text with
  | none, _ => (0, 0)
  | some _, none => (0, 0)
  | some face, some t =>
    if face.loaded = 0 ∨ t = [] then (0, 0)
    else
      let gw := i32 (glyph_width f + 1)
      let st := measureLoop gw (line_height f) t
        { width := 0, max_width := 0, height := line_height f }
      let max_width := if st.width > st.max_width then st.width else st.max_width
      let max_width := if max_width ≤ 0 then glyph_width f else max_width
      let height := if st.height ≤ 0 then line_height f else st.height
      (max_width, height)

/-- Byte offsets `idx` visited by the inner loop of `re_font_render` for one
`row`: `int` arithmetic in 32 bits, the index
`(size_t)(pen_y + row) * (size_t)pitch + (size_t)(pen_x + col) * 4u` in 64. -/
def colIndices (gw width pitch pen_x pen_y row : Int) : Nat → Int → List Nat
  | 0, _ => []
  | fuel + 1, col =>
    if col < gw ∧ i32 (pen_x + col) < width then
      ((u64 (i32 (pen_y + row)) * u64 pitch + u64 (i32 (pen_x + col)) * 4)
          % 18446744073709551616)
        :: colIndices gw width pitch pen_x pen_y row fuel (i32 (col + 1))
    else []

/-- Byte offsets visited by the outer loop of `re_font_render`. -/
def rowIndices (gw gh width height pitch pen_x pen_y : Int) : Nat → Int → List Nat
  | 0, _ => []
  | fuel + 1, row =>
    if row < gh ∧ i32 (pen_y + row) < height then
      colIndices gw width pitch pen_x pen_y row gw.toNat 0
        ++ rowIndices gw gh width height pitch pen_x pen_y fuel (i32 (row + 1))
    else []

/-- Byte offsets `idx` of all the pixels one glyph paints with the pen at
`(pen_x, pen_y)`. -/
def glyphIndices (gw gh width height pitch pen_x pen_y : Int) : List Nat :=
  rowIndices gw gh width height pitch pen_x pen_y gh.toNat 0

/-- One iteration of the `while (*p)` loop of `re_font_render`. -/
def renderStep (gw gh lh width height pitch : Int) (color : SDL_Color)
    (st : RenderState) (c : Char) : RenderState :=
  if c = '\n' then
    { st with pen_x := 0, pen_y := i32 (st.pen_y + lh) }
  else
    let pixels :=
      if c ≠ ' ' then
        (glyphIndices gw gh width height pitch st.pen_x st.pen_y).foldl (writePixel color) st.pixels
      else st.pixels
    let pen_x := i32 (st.pen_x + i32 (gw + 1))
    if i32 (pen_x + gw) ≥ width then
      { pen_x := 0, pen_y := i32 (st.pen_y + lh), pixels := pixels }
    else
      { pen_x := pen_x, pen_y := st.pen_y, pixels := pixels }

/-- The `while (*p)` loop of `re_font_render`. -/
def renderLoop (gw gh lh width height pitch : Int) (color : SDL_Color)
    (text : List Char) (st : RenderState) : RenderState :=
  text.foldl (renderStep gw gh lh width height pitch color) st

/-- Number of bytes `buf_size = (size_t)pitch * (size_t)height` of the pixel
buffer, with `pitch = width * 4` an `int`. -/
def buf_size (width height : Int) : Nat :=
  (u64 (i32 (width * 4)) * u64 height) % 18446744073709551616

/-- Function `re_font_render` of `font.c`, `int` arithmetic in 32 bits. -/
def re_font_render (al : Alloc) (renderer : Option SDL_Renderer) (f : Option ReFont)
    (text : Option (List Char)) (color : SDL_Color) : Option SDL_Texture :=
  match renderer, f, text with
  | some _, some face, some t =>
    if face.loaded = 0 ∨ t = [] then none
    else
      let width := (re_font_measure f text).1
      let height := (re_font_measure f text).2
      if width ≤ 0 ∨ height ≤ 0 then none
      else
        let gw := glyph_width f
        let gh := glyph_height face
        let lh := line_height f
        let pitch := i32 (width * 4)
        if al.pixels_ok then
          let st := renderLoop gw gh lh width height pitch color t
            { pen_x := 0, pen_y := 0, pixels := List.replicate (buf_size width height) 0 }
          match SDL_CreateRGBSurfaceFrom al (some st.pixels) width height pitch with
          | none => none
          | some surface => SDL_CreateTextureFromSurface al renderer (some surface)
        else none
  | _, _, _ => none

/-- Byte offsets of the pixel stores the `while (*p)` loop of `re_font_render`
performs on `text` from state `st`, in order. -/
def renderWrites (gw gh lh width height pitch : Int) (color : SDL_Color) :
    List Char → RenderState → List Nat
  | [], _ => []
  | c :: cs, st =>
    (if c = '\n' then []
      else if c ≠ ' ' then glyphIndices gw gh width height pitch st.pen_x st.pen_y
      else [])
      ++ renderWrites gw gh lh width height pitch color cs
          (renderStep gw gh lh width height pitch color st c)

/-- Number of bytes of the pixel buffer `re_font_render` allocates for a face
and a text. -/
def render_buf_size (face : ReFont) (t : List Char) : Nat :=
  buf_size (re_font_measure (some face) (some t)).1 (re_font_measure (some face) (some t)).2

/-- Byte offsets of all the pixel stores `re_font_render` performs for a
loaded face and a non-empty text. -/
def re_font_render_writes (face : ReFont) (t : List Char) (color : SDL_Color) : List Nat :=
  let width := (re_font_measure (some face) (some t)).1
  let height := (re_font_measure (some face) (some t)).2
  renderWrites (glyph_width (some face)) (glyph_height face) (line_height (some face))
    width height (i32 (width * 4)) color t
    { pen_x := 0, pen_y := 0, pixels := List.replicate (render_buf_size face t) 0 }

end Machine

/-- No `int` operation of `re_font_measure` overflows for a face and a text:
with `p` the pixel size, the product `3 × p` and the width and the height the
specification states do not exceed `INT_MAX = 2147483647`. -/
def measureFits (face : ReFont) (t : List Char) : Prop :=
  3 * specPixelSize face ≤ 2147483647 ∧
    (specMeasure (some face) (some t)).1 ≤ 2147483647 ∧
    (specMeasure (some face) (some t)).2 ≤ 2147483647

/-- No `int` operation of `re_font_render` overflows for a face and a text:
`3 × p`, the pitch `4 × width` and `lh × (length of the text + 1)`, which
bounds every value the pen `pen_y` can take, do not exceed
`INT_MAX = 2147483647`. -/
def renderFits (face : ReFont) (t : List Char) : Prop :=
  3 * specPixelSize face ≤ 2147483647 ∧
    4 * (specMeasure (some face) (some t)).1 ≤ 2147483647 ∧
    ((t.length : Int) + 1) * specLineHeight (specPixelSize face) ≤ 2147483647

/-! ## render.c: the buffer `buf` of `layout` as `strncpy` leaves it -/

/-- The string `strtok` finds in `buf` after
`char buf[1024]; strncpy(buf, el->text, sizeof(buf)-1)`.  `strncpy` writes
1023 bytes: the text and NUL padding when the text has fewer than 1023
characters, and the first 1023 characters of the text with no NUL otherwise.
`buf[1023]` is never written, so in the second case the string goes on with
the bytes `stack` the memory holds from `buf[1023]` up to the first NUL
(`stack = []` when `buf[1023]` happens to be NUL). -/
def strncpy_buf (text stack : List Char) : List Char :=
  if text.length < 1023 then text else text.take 1023 ++ stack

/-- Text-run branch (`el->type == RE_E_TEXT`) of the `for` loop of `layout`,
with the bytes `stack` found from `buf[1023]` on: the tokens are those of
`strncpy_buf el.text stack`, and `strchr` looks at the text itself. -/
def layoutRun (stack : List Char) (al : Alloc) (r : Option SDL_Renderer) (ui : ReUI)
    (x w : Int) (st : LayoutState) (el : ReElement) : LayoutState × List RenderCopy :=
  let f := elemFont ui el
  let buf := strncpy_buf el.text stack
  let r1 := layoutWords al r f x w (strtok_all buf) st
  let st2 : LayoutState :=
    if '\n' ∈ el.text then
      { cx := x, cy := r1.1.cy + (if r1.1.lh ≠ 0 then r1.1.lh else 20), lh := 0 }
    else r1.1
  (st2, r1.2)

/-- A text of 1023 characters without newline: 1022 letters and one space. -/
def text1023 : List Char := List.replicate 1022 'a' ++ [' ']


/-! ## Theorems -/

theorem base_size_pos (f : Option ReFont) : 0 < base_size f := by
  unfold base_size
  cases f with
  | none => decide
  | some face =>
    by_cases h : face.pixel_size > 0
    · simp [h]
    · simp [h]

theorem glyph_width_ge (f : Option ReFont) : 3 ≤ glyph_width f := by
  unfold glyph_width
  simp only
  split <;> omega

theorem line_height_pos (f : Option ReFont) : 0 < line_height f := by
  unfold line_height
  have h := base_size_pos f
  have h2 : 0 ≤ Int.tdiv (base_size f) 4 := Int.tdiv_nonneg (le_of_lt h) (by decide)
  simp only
  omega

theorem glyph_width_eq_spec (face : ReFont) :
    glyph_width (some face) = specGlyphWidth (specPixelSize face) := by
  have h := base_size_pos (some face)
  unfold glyph_width specGlyphWidth
  have hb : base_size (some face) = specPixelSize face := rfl
  rw [hb] at h ⊢
  simp only
  rw [Int.tdiv_eq_ediv (by omega) (by decide)]
  rw [mul_comm]
  split <;> omega

theorem line_height_eq_spec (face : ReFont) :
    line_height (some face) = specLineHeight (specPixelSize face) := by
  have h := base_size_pos (some face)
  unfold line_height specLineHeight
  have hb : base_size (some face) = specPixelSize face := rfl
  rw [hb] at h ⊢
  simp only
  rw [Int.tdiv_eq_ediv (by omega) (by decide)]


/-! ### `re_font_measure` against the specification's formulas -/

theorem splitOn_newline_cons (c : Char) (t : List Char) :
    (c :: t).splitOn '\n' =
      if c = '\n' then [] :: t.splitOn '\n'
      else List.modifyHead (List.cons c) (t.splitOn '\n') := by
  unfold List.splitOn
  rw [List.splitOnP_cons]
  simp

theorem foldr_max_acc (a b : Int) (xs : List Int) :
    xs.foldr max (max a b) = max a (xs.foldr max b) := by
  induction xs with
  | nil => rfl
  | cons x xs ih => simp only [List.foldr_cons, ih]; exact max_left_comm x a _

theorem measureLoop_max (gw lh : Int) (t : List Char) (st : MeasureState) :
    max (measureLoop gw lh t st).width (measureLoop gw lh t st).max_width =
      (pendingWidths gw st.width (t.splitOn '\n')).foldr max st.max_width := by
  induction t generalizing st with
  | nil =>
    simp [measureLoop, pendingWidths, List.splitOn, List.modifyHead]
  | cons c t ih =>
    rw [splitOn_newline_cons]
    by_cases hc : c = '\n'
    · simp only [measureLoop, hc, if_true]
      rw [ih]
      simp only [pendingWidths, List.map_cons, List.modifyHead, List.length_nil,
        Nat.cast_zero, zero_mul, zero_add, List.foldr_cons]
      have e : (if st.width > st.max_width then st.width else st.max_width)
          = max st.width st.max_width := by
        rw [max_def]; split <;> split <;> omega
      rw [e, foldr_max_acc]
      congr 1
      cases h : List.map (fun l : List Char => (l.length : Int) * gw) (t.splitOn '\n') with
      | nil => rfl
      | cons x xs => simp [List.modifyHead]
    · simp only [measureLoop, hc, if_false]
      rw [ih]
      congr 1
      simp only [pendingWidths]
      cases h : t.splitOn '\n' with
      | nil => rfl
      | cons l ls =>
        simp only [List.modifyHead, List.map_cons, List.length_cons, Nat.cast_add, Nat.cast_one]
        congr 1
        ring

theorem measureLoop_height (gw lh : Int) (t : List Char) (st : MeasureState) :
    (measureLoop gw lh t st).height = st.height + lh * (t.count '\n' : Int) := by
  induction t generalizing st with
  | nil => simp [measureLoop]
  | cons c t ih =>
    by_cases hc : c = '\n'
    · simp only [measureLoop, hc, if_true]
      rw [ih]
      simp only [List.count_cons_self, Nat.cast_add, Nat.cast_one]
      ring
    · simp only [measureLoop, hc, if_false]
      rw [ih, List.count_cons_of_ne (fun h => hc h.symm)]

theorem specMaxLineWidth_nonneg (adv : Int) (t : List Char) : 0 ≤ specMaxLineWidth adv t := by
  unfold specMaxLineWidth
  generalize (t.splitOn '\n').map (fun l => (l.length : Int) * adv) = xs
  induction xs with
  | nil => simp
  | cons x xs ih => simp only [List.foldr_cons]; exact le_max_of_le_right ih

/-- With the `int` arithmetic taken in `Int`, `re_font_measure` returns what
the specification states: `(0, 0)` for a null or unloaded face and for a null
or empty text; otherwise the greatest `(characters in the line) × (gw + 1)`
over the newline-separated lines, replaced by `gw` when that is 0, and
`lh × (number of newlines + 1)`. -/
theorem measure_eq_spec (f : Option ReFont) (text : Option (List Char)) :
    re_font_measure f text = specMeasure f text := by
  cases f with
  | none => cases text <;> rfl
  | some face =>
    cases text with
    | none => rfl
    | some t =>
      unfold re_font_measure specMeasure
      by_cases h : face.loaded = 0 ∨ t = []
      · simp [h]
      · simp only [h, if_false]
        have hlh := line_height_pos (some face)
        have hnn := specMaxLineWidth_nonneg (glyph_width (some face) + 1) t
        rw [← glyph_width_eq_spec, ← line_height_eq_spec]
        have hmax := measureLoop_max (glyph_width (some face) + 1) (line_height (some face)) t
          { width := 0, max_width := 0, height := line_height (some face) }
        have hh := measureLoop_height (glyph_width (some face) + 1) (line_height (some face)) t
          { width := 0, max_width := 0, height := line_height (some face) }
        have hp : pendingWidths (glyph_width (some face) + 1) 0 (t.splitOn '\n')
            = (t.splitOn '\n').map (fun l => (l.length : Int) * (glyph_width (some face) + 1)) := by
          unfold pendingWidths
          cases List.map (fun l : List Char => (l.length : Int) * (glyph_width (some face) + 1))
            (t.splitOn '\n') with
          | nil => rfl
          | cons x xs => simp [List.modifyHead]
        simp only [hp] at hmax
        change _ = specMaxLineWidth (glyph_width (some face) + 1) t at hmax
        generalize measureLoop (glyph_width (some face) + 1) (line_height (some face)) t
          { width := 0, max_width := 0, height := line_height (some face) } = st at hmax hh
        generalize specMaxLineWidth (glyph_width (some face) + 1) t = m at hmax hnn
        simp only at hh
        have hcnt : (0 : Int) ≤ (t.count '\n' : Int) := Int.natCast_nonneg _
        have hprod : 0 ≤ line_height (some face) * (t.count '\n' : Int) :=
          mul_nonneg (le_of_lt hlh) hcnt
        have e1 : (if st.width > st.max_width then st.width else st.max_width) = m := by
          rw [← hmax, max_def]; split <;> split <;> omega
        rw [e1]
        have e2 : (if st.height ≤ 0 then line_height (some face) else st.height)
            = line_height (some face) * ((t.count '\n' : Int) + 1) := by
          rw [hh, mul_add, mul_one]
          split <;> omega
        rw [e2]
        congr 1
        by_cases hm : m = 0
        · simp [hm]
        · have : ¬ m ≤ 0 := by omega
          simp [hm, this]

/-! ### `re_font_render`: result and dimensions -/

theorem measure_pos (face : ReFont) (t : List Char) (hl : face.loaded ≠ 0) (ht : t ≠ []) :
    0 < (re_font_measure (some face) (some t)).1 ∧
      0 < (re_font_measure (some face) (some t)).2 := by
  have hgw := glyph_width_ge (some face)
  have hlh := line_height_pos (some face)
  unfold re_font_measure
  simp only [hl, ht, or_self, if_false]
  constructor
  · split
    · omega
    · omega
  · split
    · exact hlh
    · omega

theorem measure_unloaded (face : ReFont) (text : Option (List Char)) (hl : face.loaded = 0) :
    re_font_measure (some face) text = (0, 0) := by
  cases text with
  | none => rfl
  | some t => simp [re_font_measure, hl]

theorem render_some_of_loaded (al : Alloc) (r : SDL_Renderer) (face : ReFont) (t : List Char)
    (color : SDL_Color) (hp : al.pixels_ok = true) (hs : al.surface_ok = true)
    (htx : al.texture_ok = true) (hl : face.loaded ≠ 0) (ht : t ≠ []) :
    ∃ tex, re_font_render al (some r) (some face) (some t) color = some tex := by
  obtain ⟨hw, hh⟩ := measure_pos face t hl ht
  have hw2 : ¬ (re_font_measure (some face) (some t)).1 ≤ 0 := by omega
  have hh2 : ¬ (re_font_measure (some face) (some t)).2 ≤ 0 := by omega
  simp [re_font_render, hl, ht, hw2, hh2, hp, hs, htx, SDL_CreateRGBSurfaceFrom,
    SDL_CreateTextureFromSurface]

theorem render_dims (al : Alloc) (renderer : Option SDL_Renderer) (f : Option ReFont)
    (text : Option (List Char)) (color : SDL_Color) (tex : SDL_Texture)
    (h : re_font_render al renderer f text color = some tex) :
    tex.width = (re_font_measure f text).1 ∧ tex.height = (re_font_measure f text).2 := by
  unfold re_font_render at h
  split at h
  · split at h
    · exact absurd h (by simp)
    · simp only at h
      split at h
      · exact absurd h (by simp)
      · split at h
        · unfold SDL_CreateRGBSurfaceFrom at h
          split at h
          · exact absurd h (by simp)
          · rename_i surface hs
            split at hs
            · simp only [Option.some.injEq] at hs
              subst hs
              unfold SDL_CreateTextureFromSurface at h
              simp only at h
              split at h
              · simp only [Option.some.injEq] at h
                subst h
                exact ⟨rfl, rfl⟩
              · exact absurd h (by simp)
            · exact absurd hs (by simp)
        · exact absurd h (by simp)
  · exact absurd h (by simp)

/-- C2: whenever `re_font_render` returns a texture, the texture's width and
height are exactly the width and height `re_font_measure` reports for the same
face and text. -/
theorem C2_render_dims_eq_measure (al : Alloc) (renderer : Option SDL_Renderer)
    (f : Option ReFont) (text : Option (List Char)) (color : SDL_Color) (tex : SDL_Texture)
    (h : re_font_render al renderer f text color = some tex) :
    tex.width = (re_font_measure f text).1 ∧ tex.height = (re_font_measure f text).2 :=
  render_dims al renderer f text color tex h

theorem C2_render_dims_eq_measure_witness :
    re_font_render Alloc.all (some ⟨800, 600⟩) (some (re_font_load 1)) (some ['a']) ⟨1, 2, 3, 4⟩
        = some ⟨4, 1, some [1, 2, 3, 4, 1, 2, 3, 4, 1, 2, 3, 4, 0, 0, 0, 0]⟩ ∧
      (4 : Int) = (re_font_measure (some (re_font_load 1)) (some ['a'])).1 ∧
      (1 : Int) = (re_font_measure (some (re_font_load 1)) (some ['a'])).2 :=
  ⟨by decide,
    C2_render_dims_eq_measure Alloc.all (some ⟨800, 600⟩) (some (re_font_load 1)) (some ['a'])
      ⟨1, 2, 3, 4⟩ ⟨4, 1, some [1, 2, 3, 4, 1, 2, 3, 4, 1, 2, 3, 4, 0, 0, 0, 0]⟩ (by decide)⟩

/-- With the `int` arithmetic taken in `Int`, a non-null renderer and no
allocation failure, `re_font_render` returns null exactly when the face is
null or unloaded, the text is null or empty, or a measured dimension is not
positive; for a loaded face and a non-empty text both measured dimensions are
positive and a texture is returned. -/
theorem render_null_iff (al : Alloc) (r : SDL_Renderer) (f : Option ReFont)
    (text : Option (List Char)) (color : SDL_Color) (face : ReFont) (t : List Char)
    (hp : al.pixels_ok = true) (hs : al.surface_ok = true) (htx : al.texture_ok = true) :
    (re_font_render al (some r) f text color = none ↔
        (f = none ∨ (∃ fc, f = some fc ∧ fc.loaded = 0) ∨ text = none ∨ text = some [] ∨
          (re_font_measure f text).1 ≤ 0 ∨ (re_font_measure f text).2 ≤ 0)) ∧
      (face.loaded ≠ 0 → t ≠ [] →
        0 < (re_font_measure (some face) (some t)).1 ∧
          0 < (re_font_measure (some face) (some t)).2 ∧
          ∃ tex, re_font_render al (some r) (some face) (some t) color = some tex) := by
  constructor
  · cases f with
    | none => simp [re_font_render]
    | some fc =>
      cases text with
      | none => simp [re_font_render]
      | some tx =>
        by_cases hl : fc.loaded = 0
        · simp [re_font_render, hl]
        · by_cases ht : tx = []
          · simp [re_font_render, ht]
          · obtain ⟨tex, htex⟩ := render_some_of_loaded al r fc tx color hp hs htx hl ht
            obtain ⟨hw, hh⟩ := measure_pos fc tx hl ht
            rw [htex]
            simp only [reduceCtorEq, Option.some.injEq, exists_eq_left', hl, ht, false_or,
              false_iff, not_or, not_le]
            exact ⟨hw, hh⟩
  · intro hl ht
    obtain ⟨hw, hh⟩ := measure_pos face t hl ht
    exact ⟨hw, hh, render_some_of_loaded al r face t color hp hs htx hl ht⟩

/-! ### `re_font_render`: pen advance against `re_font_measure` -/

/-- C4 (evaluation at the failing input): for the 18-px face and the text
`"ab\nc"` the measured buffer is 22 × 44 and a texture is returned, yet the
character `c` (column 0 of line 1, expected pen `(0, 22)`) is reached with the
pen at `(0, 44)`: the wrap after `b` and the newline both advance `pen_y`, the
rectangle starts below the buffer and no pixel of it is painted. -/
theorem C4_render_pen_double_advance :
    re_font_measure (some (re_font_load 18)) (some ['a', 'b', '\n', 'c']) = (22, 44) ∧
      (re_font_render Alloc.all (some ⟨800, 600⟩) (some (re_font_load 18))
        (some ['a', 'b', '\n', 'c']) COL_TEXT).isSome = true ∧
      (0 * (glyph_width (some (re_font_load 18)) + 1), 1 * line_height (some (re_font_load 18)))
        = ((0 : Int), (22 : Int)) ∧
      renderPenAt (re_font_load 18) ['a', 'b', '\n', 'c'] COL_TEXT 3 = (0, 44) ∧
      glyphIndices (glyph_width (some (re_font_load 18))) (glyph_height (re_font_load 18))
        22 44 (22 * 4) 0 44 = [] := by
  refine ⟨by decide, by decide, by decide, by decide, by decide⟩

/-! ### `layout`: one word -/

theorem draw_text_of_render (al : Alloc) (r : Option SDL_Renderer) (f : ReFont)
    (s : List Char) (x y : Int) (c : SDL_Color) (tex : SDL_Texture)
    (h : re_font_render al r (some f) (some s) c = some tex) :
    draw_text al r f s x y c =
      [{ texture := tex
         dst := { x := x, y := y, w := (re_font_measure (some f) (some s)).1
                  h := (re_font_measure (some f) (some s)).2 } }] := by
  simp [draw_text, h]

theorem layoutWord_fit (al : Alloc) (r : Option SDL_Renderer) (f : ReFont) (x w : Int)
    (st : LayoutState) (tok : List Char) (tex : SDL_Texture) (tw th : Int)
    (hm : re_font_measure (some f) (some (word_of tok)) = (tw, th))
    (hr : re_font_render al r (some f) (some (word_of tok)) COL_TEXT = some tex)
    (hfit : st.cx + tw ≤ x + w) :
    layoutWord al r f x w st tok =
      ({ cx := st.cx + tw, cy := st.cy, lh := max st.lh th },
        [{ texture := tex, dst := { x := st.cx, y := st.cy, w := tw, h := th } }]) := by
  have hn : ¬ st.cx + tw > x + w := by omega
  have hmax : (if th > st.lh then th else st.lh) = max st.lh th := by
    rw [max_def]; split <;> split <;> omega
  simp only [layoutWord, hm, hn, if_false, draw_text_of_render _ _ _ _ _ _ _ _ hr, hmax]

theorem layoutWord_wrap (al : Alloc) (r : Option SDL_Renderer) (f : ReFont) (x w : Int)
    (st : LayoutState) (tok : List Char) (tex : SDL_Texture) (tw th : Int)
    (hm : re_font_measure (some f) (some (word_of tok)) = (tw, th))
    (hr : re_font_render al r (some f) (some (word_of tok)) COL_TEXT = some tex)
    (hwrap : ¬ st.cx + tw ≤ x + w) :
    layoutWord al r f x w st tok =
      ({ cx := x + tw, cy := st.cy + (if st.lh = 0 then th else st.lh), lh := max 0 th },
        [{ texture := tex
           dst := { x := x, y := st.cy + (if st.lh = 0 then th else st.lh), w := tw, h := th } }]) := by
  have hn : st.cx + tw > x + w := by omega
  have hmax : (if th > 0 then th else 0) = max 0 th := by
    rw [max_def]; split <;> split <;> omega
  have hlh : (if st.lh ≠ 0 then st.lh else th) = (if st.lh = 0 then th else st.lh) := by
    by_cases h0 : st.lh = 0 <;> simp [h0]
  simp only [layoutWord, hm, hn, if_true, draw_text_of_render _ _ _ _ _ _ _ _ hr, hmax, hlh]

theorem hello_words : strtok_all (helloText.take 1023) = [tokHello, tokWorld] := by decide

theorem hello_measure :
    re_font_measure (some (re_font_load 16)) (some (word_of tokHello)) = (60, 20) := by
  decide

theorem world_measure :
    re_font_measure (some (re_font_load 16)) (some (word_of tokWorld)) = (60, 20) := by
  decide

theorem hello_layout (al : Alloc) (r : Option SDL_Renderer) (x y w s : Int) :
    layout al r (ui16 s) helloDoc x y w =
      layoutWords al r (re_font_load 16) x w [tokHello, tokWorld]
        { cx := x, cy := y - s, lh := 0 } := by
  have e3 : ('\n' ∈ helloText) = False := by decide
  simp only [layout, helloDoc, layoutElems, layoutElem, textRun, hello_words, e3, if_false,
    if_true, List.append_nil]
  rfl

theorem hello_layout_200 (x y s : Int) :
    ((layout Alloc.all (some ⟨800, 600⟩) (ui16 s) helloDoc x y 200).2.map (fun c => c.dst))
      = [⟨x, y - s, 60, 20⟩, ⟨x + 60, y - s, 60, 20⟩] := by
  obtain ⟨t1, h1⟩ := render_some_of_loaded Alloc.all ⟨800, 600⟩ (re_font_load 16)
    (word_of tokHello) COL_TEXT rfl rfl rfl (by decide) (by decide)
  obtain ⟨t2, h2⟩ := render_some_of_loaded Alloc.all ⟨800, 600⟩ (re_font_load 16)
    (word_of tokWorld) COL_TEXT rfl rfl rfl (by decide) (by decide)
  rw [hello_layout]
  simp only [layoutWords]
  rw [layoutWord_fit _ _ _ _ _ _ _ t1 60 20 hello_measure h1 (by simp)]
  rw [layoutWord_fit _ _ _ _ _ _ _ t2 60 20 world_measure h2 (by simp; omega)]
  simp

theorem hello_layout_100 (x y s : Int) :
    ((layout Alloc.all (some ⟨800, 600⟩) (ui16 s) helloDoc x y 100).2.map (fun c => c.dst))
      = [⟨x, y - s, 60, 20⟩, ⟨x, y - s + 20, 60, 20⟩] := by
  obtain ⟨t1, h1⟩ := render_some_of_loaded Alloc.all ⟨800, 600⟩ (re_font_load 16)
    (word_of tokHello) COL_TEXT rfl rfl rfl (by decide) (by decide)
  obtain ⟨t2, h2⟩ := render_some_of_loaded Alloc.all ⟨800, 600⟩ (re_font_load 16)
    (word_of tokWorld) COL_TEXT rfl rfl rfl (by decide) (by decide)
  rw [hello_layout]
  simp only [layoutWords]
  rw [layoutWord_fit _ _ _ _ _ _ _ t1 60 20 hello_measure h1 (by simp)]
  rw [layoutWord_wrap _ _ _ _ _ _ _ t2 60 20 world_measure h2 (by simp; omega)]
  simp

/-- C5: in `layout`, a word (token plus one trailing space) of measured size
`(tw, th)` met with pen `(cx, cy)` and line height `lh` is painted at
`(cx, cy)` when `cx + tw ≤ x + w`; otherwise it is painted at `(x, cy + lh)`,
or `(x, cy + th)` when `lh = 0`, the line height restarting from 0; afterwards
the line height is the maximum of itself and `th` and `cx` is the paint x plus
`tw`.  With a 16-px face the run `"Hello world"` has both words at
`y = content_top` in a 200-px viewport, and `"world "` at
`(content_left, content_top + 20)` in a 100-px viewport. -/
theorem C5_layout_word_step (al : Alloc) (r : Option SDL_Renderer) (f : ReFont) (x w : Int)
    (st : LayoutState) (tok : List Char) (tex : SDL_Texture)
    (hr : re_font_render al r (some f) (some (word_of tok)) COL_TEXT = some tex) :
    (st.cx + (re_font_measure (some f) (some (word_of tok))).1 ≤ x + w →
        layoutWord al r f x w st tok =
          ({ cx := st.cx + (re_font_measure (some f) (some (word_of tok))).1
             cy := st.cy
             lh := max st.lh (re_font_measure (some f) (some (word_of tok))).2 },
            [{ texture := tex
               dst := { x := st.cx, y := st.cy
                        w := (re_font_measure (some f) (some (word_of tok))).1
                        h := (re_font_measure (some f) (some (word_of tok))).2 } }])) ∧
      (¬ st.cx + (re_font_measure (some f) (some (word_of tok))).1 ≤ x + w →
        layoutWord al r f x w st tok =
          ({ cx := x + (re_font_measure (some f) (some (word_of tok))).1
             cy := st.cy +
               (if st.lh = 0 then (re_font_measure (some f) (some (word_of tok))).2 else st.lh)
             lh := max 0 (re_font_measure (some f) (some (word_of tok))).2 },
            [{ texture := tex
               dst := { x := x
                        y := st.cy +
                          (if st.lh = 0 then (re_font_measure (some f) (some (word_of tok))).2
                            else st.lh)
                        w := (re_font_measure (some f) (some (word_of tok))).1
                        h := (re_font_measure (some f) (some (word_of tok))).2 } }])) ∧
      (∀ x0 y0 : Int,
        (layout Alloc.all (some ⟨800, 600⟩) (ui16 0) helloDoc x0 y0 200).2.map (fun c => c.dst)
          = [⟨x0, y0, 60, 20⟩, ⟨x0 + 60, y0, 60, 20⟩]) ∧
      (∀ x0 y0 : Int,
        (layout Alloc.all (some ⟨800, 600⟩) (ui16 0) helloDoc x0 y0 100).2.map (fun c => c.dst)
          = [⟨x0, y0, 60, 20⟩, ⟨x0, y0 + 20, 60, 20⟩]) := by
  refine ⟨fun h => layoutWord_fit al r f x w st tok tex _ _ rfl hr h,
    fun h => layoutWord_wrap al r f x w st tok tex _ _ rfl hr h, ?_, ?_⟩
  · intro x0 y0
    have h := hello_layout_200 x0 y0 0
    simpa using h
  · intro x0 y0
    have h := hello_layout_100 x0 y0 0
    simpa using h

theorem C5_layout_word_step_witness :
    re_font_render Alloc.all (some ⟨800, 600⟩) (some (re_font_load 1)) (some (word_of ['a']))
        COL_TEXT
        = some ⟨8, 1, some [20, 20, 20, 255, 20, 20, 20, 255, 20, 20, 20, 255, 0, 0, 0, 0,
            0, 0, 0, 0, 0, 0, 0, 0, 0, 0, 0, 0, 0, 0, 0, 0]⟩ ∧
      layoutWord Alloc.all (some ⟨800, 600⟩) (re_font_load 1) 0 10 ⟨4, 0, 1⟩ ['a']
        = (⟨8, 1, 1⟩,
            [⟨⟨8, 1, some [20, 20, 20, 255, 20, 20, 20, 255, 20, 20, 20, 255, 0, 0, 0, 0,
                0, 0, 0, 0, 0, 0, 0, 0, 0, 0, 0, 0, 0, 0, 0, 0]⟩, ⟨0, 1, 8, 1⟩⟩]) :=
  ⟨by decide,
    (C5_layout_word_step Alloc.all (some ⟨800, 600⟩) (re_font_load 1) 0 10 ⟨4, 0, 1⟩ ['a']
      ⟨8, 1, some [20, 20, 20, 255, 20, 20, 20, 255, 20, 20, 20, 255, 0, 0, 0, 0,
        0, 0, 0, 0, 0, 0, 0, 0, 0, 0, 0, 0, 0, 0, 0, 0]⟩ (by decide)).2.1 (by decide)⟩

/-! ### `layout`: the right edge of the viewport -/

theorem draw_text_cases (al : Alloc) (r : Option SDL_Renderer) (f : ReFont)
    (s : List Char) (x y : Int) (c : SDL_Color) :
    draw_text al r f s x y c = [] ∨
      ∃ tex, draw_text al r f s x y c =
        [{ texture := tex
           dst := { x := x, y := y, w := (re_font_measure (some f) (some s)).1
                    h := (re_font_measure (some f) (some s)).2 } }] := by
  cases h : re_font_render al r (some f) (some s) c with
  | none => left; simp [draw_text, h]
  | some tex => right; exact ⟨tex, draw_text_of_render al r f s x y c tex h⟩

theorem layoutWord_fitsOrWide (al : Alloc) (r : Option SDL_Renderer) (f : ReFont) (x w : Int)
    (st : LayoutState) (tok : List Char) :
    ∀ c ∈ (layoutWord al r f x w st tok).2, fitsOrWide x w c := by
  intro c hc
  unfold layoutWord at hc
  simp only at hc
  rcases draw_text_cases al r f (word_of tok)
      (if st.cx + (re_font_measure (some f) (some (word_of tok))).1 > x + w then
        ({ cx := x
           cy := st.cy + (if st.lh ≠ 0 then st.lh
             else (re_font_measure (some f) (some (word_of tok))).2)
           lh := 0 } : LayoutState) else st).cx
      (if st.cx + (re_font_measure (some f) (some (word_of tok))).1 > x + w then
        ({ cx := x
           cy := st.cy + (if st.lh ≠ 0 then st.lh
             else (re_font_measure (some f) (some (word_of tok))).2)
           lh := 0 } : LayoutState) else st).cy COL_TEXT with h | ⟨tex, h⟩
  · rw [h] at hc
    exact absurd hc (List.not_mem_nil c)
  · rw [h] at hc
    rw [List.mem_singleton] at hc
    subst hc
    unfold fitsOrWide
    simp only
    by_cases hw : st.cx + (re_font_measure (some f) (some (word_of tok))).1 > x + w
    · simp only [hw, if_true]
      by_cases h2 : (re_font_measure (some f) (some (word_of tok))).1 ≤ w
      · left; omega
      · right; exact ⟨trivial, by omega⟩
    · simp only [hw, if_false]
      left; omega

theorem layoutWords_fitsOrWide (al : Alloc) (r : Option SDL_Renderer) (f : ReFont) (x w : Int)
    (toks : List (List Char)) (st : LayoutState) :
    ∀ c ∈ (layoutWords al r f x w toks st).2, fitsOrWide x w c := by
  induction toks generalizing st with
  | nil => intro c hc; simp [layoutWords] at hc
  | cons tok rest ih =>
    intro c hc
    simp only [layoutWords, List.mem_append] at hc
    rcases hc with hc | hc
    · exact layoutWord_fitsOrWide al r f x w st tok c hc
    · exact ih _ c hc

theorem layoutElem_fitsOrWide (al : Alloc) (r : Option SDL_Renderer) (ui : ReUI) (x w : Int)
    (st : LayoutState) (el : ReElement) :
    ∀ c ∈ (layoutElem al r ui x w st el).2, fitsOrWide x w c := by
  intro c hc
  unfold layoutElem at hc
  split at hc
  · exact layoutWords_fitsOrWide al r _ x w _ st c hc
  · split at hc
    · split at hc
      · simp only [List.mem_singleton] at hc
        subst hc
        unfold fitsOrWide
        simp only
        left
        split <;> omega
      · simp at hc
    · simp at hc

theorem layoutElems_fitsOrWide (al : Alloc) (r : Option SDL_Renderer) (ui : ReUI) (x w : Int)
    (els : List ReElement) (st : LayoutState) :
    ∀ c ∈ (layoutElems al r ui x w els st).2, fitsOrWide x w c := by
  induction els generalizing st with
  | nil => intro c hc; simp [layoutElems] at hc
  | cons el rest ih =>
    intro c hc
    simp only [layoutElems, List.mem_append] at hc
    rcases hc with hc | hc
    · exact layoutElem_fitsOrWide al r ui x w st el c hc
    · exact ih _ c hc

/-- C6 (counterexample): with the faces of `reui_init` and a 300-px viewport
(that of a 360-px window), a word of 45 letters (506 px with its trailing
space) is painted at the left edge and ends past the right edge. -/
theorem C6_wide_word_passes_right_edge :
    (layout Alloc.all (some ⟨360, 780⟩) reui_init longWordDoc 30 60 300).2.map
        (fun c => c.dst) = [⟨30, 82, 506, 22⟩] ∧
      ¬ (∀ c ∈ (layout Alloc.all (some ⟨360, 780⟩) reui_init longWordDoc 30 60 300).2,
          c.dst.x + c.dst.w ≤ 30 + 300) := by
  refine ⟨by decide, by decide⟩

/-- C6 (amended): every draw command `layout` issues, for a word or an image,
either ends at or before the right edge (`x + width ≤ content_left +
content_width`) or is wider than the viewport and starts at the left edge: a
word is never cut, only moved to the start of the next line. -/
theorem C6_painted_fits_or_starts_line (al : Alloc) (r : Option SDL_Renderer) (ui : ReUI)
    (d : ReDocument) (x y w : Int) :
    ∀ c ∈ (layout al r ui d x y w).2,
      c.dst.x + c.dst.w ≤ x + w ∨ (c.dst.x = x ∧ w < c.dst.w) :=
  layoutElems_fitsOrWide al r ui x w d.elems _

theorem C6_painted_fits_or_starts_line_witness :
    (⟨⟨60, 20, none⟩, ⟨30, 80, 60, 20⟩⟩ : RenderCopy) ∈
        (layout Alloc.noCopy (some ⟨800, 600⟩) (ui16 0) helloDoc 30 60 100).2 ∧
      ((30 : Int) + 60 ≤ 30 + 100 ∨ ((30 : Int) = 30 ∧ (100 : Int) < 60)) :=
  ⟨by decide,
    C6_painted_fits_or_starts_line Alloc.noCopy (some ⟨800, 600⟩) (ui16 0) helloDoc 30 60 100
      ⟨⟨60, 20, none⟩, ⟨30, 80, 60, 20⟩⟩ (by decide)⟩

/-! ### `layout`: a run wider than the viewport breaks the line -/

theorem draw_text_shift (al : Alloc) (r : Option SDL_Renderer) (f : ReFont) (s : List Char)
    (x y delta : Int) (c : SDL_Color) :
    draw_text al r f s x (y - delta) c = (draw_text al r f s x y c).map (shiftUp delta) := by
  unfold draw_text
  cases re_font_render al r (some f) (some s) c with
  | none => rfl
  | some tex => rfl

theorem layoutWord_shift (al : Alloc) (r : Option SDL_Renderer) (f : ReFont) (x w delta : Int)
    (st : LayoutState) (tok : List Char) :
    layoutWord al r f x w (st.shiftUp delta) tok =
      (((layoutWord al r f x w st tok).1).shiftUp delta,
        (layoutWord al r f x w st tok).2.map (shiftUp delta)) := by
  unfold layoutWord LayoutState.shiftUp
  simp only
  by_cases hw : st.cx + (re_font_measure (some f) (some (word_of tok))).1 > x + w
  · simp only [hw, if_true, ← draw_text_shift]
    refine Prod.ext ?_ ?_
    · simp only [LayoutState.mk.injEq, true_and]
      constructor
      · ring
      · trivial
    · simp only
      congr 1
      ring
  · simp only [hw, if_false, ← draw_text_shift]

theorem layoutWords_shift (al : Alloc) (r : Option SDL_Renderer) (f : ReFont) (x w delta : Int)
    (toks : List (List Char)) (st : LayoutState) :
    layoutWords al r f x w toks (st.shiftUp delta) =
      (((layoutWords al r f x w toks st).1).shiftUp delta,
        (layoutWords al r f x w toks st).2.map (shiftUp delta)) := by
  induction toks generalizing st with
  | nil => rfl
  | cons tok rest ih =>
    simp only [layoutWords, layoutWord_shift, ih, List.map_append]

theorem layoutElem_shift (al : Alloc) (r : Option SDL_Renderer) (ui ui2 : ReUI) (x w delta : Int)
    (hf : ui2.font = ui.font) (hf1 : ui2.font_h1 = ui.font_h1)
    (st : LayoutState) (el : ReElement) :
    layoutElem al r ui2 x w (st.shiftUp delta) el =
      (((layoutElem al r ui x w st el).1).shiftUp delta,
        (layoutElem al r ui x w st el).2.map (shiftUp delta)) := by
  have hfont : elemFont ui2 el = elemFont ui el := by
    unfold elemFont; rw [hf, hf1]
  unfold layoutElem
  by_cases ht : el.type = ReElementType.RE_E_TEXT
  · simp only [ht, if_true, hfont, layoutWords_shift]
    refine Prod.ext ?_ rfl
    simp only [LayoutState.shiftUp]
    split
    · simp only [LayoutState.mk.injEq, true_and, and_true]
      ring
    · rfl
  · simp only [ht, if_false]
    cases htex : el.tex with
    | none => rfl
    | some tex =>
      simp only
      by_cases hi : el.type = ReElementType.RE_E_IMG
      · simp only [hi, if_true, LayoutState.shiftUp, List.map_cons, List.map_nil, shiftUp]
        by_cases hcx : st.cx ≠ x
        · simp only [hcx, if_true, ne_eq, not_false_eq_true]
          refine Prod.ext ?_ ?_
          · simp only [LayoutState.mk.injEq, true_and, and_true]
            ring
          · simp only [List.cons.injEq, RenderCopy.mk.injEq, SDL_Rect.mk.injEq, true_and,
              and_true]
            ring
        · simp only [hcx, if_false]
          refine Prod.ext ?_ ?_
          · simp only [LayoutState.mk.injEq, true_and, and_true]
            ring
          · rfl
      · simp only [hi, if_false]
        rfl

theorem layoutElems_shift (al : Alloc) (r : Option SDL_Renderer) (ui ui2 : ReUI) (x w delta : Int)
    (hf : ui2.font = ui.font) (hf1 : ui2.font_h1 = ui.font_h1)
    (els : List ReElement) (st : LayoutState) :
    layoutElems al r ui2 x w els (st.shiftUp delta) =
      (((layoutElems al r ui x w els st).1).shiftUp delta,
        (layoutElems al r ui x w els st).2.map (shiftUp delta)) := by
  induction els generalizing st with
  | nil => rfl
  | cons el rest ih =>
    simp only [layoutElems, layoutElem_shift al r ui ui2 x w delta hf hf1, ih, List.map_append]

/-- C8: for every document, viewport, pair of fonts, scroll offset `s` and
increment `D`, the draw commands `layout` issues at scroll offset `s + D` are
those it issues at scroll offset `s`, in the same order with the same texture,
x, width and height, every y decreased by exactly `D`. -/
theorem C8_scroll_shifts_y (al : Alloc) (r : Option SDL_Renderer) (ui : ReUI) (d : ReDocument)
    (x y w D : Int) :
    (layout al r { ui with scroll := ui.scroll + D } d x y w).2 =
      (layout al r ui d x y w).2.map
        (fun c => { c with dst := { c.dst with y := c.dst.y - D } }) := by
  unfold layout
  have hst : ({ cx := x, cy := y - ({ ui with scroll := ui.scroll + D } : ReUI).scroll, lh := 0 }
      : LayoutState) = LayoutState.shiftUp D { cx := x, cy := y - ui.scroll, lh := 0 } := by
    simp only [LayoutState.shiftUp, LayoutState.mk.injEq, true_and, and_true]
    ring
  rw [hst, layoutElems_shift al r ui { ui with scroll := ui.scroll + D } x w D rfl rfl]
  rfl

/-! ### Single-precision scaling of images -/

theorem log2Fuel_spec (fuel n : Nat) (hle : n ≤ fuel) (hn : n ≠ 0) :
    2 ^ log2Fuel fuel n ≤ n ∧ n < 2 ^ (log2Fuel fuel n + 1) := by
  induction fuel generalizing n with
  | zero => omega
  | succ fuel ih =>
    unfold log2Fuel
    by_cases h2 : n < 2
    · simp only [h2, if_true]
      constructor
      · simp; omega
      · simp; omega
    · simp only [h2, if_false]
      obtain ⟨h3, h4⟩ := ih (n / 2) (by omega) (by omega)
      constructor
      · rw [pow_succ]; omega
      · rw [pow_succ]; omega

theorem ilog2_spec (n : Nat) (hn : n ≠ 0) : 2 ^ ilog2 n ≤ n ∧ n < 2 ^ (ilog2 n + 1) :=
  log2Fuel_spec n n (le_refl n) hn

theorem ilog2_lt_of_lt_pow (n k : Nat) (hn : n ≠ 0) (h : n < 2 ^ k) : ilog2 n < k := by
  by_contra hc
  have h1 := (ilog2_spec n hn).1
  have h2 : 2 ^ k ≤ 2 ^ ilog2 n := Nat.pow_le_pow_right (by decide) (by omega)
  omega

theorem roundNearestEven_bound (n d : Nat) (hd : 0 < d) :
    2 * n ≤ 2 * (roundNearestEven n d * d) + d ∧ 2 * (roundNearestEven n d * d) ≤ 2 * n + d := by
  have h1 := Nat.div_add_mod n d
  have h2 := Nat.mod_lt n hd
  unfold roundNearestEven
  simp only
  have e1 : (n / d + 1) * d = n / d * d + d := by ring
  have e2 : d * (n / d) = n / d * d := by ring
  rw [e2] at h1
  split
  · omega
  · split
    · rw [e1]; omega
    · split
      · omega
      · rw [e1]; omega

theorem roundNearestEven_exact (m d : Nat) (hd : 0 < d) : roundNearestEven (m * d) d = m := by
  unfold roundNearestEven
  simp [Nat.mul_div_cancel _ hd, hd]

theorem f32_scaled_ge (n d : Nat) (hn : n ≠ 0) (hd : d ≠ 0) :
    2 ^ 23 * f32_den d (f32_shift n d) ≤ f32_num n (f32_shift n d) := by
  obtain ⟨hn1, _⟩ := ilog2_spec n hn
  obtain ⟨_, hd2⟩ := ilog2_spec d hd
  unfold f32_den f32_num f32_shift
  by_cases hs : (0 : Int) ≤ 24 + (ilog2 d : Int) - (ilog2 n : Int)
  · simp only [hs, if_true]
    have ht : (24 + (ilog2 d : Int) - (ilog2 n : Int)).toNat = 24 + ilog2 d - ilog2 n := by omega
    rw [ht]
    have hle : ilog2 n ≤ 24 + ilog2 d := by omega
    calc 2 ^ 23 * d ≤ 2 ^ 23 * 2 ^ (ilog2 d + 1) := Nat.mul_le_mul_left _ (le_of_lt hd2)
      _ = 2 ^ ilog2 n * 2 ^ (24 + ilog2 d - ilog2 n) := by
        rw [← pow_add, ← pow_add]; congr 1; omega
      _ ≤ n * 2 ^ (24 + ilog2 d - ilog2 n) := Nat.mul_le_mul_right _ hn1
  · simp only [hs, if_false]
    have ht : (-(24 + (ilog2 d : Int) - (ilog2 n : Int))).toNat = ilog2 n - 24 - ilog2 d := by
      omega
    rw [ht]
    calc 2 ^ 23 * (d * 2 ^ (ilog2 n - 24 - ilog2 d))
        ≤ 2 ^ 23 * (2 ^ (ilog2 d + 1) * 2 ^ (ilog2 n - 24 - ilog2 d)) :=
          Nat.mul_le_mul_left _ (Nat.mul_le_mul_right _ (le_of_lt hd2))
      _ = 2 ^ ilog2 n := by
        rw [← pow_add, ← pow_add]; congr 1; omega
      _ ≤ n := hn1

theorem f32_scaled_quot (n d : Nat) (hd : d ≠ 0) (s : Int) :
    (f32_num n s : ℚ) / (f32_den d s : ℚ) = (n : ℚ) / (d : ℚ) * (2 : ℚ) ^ s := by
  have hd0 : (d : ℚ) ≠ 0 := Nat.cast_ne_zero.mpr hd
  unfold f32_num f32_den
  by_cases hs : 0 ≤ s
  · simp only [hs, if_true]
    have e : (2 : ℚ) ^ s = (2 : ℚ) ^ s.toNat := by
      rw [← zpow_natCast, Int.toNat_of_nonneg hs]
    rw [e]
    push_cast
    ring
  · simp only [hs, if_false]
    have e : (2 : ℚ) ^ s = ((2 : ℚ) ^ (-s).toNat)⁻¹ := by
      rw [← zpow_natCast, Int.toNat_of_nonneg (by omega), zpow_neg, inv_inv]
    rw [e]
    push_cast
    field_simp

theorem round_err_scaled (m n d : Nat) (hd : 0 < d) (hn : 2 ^ 23 * d ≤ n)
    (h1 : 2 * n ≤ 2 * (m * d) + d) (h2 : 2 * (m * d) ≤ 2 * n + d) (E : Int) :
    |(m : ℚ) * (2 : ℚ) ^ E - (n : ℚ) / (d : ℚ) * (2 : ℚ) ^ E|
      ≤ (n : ℚ) / (d : ℚ) * (2 : ℚ) ^ E / 2 ^ 24 := by
  have hdq : (0 : ℚ) < (d : ℚ) := Nat.cast_pos.mpr hd
  have hE : (0 : ℚ) < (2 : ℚ) ^ E := zpow_pos (by norm_num) E
  have hnq : (2 : ℚ) ^ 23 * (d : ℚ) ≤ (n : ℚ) := by exact_mod_cast hn
  have h1q : 2 * (n : ℚ) ≤ 2 * ((m : ℚ) * (d : ℚ)) + (d : ℚ) := by exact_mod_cast h1
  have h2q : 2 * ((m : ℚ) * (d : ℚ)) ≤ 2 * (n : ℚ) + (d : ℚ) := by exact_mod_cast h2
  have hy : (2 : ℚ) ^ 23 ≤ (n : ℚ) / (d : ℚ) := by
    rw [le_div_iff₀ hdq]; exact hnq
  have hlo : (n : ℚ) / (d : ℚ) - 1 / 2 ≤ (m : ℚ) := by
    rw [sub_le_iff_le_add, div_le_iff₀ hdq]
    nlinarith
  have hhi : (m : ℚ) ≤ (n : ℚ) / (d : ℚ) + 1 / 2 := by
    have : (m : ℚ) - 1 / 2 ≤ (n : ℚ) / (d : ℚ) := by
      rw [le_div_iff₀ hdq]
      nlinarith
    linarith
  have hfac : (m : ℚ) * (2 : ℚ) ^ E - (n : ℚ) / (d : ℚ) * (2 : ℚ) ^ E
      = ((m : ℚ) - (n : ℚ) / (d : ℚ)) * (2 : ℚ) ^ E := by ring
  rw [hfac, abs_mul, abs_of_pos hE]
  have habs : |(m : ℚ) - (n : ℚ) / (d : ℚ)| ≤ 1 / 2 := by
    rw [abs_le]; constructor <;> linarith
  have hb : (1 : ℚ) / 2 ≤ (n : ℚ) / (d : ℚ) / 2 ^ 24 := by
    rw [le_div_iff₀ (by norm_num)]
    norm_num at hy ⊢
    linarith
  calc |(m : ℚ) - (n : ℚ) / (d : ℚ)| * (2 : ℚ) ^ E
      ≤ (1 / 2) * (2 : ℚ) ^ E := mul_le_mul_of_nonneg_right habs (le_of_lt hE)
    _ ≤ (n : ℚ) / (d : ℚ) / 2 ^ 24 * (2 : ℚ) ^ E := mul_le_mul_of_nonneg_right hb (le_of_lt hE)
    _ = (n : ℚ) / (d : ℚ) * (2 : ℚ) ^ E / 2 ^ 24 := by ring

theorem f32_den_pos (d : Nat) (hd : d ≠ 0) (s : Int) : 0 < f32_den d s := by
  unfold f32_den
  split
  · omega
  · exact Nat.mul_pos (Nat.pos_of_ne_zero hd) (Nat.pow_pos (by decide))

theorem f32_round_err (n d : Nat) (e : Int) (hd : d ≠ 0) :
    |F32.toRat (f32_round false n d e) - (n : ℚ) / (d : ℚ) * (2 : ℚ) ^ e|
      ≤ (n : ℚ) / (d : ℚ) * (2 : ℚ) ^ e / 2 ^ 24 := by
  by_cases hn : n = 0
  · subst hn
    simp [f32_round, F32.toRat]
  · have hge := f32_scaled_ge n d hn hd
    have hq := f32_scaled_quot n d hd (f32_shift n d)
    have hdp := f32_den_pos d hd (f32_shift n d)
    unfold f32_round
    simp only [hn, if_false]
    by_cases hb : 2 ^ 24 * f32_den d (f32_shift n d) ≤ f32_num n (f32_shift n d)
    · simp only [hb, if_true, F32.toRat, Bool.false_eq_true, if_false, one_mul]
      obtain ⟨h1, h2⟩ := roundNearestEven_bound (f32_num n (f32_shift n d))
        (2 * f32_den d (f32_shift n d)) (by omega)
      have key := round_err_scaled _ _ _ (by omega) (by omega) h1 h2 (e - f32_shift n d + 1)
      have hx : ((f32_num n (f32_shift n d) : ℚ)) / ((2 * f32_den d (f32_shift n d) : ℕ) : ℚ)
          * (2 : ℚ) ^ (e - f32_shift n d + 1) = (n : ℚ) / (d : ℚ) * (2 : ℚ) ^ e := by
        have hdq : ((f32_den d (f32_shift n d) : ℕ) : ℚ) ≠ 0 := Nat.cast_ne_zero.mpr (by omega)
        have e1 : (2 : ℚ) ^ (e - f32_shift n d + 1) = (2 : ℚ) ^ e / (2 : ℚ) ^ (f32_shift n d) * 2 := by
          rw [zpow_add₀ (by norm_num), zpow_sub₀ (by norm_num), zpow_one]
        rw [e1]
        push_cast
        have e2 : (f32_num n (f32_shift n d) : ℚ) / (2 * (f32_den d (f32_shift n d) : ℚ))
            = (f32_num n (f32_shift n d) : ℚ) / (f32_den d (f32_shift n d) : ℚ) / 2 := by
          rw [div_div, mul_comm]
        rw [e2, hq]
        have h2s : (2 : ℚ) ^ (f32_shift n d) ≠ 0 := zpow_ne_zero _ (by norm_num)
        have hd0 : (d : ℚ) ≠ 0 := Nat.cast_ne_zero.mpr hd
        field_simp
        ring
      rw [hx] at key
      exact key
    · simp only [hb, if_false, F32.toRat, Bool.false_eq_true, one_mul]
      obtain ⟨h1, h2⟩ := roundNearestEven_bound (f32_num n (f32_shift n d))
        (f32_den d (f32_shift n d)) hdp
      have key := round_err_scaled _ _ _ hdp hge h1 h2 (e - f32_shift n d)
      have hx : ((f32_num n (f32_shift n d) : ℚ)) / ((f32_den d (f32_shift n d) : ℕ) : ℚ)
          * (2 : ℚ) ^ (e - f32_shift n d) = (n : ℚ) / (d : ℚ) * (2 : ℚ) ^ e := by
        rw [hq, zpow_sub₀ (by norm_num)]
        have h2s : (2 : ℚ) ^ (f32_shift n d) ≠ 0 := zpow_ne_zero _ (by norm_num)
        have hd0 : (d : ℚ) ≠ 0 := Nat.cast_ne_zero.mpr hd
        field_simp
        ring
      rw [hx] at key
      exact key

theorem f32_round_neg (b : Bool) (n d : Nat) (e : Int) : (f32_round b n d e).neg = b := by
  unfold f32_round
  split
  · rfl
  · simp only
    split <;> rfl

theorem ilog2_one : ilog2 1 = 0 := by decide

theorem f32_of_int_exact (k : Int) (h0 : 0 < k) (hk : k < 2 ^ 24) :
    (f32_of_int k).neg = false ∧ F32.toRat (f32_of_int k) = (k : ℚ) := by
  have hn : k.natAbs ≠ 0 := by omega
  have hlt : k.natAbs < 2 ^ 24 := by omega
  have hlog := ilog2_lt_of_lt_pow k.natAbs 24 hn hlt
  have hkq : (k : ℚ) = (k.natAbs : ℚ) := by
    have h := Int.natAbs_of_nonneg (le_of_lt h0)
    conv_lhs => rw [← h]
    exact Int.cast_natCast _
  have hneg : decide (k < 0) = false := by simp; omega
  unfold f32_of_int
  rw [hneg]
  refine ⟨f32_round_neg _ _ _ _, ?_⟩
  have hs : f32_shift k.natAbs 1 = ((24 - ilog2 k.natAbs : ℕ) : Int) := by
    unfold f32_shift; rw [ilog2_one]; omega
  have hS : 1 ≤ 24 - ilog2 k.natAbs := by omega
  unfold f32_round
  simp only [hn, if_false, hs]
  have hnum : f32_num k.natAbs ((24 - ilog2 k.natAbs : ℕ) : Int)
      = k.natAbs * 2 ^ (24 - ilog2 k.natAbs) := by
    unfold f32_num; simp
  have hden : f32_den 1 ((24 - ilog2 k.natAbs : ℕ) : Int) = 1 := by
    unfold f32_den; simp
  rw [hnum, hden]
  generalize 24 - ilog2 k.natAbs = S at hS
  obtain ⟨T, rfl⟩ : ∃ T, S = T + 1 := ⟨S - 1, by omega⟩
  have h2 : (2 : ℚ) ≠ 0 := by norm_num
  split
  · have e : k.natAbs * 2 ^ (T + 1) = (k.natAbs * 2 ^ T) * (2 * 1) := by ring
    rw [e, roundNearestEven_exact _ _ (by decide)]
    simp only [F32.toRat, Bool.false_eq_true, if_false, one_mul, hkq]
    push_cast
    have e2 : (0 : Int) - ((T : Int) + 1) + 1 = -(T : Int) := by ring
    rw [e2, zpow_neg, zpow_natCast]
    field_simp
  · have e : k.natAbs * 2 ^ (T + 1) = (k.natAbs * 2 ^ (T + 1)) * 1 := by ring
    rw [e, roundNearestEven_exact _ _ (by decide)]
    simp only [F32.toRat, Bool.false_eq_true, if_false, one_mul, hkq]
    push_cast
    have e2 : (0 : Int) - ((T : Int) + 1) = -((T + 1 : ℕ) : Int) := by push_cast; ring
    rw [e2, zpow_neg, zpow_natCast]
    field_simp

theorem F32.toRat_nonneg (a : F32) (ha : a.neg = false) : 0 ≤ a.toRat := by
  unfold F32.toRat
  rw [ha]
  simp only [Bool.false_eq_true, if_false, one_mul]
  exact mul_nonneg (Nat.cast_nonneg _) (le_of_lt (zpow_pos (by norm_num) _))

theorem f32_div_err (a b : F32) (ha : a.neg = false) (hb : b.neg = false) (hbm : b.mant ≠ 0) :
    (f32_div a b).neg = false ∧
      |(f32_div a b).toRat - a.toRat / b.toRat| ≤ a.toRat / b.toRat / 2 ^ 24 := by
  unfold f32_div
  rw [ha, hb]
  refine ⟨f32_round_neg _ _ _ _, ?_⟩
  have key := f32_round_err a.mant b.mant (a.exp - b.exp) hbm
  have hx : (a.mant : ℚ) / (b.mant : ℚ) * (2 : ℚ) ^ (a.exp - b.exp) = a.toRat / b.toRat := by
    unfold F32.toRat
    rw [ha, hb, zpow_sub₀ (by norm_num)]
    have h2b : (2 : ℚ) ^ b.exp ≠ 0 := zpow_ne_zero _ (by norm_num)
    have hb0 : (b.mant : ℚ) ≠ 0 := Nat.cast_ne_zero.mpr hbm
    simp only [Bool.false_eq_true, if_false, one_mul]
    field_simp
  rw [hx] at key
  exact key

theorem f32_mul_err (a b : F32) (ha : a.neg = false) (hb : b.neg = false) :
    (f32_mul a b).neg = false ∧
      |(f32_mul a b).toRat - a.toRat * b.toRat| ≤ a.toRat * b.toRat / 2 ^ 24 := by
  unfold f32_mul
  rw [ha, hb]
  refine ⟨f32_round_neg _ _ _ _, ?_⟩
  have key := f32_round_err (a.mant * b.mant) 1 (a.exp + b.exp) (by decide)
  have hx : ((a.mant * b.mant : ℕ) : ℚ) / ((1 : ℕ) : ℚ) * (2 : ℚ) ^ (a.exp + b.exp)
      = a.toRat * b.toRat := by
    unfold F32.toRat
    rw [ha, hb, zpow_add₀ (by norm_num)]
    simp only [Bool.false_eq_true, if_false, one_mul]
    push_cast
    ring
  rw [hx] at key
  exact key

theorem f32_to_int_bounds (a : F32) (ha : a.neg = false) :
    ((f32_to_int a : Int) : ℚ) ≤ a.toRat ∧ a.toRat < ((f32_to_int a : Int) : ℚ) + 1 := by
  unfold f32_to_int F32.toRat
  rw [ha]
  simp only [Bool.false_eq_true, if_false, one_mul]
  by_cases he : 0 ≤ a.exp
  · simp only [he, if_true]
    have e : (2 : ℚ) ^ a.exp = (2 : ℚ) ^ a.exp.toNat := by
      rw [← zpow_natCast, Int.toNat_of_nonneg he]
    rw [e]
    push_cast
    constructor
    · exact le_refl _
    · linarith
  · simp only [he, if_false]
    have e : (2 : ℚ) ^ a.exp = ((2 : ℚ) ^ (-a.exp).toNat)⁻¹ := by
      rw [← zpow_natCast, Int.toNat_of_nonneg (by omega), zpow_neg, inv_inv]
    rw [e]
    have hp : 0 < 2 ^ (-a.exp).toNat := Nat.pow_pos (by decide)
    have hpq : (0 : ℚ) < (2 : ℚ) ^ (-a.exp).toNat := by positivity
    have h1 := Nat.div_mul_le_self a.mant (2 ^ (-a.exp).toNat)
    have h2 := Nat.lt_mul_div_succ a.mant hp
    have h1q : ((a.mant / 2 ^ (-a.exp).toNat : ℕ) : ℚ) * (2 : ℚ) ^ (-a.exp).toNat
        ≤ (a.mant : ℚ) := by exact_mod_cast h1
    have h2q : (a.mant : ℚ) < (2 : ℚ) ^ (-a.exp).toNat
        * (((a.mant / 2 ^ (-a.exp).toNat : ℕ) : ℚ) + 1) := by exact_mod_cast h2
    rw [← div_eq_mul_inv]
    simp only [Int.cast_natCast]
    constructor
    · rw [le_div_iff₀ hpq]; exact h1q
    · rw [div_lt_iff₀ hpq]; linarith

theorem F32.mant_ne_zero_of_pos (a : F32) (h : 0 < a.toRat) : a.mant ≠ 0 := by
  intro h0
  unfold F32.toRat at h
  rw [h0] at h
  simp at h

theorem scaled_height_near (ih w iw : Int) (hw : 0 < w) (hlt : w < iw) (hiw : iw < 2 ^ 24)
    (hih : 0 < ih) (hih2 : ih ≤ 2 ^ 22) :
    |scaled_height ih w iw - Int.tdiv (ih * w) iw| ≤ 1 := by
  obtain ⟨hAn, hA⟩ := f32_of_int_exact w hw (by omega)
  obtain ⟨hBn, hB⟩ := f32_of_int_exact iw (by omega) hiw
  obtain ⟨hHn, hH⟩ := f32_of_int_exact ih hih (by omega)
  have hiwq : (0 : ℚ) < (iw : ℚ) := by exact_mod_cast (by omega : (0 : Int) < iw)
  have hwq : (0 : ℚ) < (w : ℚ) := by exact_mod_cast hw
  have hihq : (0 : ℚ) < (ih : ℚ) := by exact_mod_cast hih
  have hih2q : (ih : ℚ) ≤ 2 ^ 22 := by exact_mod_cast hih2
  have hltq : (w : ℚ) < (iw : ℚ) := by exact_mod_cast hlt
  have hBm : (f32_of_int iw).mant ≠ 0 := F32.mant_ne_zero_of_pos _ (by rw [hB]; exact hiwq)
  obtain ⟨hSn, hS⟩ := f32_div_err (f32_of_int w) (f32_of_int iw) hAn hBn hBm
  obtain ⟨hPn, hP⟩ := f32_mul_err (f32_of_int ih)
    (f32_div (f32_of_int w) (f32_of_int iw)) hHn hSn
  obtain ⟨hlo, hhi⟩ := f32_to_int_bounds
    (f32_mul (f32_of_int ih) (f32_div (f32_of_int w) (f32_of_int iw))) hPn
  rw [hA, hB] at hS
  rw [hH] at hP
  change ((scaled_height ih w iw : Int) : ℚ) ≤ _ at hlo
  change _ < ((scaled_height ih w iw : Int) : ℚ) + 1 at hhi
  generalize (f32_mul (f32_of_int ih) (f32_div (f32_of_int w) (f32_of_int iw))).toRat = p
    at hP hlo hhi
  generalize (f32_div (f32_of_int w) (f32_of_int iw)).toRat = s at hS hP
  generalize scaled_height ih w iw = h at hlo hhi ⊢
  -- the exact quotient
  have hx0 : (0 : ℚ) < (w : ℚ) / (iw : ℚ) := div_pos hwq hiwq
  have hx1 : (w : ℚ) / (iw : ℚ) < 1 := by rw [div_lt_one hiwq]; exact hltq
  generalize hxdef : (w : ℚ) / (iw : ℚ) = x at hS hx0 hx1
  rw [abs_le] at hS hP
  obtain ⟨hS1, hS2⟩ := hS
  obtain ⟨hP1, hP2⟩ := hP
  have hs0 : 0 ≤ s := by
    have : x / 2 ^ 24 ≤ x := div_le_self (le_of_lt hx0) (by norm_num)
    linarith
  have hs1 : s ≤ 1 + 1 / 2 ^ 24 := by
    have : x / 2 ^ 24 ≤ 1 / 2 ^ 24 := by
      apply div_le_div_of_nonneg_right (le_of_lt hx1); norm_num
    linarith
  have hd1 : (ih : ℚ) * (s - x) ≤ 1 / 4 := by
    have h1 : s - x ≤ 1 / 2 ^ 24 := by
      have : x / 2 ^ 24 ≤ 1 / 2 ^ 24 := by
        apply div_le_div_of_nonneg_right (le_of_lt hx1); norm_num
      linarith
    have h2 : (ih : ℚ) * (s - x) ≤ (ih : ℚ) * (1 / 2 ^ 24) :=
      mul_le_mul_of_nonneg_left h1 (le_of_lt hihq)
    have h3 : (ih : ℚ) * (1 / 2 ^ 24) ≤ 2 ^ 22 * (1 / 2 ^ 24) :=
      mul_le_mul_of_nonneg_right hih2q (by norm_num)
    norm_num at h3 ⊢
    linarith
  have hd2 : -(1 / 4) ≤ (ih : ℚ) * (s - x) := by
    have h1 : -(1 / 2 ^ 24) ≤ s - x := by
      have : x / 2 ^ 24 ≤ 1 / 2 ^ 24 := by
        apply div_le_div_of_nonneg_right (le_of_lt hx1); norm_num
      linarith
    have h2 : (ih : ℚ) * -(1 / 2 ^ 24) ≤ (ih : ℚ) * (s - x) :=
      mul_le_mul_of_nonneg_left h1 (le_of_lt hihq)
    have h3 : (ih : ℚ) * (1 / 2 ^ 24) ≤ 2 ^ 22 * (1 / 2 ^ 24) :=
      mul_le_mul_of_nonneg_right hih2q (by norm_num)
    norm_num at h2 h3 ⊢
    linarith
  have hd3 : (ih : ℚ) * s / 2 ^ 24 ≤ 1 / 2 := by
    have h1 : (ih : ℚ) * s ≤ 2 ^ 22 * (1 + 1 / 2 ^ 24) :=
      mul_le_mul hih2q hs1 hs0 (by norm_num)
    have h2 : (ih : ℚ) * s / 2 ^ 24 ≤ 2 ^ 22 * (1 + 1 / 2 ^ 24) / 2 ^ 24 := by
      apply div_le_div_of_nonneg_right h1; norm_num
    norm_num at h2 ⊢
    linarith
  -- the exact integer quotient
  have hnn : 0 ≤ ih * w := le_of_lt (mul_pos hih hw)
  rw [Int.tdiv_eq_ediv hnn (by omega)]
  have he1 : (ih * w) / iw * iw ≤ ih * w := Int.ediv_mul_le _ (by omega)
  have he2 : ih * w < ((ih * w) / iw + 1) * iw := Int.lt_ediv_add_one_mul_self _ (by omega)
  generalize (ih * w) / iw = e0 at he1 he2 ⊢
  have he1q : (e0 : ℚ) * (iw : ℚ) ≤ (ih : ℚ) * (w : ℚ) := by exact_mod_cast he1
  have he2q : (ih : ℚ) * (w : ℚ) < ((e0 : ℚ) + 1) * (iw : ℚ) := by exact_mod_cast he2
  have hE : (ih : ℚ) * x = (ih : ℚ) * (w : ℚ) / (iw : ℚ) := by rw [← hxdef]; ring
  have he1x : (e0 : ℚ) ≤ (ih : ℚ) * x := by
    rw [hE, le_div_iff₀ hiwq]; exact he1q
  have he2x : (ih : ℚ) * x < (e0 : ℚ) + 1 := by
    rw [hE, div_lt_iff₀ hiwq]; exact he2q
  have hmul : (ih : ℚ) * (s - x) = (ih : ℚ) * s - (ih : ℚ) * x := by ring
  rw [hmul] at hd1 hd2
  have k1 : (h : ℚ) < (e0 : ℚ) + 2 := by linarith
  have k2 : (e0 : ℚ) < (h : ℚ) + 2 := by linarith
  have k1z : h < e0 + 2 := by exact_mod_cast k1
  have k2z : e0 < h + 2 := by exact_mod_cast k2
  rw [abs_le]
  constructor <;> omega

theorem layoutElem_image (al : Alloc) (r : Option SDL_Renderer) (ui : ReUI) (x w : Int)
    (st : LayoutState) (el : ReElement) (tex : SDL_Texture)
    (ht : el.type = ReElementType.RE_E_IMG) (htex : el.tex = some tex) :
    (layoutElem al r ui x w st el).2 =
      [{ texture := tex
         dst := { x := x, y := imageY x st
                  w := if el.img_w > w then w else el.img_w
                  h := if el.img_w > w then scaled_height el.img_h w el.img_w else el.img_h } }] := by
  unfold layoutElem imageY
  simp only [ht, htex, reduceCtorEq, if_false, if_true]
  by_cases hcx : st.cx ≠ x
  · simp only [hcx, if_true, ne_eq, not_false_eq_true]
  · simp only [hcx, if_false]

/-- C9 (counterexample): a hydrated image of natural size 1196 × 552 in the
1040-px viewport is drawn 1040 wide and 479 high, whereas 552 × 1040 / 1196 is
exactly 480. -/
theorem C9_scaled_height_off_by_one :
    (layout Alloc.all (some ⟨1100, 780⟩) reui_init { elems := [wideImage] } 30 60 1040).2.map
        (fun c => c.dst) = [⟨30, 60, 1040, 479⟩] ∧
      Int.tdiv (552 * 1040) 1196 = 480 ∧ (552 * 1040 : Int) = 480 * 1196 := by
  refine ⟨by decide, by decide, by decide⟩

/-- C9 (amended): a hydrated image whose natural width `iw` exceeds the
viewport width `w > 0` is drawn with width exactly `w` and with height
`(int)(ih * s)`, `s` the single-precision quotient `w / iw` and the product
rounded to single precision; for `iw < 2^24` and `0 < ih ≤ 2^22` that height
differs from `ih × w / iw` truncated by at most 1.  An image with `iw ≤ w` is
drawn at its natural width and height. -/
theorem C9_image_scaling (al : Alloc) (r : Option SDL_Renderer) (ui : ReUI) (x w : Int)
    (st : LayoutState) (el : ReElement) (tex : SDL_Texture)
    (ht : el.type = ReElementType.RE_E_IMG) (htex : el.tex = some tex) :
    (0 < w → w < el.img_w → el.img_w < 2 ^ 24 → 0 < el.img_h → el.img_h ≤ 2 ^ 22 →
        (layoutElem al r ui x w st el).2 =
            [{ texture := tex
               dst := { x := x, y := imageY x st, w := w
                        h := scaled_height el.img_h w el.img_w } }] ∧
          |scaled_height el.img_h w el.img_w - Int.tdiv (el.img_h * w) el.img_w| ≤ 1) ∧
      (el.img_w ≤ w →
        (layoutElem al r ui x w st el).2 =
          [{ texture := tex
             dst := { x := x, y := imageY x st, w := el.img_w, h := el.img_h } }]) := by
  have h := layoutElem_image al r ui x w st el tex ht htex
  constructor
  · intro hw hlt hiw hih hih2
    have hgt : el.img_w > w := hlt
    rw [h]
    simp only [hgt, if_true]
    exact ⟨trivial, scaled_height_near el.img_h w el.img_w hw hlt hiw hih hih2⟩
  · intro hle
    have hgt : ¬ el.img_w > w := by omega
    rw [h]
    simp only [hgt, if_false]

theorem C9_image_scaling_witness :
    wideImage.type = ReElementType.RE_E_IMG ∧ wideImage.tex = some ⟨1196, 552, none⟩ ∧
      (layoutElem Alloc.all (some ⟨1100, 780⟩) reui_init 30 1040 ⟨30, 60, 0⟩ wideImage).2 =
        [{ texture := ⟨1196, 552, none⟩
           dst := { x := 30, y := imageY 30 ⟨30, 60, 0⟩, w := 1040
                    h := scaled_height wideImage.img_h 1040 wideImage.img_w } }] ∧
      |scaled_height wideImage.img_h 1040 wideImage.img_w
        - Int.tdiv (wideImage.img_h * 1040) wideImage.img_w| ≤ 1 :=
  ⟨rfl, rfl,
    (C9_image_scaling Alloc.all (some ⟨1100, 780⟩) reui_init 30 1040 ⟨30, 60, 0⟩ wideImage
      ⟨1196, 552, none⟩ rfl rfl).1 (by decide) (by decide) (by decide) (by decide) (by decide)⟩

/-! ### `layout`: images that were not hydrated -/

theorem layoutElem_unhydrated (al : Alloc) (r : Option SDL_Renderer) (ui : ReUI) (x w : Int)
    (st : LayoutState) (el : ReElement)
    (ht : el.type = ReElementType.RE_E_IMG) (hx : el.tex = none) :
    layoutElem al r ui x w st el = (st, []) := by
  unfold layoutElem
  simp [ht, hx]

theorem layoutElems_dropUnhydrated (al : Alloc) (r : Option SDL_Renderer) (ui : ReUI) (x w : Int)
    (els : List ReElement) (st : LayoutState) :
    layoutElems al r ui x w (els.filter
        (fun el => decide (¬ (el.type = ReElementType.RE_E_IMG ∧ el.tex = none)))) st =
      layoutElems al r ui x w els st := by
  induction els generalizing st with
  | nil => rfl
  | cons el rest ih =>
    by_cases h : el.type = ReElementType.RE_E_IMG ∧ el.tex = none
    · rw [List.filter_cons_of_neg (by simp [h])]
      rw [ih]
      simp only [layoutElems, layoutElem_unhydrated al r ui x w st el h.1 h.2, List.nil_append]
    · rw [List.filter_cons_of_pos (by simp only [decide_eq_true_eq]; exact h)]
      simp only [layoutElems, ih]

/-- C10: the draw commands `layout` issues and its final pen state
`(cx, cy, lh)` are those it produces for the document without its Image
elements whose texture is null: a non-hydrated image paints nothing, breaks no
line and leaves the pen where it is. -/
theorem C10_unhydrated_images_skipped (al : Alloc) (r : Option SDL_Renderer) (ui : ReUI)
    (d : ReDocument) (x y w : Int) :
    layout al r ui d x y w = layout al r ui (dropUnhydrated d) x y w ∧
      ∀ (st : LayoutState) (el : ReElement),
        el.type = ReElementType.RE_E_IMG → el.tex = none →
          layoutElem al r ui x w st el = (st, []) := by
  refine ⟨?_, ?_⟩
  · unfold layout dropUnhydrated
    rw [layoutElems_dropUnhydrated]
  · intro st el ht hx
    exact layoutElem_unhydrated al r ui x w st el ht hx

/-! ### `reui_handle_event` -/

theorem handle_wheel (ui : ReUI) (e : SDL_Event) (h : e.type = SDL_MOUSEWHEEL) :
    reui_handle_event ui e =
      ({ ui with scroll := max 0 (ui.scroll - 40 * e.wheel_y) }, 1) := by
  unfold reui_handle_event
  simp only [h, if_true]
  have e1 : ui.scroll - e.wheel_y * 40 = ui.scroll - 40 * e.wheel_y := by ring
  rw [e1]
  congr 2
  rw [max_def]
  split <;> split <;> omega

theorem handle_text_fits (ui : ReUI) (e : SDL_Event) (h : e.type = SDL_TEXTINPUT)
    (hfit : ui.url.length + e.text.length < URL_SIZE - 1) :
    reui_handle_event ui e = ({ ui with url := ui.url ++ e.text }, 1) := by
  unfold reui_handle_event
  have h1 : ¬ (SDL_TEXTINPUT = SDL_MOUSEWHEEL) := by decide
  simp only [h, h1, if_false, if_true, hfit]

theorem handle_text_refused (ui : ReUI) (e : SDL_Event) (h : e.type = SDL_TEXTINPUT)
    (hfit : ¬ ui.url.length + e.text.length < URL_SIZE - 1) :
    reui_handle_event ui e = (ui, 0) := by
  unfold reui_handle_event handle_keydown
  have h1 : ¬ (SDL_TEXTINPUT = SDL_MOUSEWHEEL) := by decide
  have h2 : ¬ (SDL_TEXTINPUT = SDL_KEYDOWN) := by decide
  simp only [h, h1, h2, if_false, if_true, hfit]

theorem handle_key (ui : ReUI) (e : SDL_Event) (h : e.type = SDL_KEYDOWN) :
    reui_handle_event ui e =
      (if e.key_sym = SDLK_BACKSPACE then ({ ui with url := ui.url.dropLast }, 1)
        else if e.key_sym = SDLK_RETURN then ({ ui with want_go := 1 }, 1)
        else (ui, 0)) := by
  unfold reui_handle_event handle_keydown
  have h1 : ¬ (SDL_KEYDOWN = SDL_MOUSEWHEEL) := by decide
  have h2 : ¬ (SDL_KEYDOWN = SDL_TEXTINPUT) := by decide
  simp only [h, h1, h2, if_false, if_true]

theorem handle_other (ui : ReUI) (e : SDL_Event) (h1 : e.type ≠ SDL_MOUSEWHEEL)
    (h2 : e.type ≠ SDL_TEXTINPUT) (h3 : e.type ≠ SDL_KEYDOWN) :
    reui_handle_event ui e = (ui, 0) := by
  unfold reui_handle_event handle_keydown
  simp only [h1, h2, h3, if_false]

/-- C11: a scroll-wheel event with vertical delta `dy` sets the scroll offset
`s` to `max(0, s - 40 × dy)`, with no upper clamp, and changes nothing else;
from `s = 0`, `dy = -3` gives 120 and then `dy = 5` gives 0. -/
theorem C11_wheel_scroll (ui : ReUI) (dy : Int) :
    (reui_handle_event ui (wheelEvent dy)).1 =
        { ui with scroll := max 0 (ui.scroll - 40 * dy) } ∧
      (reui_handle_event reui_init (wheelEvent (-3))).1.scroll = 120 ∧
      (reui_handle_event (reui_handle_event reui_init (wheelEvent (-3))).1
        (wheelEvent 5)).1.scroll = 0 := by
  refine ⟨?_, by decide, by decide⟩
  rw [handle_wheel ui (wheelEvent dy) rfl]
  rfl


theorem text_refused_of_ge (ui : ReUI) (s : List Char) (n : Nat) (hn : ui.url.length = n)
    (h : 1023 ≤ n + s.length) :
    reui_handle_event ui (textEvent s) = (ui, 0) := by
  refine handle_text_refused ui (textEvent s) rfl ?_
  have e1 : (textEvent s).text = s := rfl
  have e2 : URL_SIZE - 1 = 1023 := rfl
  rw [e1, e2, hn]
  omega

theorem longUrl_length (n : Nat) : (longUrl n).length = n := by
  unfold longUrl
  exact List.length_replicate _ _

/-- C12 (evaluation at the failing input): with a URL of 1022 characters a
text input of one character is refused, the buffer stays as it was and 0 is
returned, although the resulting 1023 characters and their terminator fit the
1024-byte buffer. -/
theorem C12_text_input_refused_at_capacity :
    reui_handle_event { reui_init with url := longUrl 1022 } (textEvent ['b'])
        = ({ reui_init with url := longUrl 1022 }, 0) ∧
      (longUrl 1022 ++ ['b']).length + 1 ≤ URL_SIZE := by
  constructor
  · exact text_refused_of_ge { reui_init with url := longUrl 1022 } ['b'] 1022
      (longUrl_length 1022) (by decide)
  · rw [List.length_append, longUrl_length]
    decide

/-- C13: for a key-down event, Backspace removes the last character of the URL
(an empty URL stays empty), Enter/Return sets the pending-navigation flag to 1
and leaves the URL as it is, any other key changes nothing; no key-down event
changes the scroll offset or the fonts, and none clears the pending-navigation
flag. -/
theorem C13_keydown_effects (ui : ReUI) (e : SDL_Event) (h : e.type = SDL_KEYDOWN) :
    (e.key_sym = SDLK_BACKSPACE →
        (reui_handle_event ui e).1 = { ui with url := ui.url.dropLast } ∧
          (ui.url = [] → (reui_handle_event ui e).1.url = []) ∧
          (∀ u c, ui.url = u ++ [c] → (reui_handle_event ui e).1.url = u)) ∧
      (e.key_sym = SDLK_RETURN →
        (reui_handle_event ui e).1 = { ui with want_go := 1 }) ∧
      (e.key_sym ≠ SDLK_BACKSPACE → e.key_sym ≠ SDLK_RETURN →
        (reui_handle_event ui e).1 = ui) ∧
      (reui_handle_event ui e).1.scroll = ui.scroll ∧
      (reui_handle_event ui e).1.font = ui.font ∧
      (reui_handle_event ui e).1.font_h1 = ui.font_h1 ∧
      (ui.want_go ≠ 0 → (reui_handle_event ui e).1.want_go ≠ 0) := by
  rw [handle_key ui e h]
  have hne : SDLK_RETURN ≠ SDLK_BACKSPACE := by decide
  refine ⟨?_, ?_, ?_, ?_, ?_, ?_, ?_⟩
  · intro hb
    simp only [hb, if_true]
    refine ⟨trivial, ?_, ?_⟩
    · intro h0; rw [h0]; rfl
    · intro u c huc; rw [huc]; exact List.dropLast_concat
  · intro hr
    simp only [hr, hne, if_false, if_true]
  · intro h1 h2
    simp only [h1, h2, if_false]
  · split
    · rfl
    · split <;> rfl
  · split
    · rfl
    · split <;> rfl
  · split
    · rfl
    · split <;> rfl
  · intro hw
    split
    · exact hw
    · split
      · simp
      · exact hw

theorem C13_keydown_effects_witness :
    (keyEvent SDLK_BACKSPACE).type = SDL_KEYDOWN ∧
      (reui_handle_event reui_init (keyEvent SDLK_BACKSPACE)).1
        = { reui_init with url := reui_init.url.dropLast } :=
  ⟨rfl, ((C13_keydown_effects reui_init (keyEvent SDLK_BACKSPACE) rfl).1 rfl).1⟩

/-- C14 (counterexample): a text-input event met with a full URL buffer (1023
characters) is a text-input event, yet 0 is returned. -/
theorem C14_refused_text_input_returns_zero :
    (textEvent ['b']).type = SDL_TEXTINPUT ∧
      reui_handle_event { reui_init with url := longUrl 1023 } (textEvent ['b'])
        = ({ reui_init with url := longUrl 1023 }, 0) :=
  ⟨rfl, text_refused_of_ge { reui_init with url := longUrl 1023 } ['b'] 1023
    (longUrl_length 1023) (by decide)⟩

/-- C14 (amended): `reui_handle_event` returns 1 exactly for a scroll-wheel
event, a text-input event whose payload passes the handler's capacity test and
is appended, a key-down of Backspace and a key-down of Enter/Return; it returns
0 for every other event, a text-input event whose payload is refused included,
and then the UI state is unchanged. -/
theorem C14_return_value (ui : ReUI) (e : SDL_Event) :
    ((reui_handle_event ui e).2 = 1 ↔
        (e.type = SDL_MOUSEWHEEL ∨
          (e.type = SDL_TEXTINPUT ∧ ui.url.length + e.text.length < URL_SIZE - 1) ∨
          (e.type = SDL_KEYDOWN ∧ (e.key_sym = SDLK_BACKSPACE ∨ e.key_sym = SDLK_RETURN)))) ∧
      ((reui_handle_event ui e).2 = 1 ∨ (reui_handle_event ui e).2 = 0) ∧
      ((reui_handle_event ui e).2 = 0 → (reui_handle_event ui e).1 = ui) ∧
      (e.type = SDL_TEXTINPUT → ui.url.length + e.text.length < URL_SIZE - 1 →
        (reui_handle_event ui e).1 = { ui with url := ui.url ++ e.text }) := by
  have c1 : SDL_TEXTINPUT ≠ SDL_MOUSEWHEEL := by decide
  have c2 : SDL_KEYDOWN ≠ SDL_MOUSEWHEEL := by decide
  have c3 : SDL_KEYDOWN ≠ SDL_TEXTINPUT := by decide
  have c4 : SDLK_RETURN ≠ SDLK_BACKSPACE := by decide
  by_cases hw : e.type = SDL_MOUSEWHEEL
  · rw [handle_wheel ui e hw]
    simp [hw, c1.symm]
  · by_cases ht : e.type = SDL_TEXTINPUT
    · by_cases hfit : ui.url.length + e.text.length < URL_SIZE - 1
      · rw [handle_text_fits ui e ht hfit]
        simp [ht, hfit]
      · rw [handle_text_refused ui e ht hfit]
        simp [ht, hfit, c1, c3.symm]
    · by_cases hk : e.type = SDL_KEYDOWN
      · rw [handle_key ui e hk]
        by_cases hb : e.key_sym = SDLK_BACKSPACE
        · simp [hk, hb, c2, c3]
        · by_cases hr : e.key_sym = SDLK_RETURN
          · simp [hk, hr, c2, c3, c4]
          · simp [hk, hb, hr, c2, c3]
      · rw [handle_other ui e hw ht hk]
        simp [hw, ht, hk]

theorem uiInvariant_step (ui : ReUI) (e : SDL_Event) (h : uiInvariant ui) :
    uiInvariant (reui_handle_event ui e).1 := by
  obtain ⟨h1, h2⟩ := h
  by_cases hw : e.type = SDL_MOUSEWHEEL
  · rw [handle_wheel ui e hw]
    exact ⟨le_max_left _ _, h2⟩
  · by_cases ht : e.type = SDL_TEXTINPUT
    · by_cases hfit : ui.url.length + e.text.length < URL_SIZE - 1
      · rw [handle_text_fits ui e ht hfit]
        refine ⟨h1, ?_⟩
        simp only [List.length_append]
        omega
      · rw [handle_text_refused ui e ht hfit]
        exact ⟨h1, h2⟩
    · by_cases hk : e.type = SDL_KEYDOWN
      · rw [handle_key ui e hk]
        split
        · refine ⟨h1, ?_⟩
          simp only [List.length_dropLast]
          omega
        · split
          · exact ⟨h1, h2⟩
          · exact ⟨h1, h2⟩
      · rw [handle_other ui e hw ht hk]
        exact ⟨h1, h2⟩

theorem uiInvariant_init : uiInvariant reui_init := by
  unfold uiInvariant
  decide

theorem uiInvariant_events (ui : ReUI) (es : List SDL_Event) (h : uiInvariant ui) :
    uiInvariant (handle_events ui es) := by
  induction es generalizing ui with
  | nil => exact h
  | cons e es ih => exact ih _ (uiInvariant_step ui e h)

/-- C20: the predicate "scroll offset ≥ 0 and the URL text is at most 1023
characters long" holds for the state `reui_init` produces and is preserved by
`reui_handle_event` for every event; hence it holds after every sequence of
events. -/
theorem C20_ui_invariant (ui : ReUI) (e : SDL_Event) (es : List SDL_Event)
    (h : 0 ≤ ui.scroll ∧ ui.url.length ≤ 1023) :
    (0 ≤ reui_init.scroll ∧ reui_init.url.length ≤ 1023) ∧
      (0 ≤ (reui_handle_event ui e).1.scroll ∧
        (reui_handle_event ui e).1.url.length ≤ 1023) ∧
      (0 ≤ (handle_events reui_init es).scroll ∧
        (handle_events reui_init es).url.length ≤ 1023) :=
  ⟨uiInvariant_init, uiInvariant_step ui e h, uiInvariant_events reui_init es uiInvariant_init⟩

theorem C20_ui_invariant_witness :
    ((0 : Int) ≤ (reui_handle_event reui_init (wheelEvent (-3))).1.scroll ∧
        (reui_handle_event reui_init (wheelEvent (-3))).1.url.length ≤ 1023) ∧
      (0 ≤ (reui_handle_event (reui_handle_event reui_init (wheelEvent (-3))).1
          (wheelEvent 5)).1.scroll ∧
        (reui_handle_event (reui_handle_event reui_init (wheelEvent (-3))).1
          (wheelEvent 5)).1.url.length ≤ 1023) :=
  ⟨by decide,
    (C20_ui_invariant (reui_handle_event reui_init (wheelEvent (-3))).1 (wheelEvent 5) []
      (by decide)).2.1⟩

/-! ### `load_page` -/

/-- C15: when the fetch fails (non-zero status, or an empty body), `load_page`
leaves a document with exactly one element, of the text variant, whose text is
`"Failed to load URL."`; every other field of the element is zero and nothing
of the previous document remains. -/
theorem C15_load_page_failure (al : Alloc) (malloc_ok : Bool) (http : List Char → HttpResult)
    (parse : List Nat → ReDocument → ReDocument) (r : Option SDL_Renderer)
    (url : List Char) (doc : ReDocument)
    (hfail : (http url).rc ≠ 0 ∨ (http url).data.length = 0) :
    (load_page al malloc_ok http parse r url doc).elems.length = 1 ∧
      (∀ el ∈ (load_page al malloc_ok http parse r url doc).elems,
        el.type = ReElementType.RE_E_TEXT ∧ el.text = "Failed to load URL.".toList ∧
          el.src = [] ∧ el.img_w = 0 ∧ el.img_h = 0 ∧ el.tex = none ∧
          el.style = zeroElement.style) ∧
      load_page al malloc_ok http parse r url doc =
        { elems := [{ zeroElement with text := "Failed to load URL.".toList }] } := by
  have hn : ¬ ((http url).rc = 0 ∧ (http url).data.length > 0) := by
    rcases hfail with h | h
    · exact fun hc => h hc.1
    · exact fun hc => by omega
  unfold load_page
  simp only [hn, if_false]
  refine ⟨rfl, ?_, rfl⟩
  intro el hel
  rw [List.mem_singleton] at hel
  subst hel
  exact ⟨rfl, rfl, rfl, rfl, rfl, rfl, rfl⟩

theorem C15_load_page_failure_witness :
    ((re_http_get_disabled "http://bad.example".toList).rc ≠ 0 ∨
        (re_http_get_disabled "http://bad.example".toList).data.length = 0) ∧
      load_page Alloc.all true re_http_get_disabled (fun _ d => d) (some ⟨1100, 780⟩)
          "http://bad.example".toList helloDoc =
        { elems := [{ zeroElement with text := "Failed to load URL.".toList }] } :=
  ⟨Or.inl (by decide),
    (C15_load_page_failure Alloc.all true re_http_get_disabled (fun _ d => d)
      (some ⟨1100, 780⟩) "http://bad.example".toList helloDoc (Or.inl (by decide))).2.2⟩

/-! ### Measured width of a line and of its words -/

theorem measureLoop_single_line (gw lh : Int) (t : List Char) (st : MeasureState)
    (hnl : '\n' ∉ t) :
    measureLoop gw lh t st = { st with width := st.width + (t.length : Int) * gw } := by
  induction t generalizing st with
  | nil => simp [measureLoop]
  | cons c t ih =>
    have hc : c ≠ '\n' := fun h => hnl (by rw [h]; exact List.mem_cons_self _ _)
    have ht : '\n' ∉ t := fun h => hnl (List.mem_cons_of_mem _ h)
    simp only [measureLoop, hc, if_false]
    rw [ih _ ht]
    simp only [List.length_cons, Nat.cast_add, Nat.cast_one, MeasureState.mk.injEq, and_true,
      true_and]
    ring

theorem measure_single_line (f : ReFont) (t : List Char) (hl : f.loaded ≠ 0) (ht : t ≠ [])
    (hnl : '\n' ∉ t) :
    (re_font_measure (some f) (some t)).1 = (t.length : Int) * (glyph_width (some f) + 1) := by
  have hgw := glyph_width_ge (some f)
  have hlen : 0 < (t.length : Int) := by
    have : 0 < t.length := List.length_pos.mpr ht
    exact_mod_cast this
  have hpos : 0 < (t.length : Int) * (glyph_width (some f) + 1) :=
    mul_pos hlen (by omega)
  unfold re_font_measure
  simp only [hl, ht, or_self, if_false]
  rw [measureLoop_single_line _ _ _ _ hnl]
  simp only [zero_add]
  generalize (t.length : Int) * (glyph_width (some f) + 1) = m at hpos
  have h1 : m > 0 := hpos
  have h2 : ¬ m ≤ 0 := by omega
  simp only [h1, if_true, h2, if_false]

theorem strtokLoop_word (w cur rest : List Char) (hw : ' ' ∉ w) :
    strtokLoop cur (w ++ rest) = strtokLoop (cur ++ w) rest := by
  induction w generalizing cur with
  | nil => simp
  | cons c w ih =>
    have hc : c ≠ ' ' := fun h => hw (by rw [h]; exact List.mem_cons_self _ _)
    have hw2 : ' ' ∉ w := fun h => hw (List.mem_cons_of_mem _ h)
    rw [List.cons_append]
    simp only [strtokLoop, hc, if_false]
    rw [ih _ hw2]
    simp

theorem word_of_eq (tok : List Char) (h : tok.length ≤ 1022) : word_of tok = tok ++ [' '] := by
  unfold word_of
  apply List.take_of_length_le
  simp only [List.length_append, List.length_cons, List.length_nil]
  omega

theorem splitOn_space_cons (c : Char) (t : List Char) :
    (c :: t).splitOn ' ' =
      if c = ' ' then [] :: t.splitOn ' '
      else List.modifyHead (List.cons c) (t.splitOn ' ') := by
  unfold List.splitOn
  rw [List.splitOnP_cons]
  simp

theorem splitOn_space_ne_nil (t : List Char) : t.splitOn ' ' ≠ [] := by
  unfold List.splitOn
  exact List.splitOnP_ne_nil _ _

theorem strtokLoop_eq_runs (cur t : List Char) :
    strtokLoop cur t =
      (List.modifyHead (fun l => cur ++ l) (t.splitOn ' ')).filter (fun l => decide (l ≠ [])) := by
  induction t generalizing cur with
  | nil =>
    have e : ([] : List Char).splitOn ' ' = [[]] := by decide
    rw [e]
    by_cases hc : cur = []
    · simp [strtokLoop, hc, List.modifyHead]
    · simp [strtokLoop, hc, List.modifyHead]
  | cons c t ih =>
    rw [splitOn_space_cons]
    have h0 : List.modifyHead (fun l => ([] : List Char) ++ l) (t.splitOn ' ') = t.splitOn ' ' := by
      cases t.splitOn ' ' with
      | nil => rfl
      | cons a as => simp [List.modifyHead]
    by_cases hc : c = ' '
    · simp only [strtokLoop, hc, if_true]
      rw [ih [], h0]
      by_cases hcur : cur = []
      · simp [hcur, List.modifyHead]
      · simp [hcur, List.modifyHead]
    · simp only [strtokLoop, hc, if_false]
      rw [ih (cur ++ [c])]
      cases t.splitOn ' ' with
      | nil => rfl
      | cons a as => simp [List.modifyHead]

theorem strtok_all_eq_spaceRuns (t : List Char) : strtok_all t = spaceRuns t := by
  unfold strtok_all spaceRuns
  rw [strtokLoop_eq_runs]
  cases t.splitOn ' ' with
  | nil => rfl
  | cons a as => simp [List.modifyHead]

theorem strtokLoop_tokens (cur t : List Char) (hcur : ' ' ∉ cur) :
    ∀ tok ∈ strtokLoop cur t, tok ≠ [] ∧ ' ' ∉ tok := by
  induction t generalizing cur with
  | nil =>
    intro tok htok
    by_cases hc : cur = []
    · simp [strtokLoop, hc] at htok
    · simp only [strtokLoop, hc, if_false, List.mem_singleton] at htok
      subst htok
      exact ⟨hc, hcur⟩
  | cons c t ih =>
    intro tok htok
    by_cases hc : c = ' '
    · simp only [strtokLoop, hc, if_true] at htok
      by_cases hcn : cur = []
      · simp only [hcn, if_true] at htok
        exact ih [] (by simp) tok htok
      · simp only [hcn, if_false, List.mem_cons] at htok
        rcases htok with h1 | h2
        · subst h1; exact ⟨hcn, hcur⟩
        · exact ih [] (by simp) tok h2
    · simp only [strtokLoop, hc, if_false] at htok
      refine ih (cur ++ [c]) ?_ tok htok
      intro hmem
      rw [List.mem_append, List.mem_singleton] at hmem
      rcases hmem with h1 | h2
      · exact hcur h1
      · exact hc h2.symm

/-- C17 (counterexample): in the run `"a\tb"` the letters are separated by a
tab, yet `layout` takes the whole text as one word: the single word painted is
`"a\tb "`, four characters (44 px) wide, and it holds the tab. -/
theorem C17_tab_stays_inside_word :
    strtok_all (strncpy_buf ['a', '\t', 'b'] ['z']) = [['a', '\t', 'b']] ∧
      '\t' ∈ word_of ['a', '\t', 'b'] ∧
      (layoutRun ['z'] Alloc.all (some ⟨1100, 780⟩) reui_init 30 1040 ⟨30, 60, 0⟩
        (textRun ['a', '\t', 'b'])).2.map (fun c => c.dst) = [⟨30, 60, 44, 22⟩] ∧
      (layout Alloc.all (some ⟨1100, 780⟩) reui_init tabDoc 30 60 1040).2.map
        (fun c => c.dst) = [⟨30, 60, 44, 22⟩] := by
  refine ⟨by decide, by decide, by decide, by decide⟩

/-! ### `layout`: images -/

theorem layoutElem_image_state (al : Alloc) (r : Option SDL_Renderer) (ui : ReUI) (x w : Int)
    (st : LayoutState) (el : ReElement) (tex : SDL_Texture)
    (ht : el.type = ReElementType.RE_E_IMG) (htex : el.tex = some tex) :
    layoutElem al r ui x w st el =
      ({ cx := x, cy := imageY x st + drawnHeight w el + 8
         lh := if st.cx ≠ x then 0 else st.lh },
        [{ texture := tex
           dst := { x := x, y := imageY x st, w := drawnWidth w el, h := drawnHeight w el } }]) := by
  unfold layoutElem imageY drawnHeight drawnWidth
  simp only [ht, htex, reduceCtorEq, if_false, if_true]
  by_cases hcx : st.cx ≠ x
  · simp only [hcx, if_true, ne_eq, not_false_eq_true]
  · have hx : st.cx = x := by
      by_contra h; exact hcx h
    simp only [hcx, if_false, Prod.mk.injEq, and_true]
    cases st
    simp only at hx
    subst hx
    rfl

/-- C19: a hydrated image is drawn at `x = content left`; when the pen is
mid-line (`cx ≠ x`) `cy` is first advanced by the current line height (20 when
it is 0) and the line height reset; after the image `cx` is the content left
and `cy` is the draw y plus the drawn height plus 8.  Two consecutive hydrated
images are drawn at the same x, the second at the first's y plus the first's
drawn height plus 8. -/
theorem C19_image_placement (al : Alloc) (r : Option SDL_Renderer) (ui : ReUI) (x w : Int)
    (st : LayoutState) (el el2 : ReElement) (tex tex2 : SDL_Texture)
    (ht : el.type = ReElementType.RE_E_IMG) (htex : el.tex = some tex)
    (ht2 : el2.type = ReElementType.RE_E_IMG) (htex2 : el2.tex = some tex2) :
    (layoutElem al r ui x w st el).2 =
        [{ texture := tex
           dst := { x := x, y := imageY x st, w := drawnWidth w el, h := drawnHeight w el } }] ∧
      (st.cx ≠ x →
        imageY x st = st.cy + (if st.lh = 0 then 20 else st.lh) ∧
          (layoutElem al r ui x w st el).1.lh = 0) ∧
      (st.cx = x → imageY x st = st.cy) ∧
      (layoutElem al r ui x w st el).1.cx = x ∧
      (layoutElem al r ui x w st el).1.cy = imageY x st + drawnHeight w el + 8 ∧
      (layoutElems al r ui x w [el, el2] st).2 =
        [{ texture := tex
           dst := { x := x, y := imageY x st, w := drawnWidth w el, h := drawnHeight w el } },
         { texture := tex2
           dst := { x := x, y := imageY x st + drawnHeight w el + 8
                    w := drawnWidth w el2, h := drawnHeight w el2 } }] := by
  have h1 := layoutElem_image_state al r ui x w st el tex ht htex
  refine ⟨by rw [h1], ?_, ?_, by rw [h1], by rw [h1], ?_⟩
  · intro hcx
    rw [h1]
    refine ⟨?_, by simp only [hcx, if_true, ne_eq, not_false_eq_true]⟩
    unfold imageY
    simp only [hcx, if_true, ne_eq, not_false_eq_true]
    by_cases h0 : st.lh = 0
    · simp [h0]
    · simp [h0]
  · intro hcx
    unfold imageY
    simp [hcx]
  · simp only [layoutElems, h1, List.append_nil]
    rw [layoutElem_image_state al r ui x w _ el2 tex2 ht2 htex2]
    simp [imageY]

theorem C19_image_placement_witness :
    smallImage.type = ReElementType.RE_E_IMG ∧ smallImage.tex = some ⟨100, 40, none⟩ ∧
      (layoutElems Alloc.all (some ⟨1100, 780⟩) reui_init 30 1040 [smallImage, smallImage]
          ⟨96, 60, 22⟩).2 =
        [{ texture := ⟨100, 40, none⟩
           dst := { x := 30, y := imageY 30 ⟨96, 60, 22⟩, w := drawnWidth 1040 smallImage
                    h := drawnHeight 1040 smallImage } },
         { texture := ⟨100, 40, none⟩
           dst := { x := 30, y := imageY 30 ⟨96, 60, 22⟩ + drawnHeight 1040 smallImage + 8
                    w := drawnWidth 1040 smallImage, h := drawnHeight 1040 smallImage } }] ∧
      (layoutElems Alloc.all (some ⟨1100, 780⟩) reui_init 30 1040 [smallImage, smallImage]
          ⟨96, 60, 22⟩).2.map (fun c => c.dst) = [⟨30, 82, 100, 40⟩, ⟨30, 130, 100, 40⟩] :=
  ⟨rfl, rfl,
    (C19_image_placement Alloc.all (some ⟨1100, 780⟩) reui_init 30 1040 ⟨96, 60, 22⟩
      smallImage smallImage ⟨100, 40, none⟩ ⟨100, 40, none⟩ rfl rfl rfl rfl).2.2.2.2.2,
    by decide⟩

/-! ### `re_font_render`: the stores stay inside the pixel buffer -/

theorem idx_bound (r c width height : Int) (hr : 0 ≤ r) (hrh : r < height)
    (hc : 0 ≤ c) (hcw : c < width) :
    r.toNat * (width * 4).toNat + c.toNat * 4 + 3 < (width * 4).toNat * height.toNat := by
  obtain ⟨R, rfl⟩ := Int.eq_ofNat_of_zero_le hr
  obtain ⟨C, rfl⟩ := Int.eq_ofNat_of_zero_le hc
  obtain ⟨W, rfl⟩ := Int.eq_ofNat_of_zero_le (by omega : 0 ≤ width)
  obtain ⟨H, rfl⟩ := Int.eq_ofNat_of_zero_le (by omega : 0 ≤ height)
  have hRH : R < H := by omega
  have hCW : C < W := by omega
  have e1 : ((W : Int) * 4).toNat = W * 4 := by omega
  simp only [Int.toNat_ofNat, e1]
  have h1 : (R + 1) * (W * 4) ≤ H * (W * 4) := Nat.mul_le_mul_right _ hRH
  have h2 : (R + 1) * (W * 4) = R * (W * 4) + W * 4 := by ring
  have h3 : W * 4 * H = H * (W * 4) := by ring
  omega

theorem colIndices_bound (gw width height pen_x pen_y row : Int) (fuel : Nat) (col : Int)
    (hx : 0 ≤ pen_x) (hcol : 0 ≤ col) (hr : 0 ≤ pen_y + row) (hrh : pen_y + row < height) :
    ∀ idx ∈ colIndices gw width (width * 4) pen_x pen_y row fuel col,
      idx + 3 < (width * 4).toNat * height.toNat := by
  induction fuel generalizing col with
  | zero => intro idx h; simp [colIndices] at h
  | succ fuel ih =>
    intro idx h
    unfold colIndices at h
    by_cases hg : col < gw ∧ pen_x + col < width
    · simp only [hg, and_self, if_true, List.mem_cons] at h
      rcases h with h | h
      · subst h
        exact idx_bound (pen_y + row) (pen_x + col) width height hr hrh (by omega) hg.2
      · exact ih (col + 1) (by omega) idx h
    · simp only [hg, if_false] at h
      exact absurd h (List.not_mem_nil idx)

theorem rowIndices_bound (gw gh width height pen_x pen_y : Int) (fuel : Nat) (row : Int)
    (hx : 0 ≤ pen_x) (hy : 0 ≤ pen_y) (hrow : 0 ≤ row) :
    ∀ idx ∈ rowIndices gw gh width height (width * 4) pen_x pen_y fuel row,
      idx + 3 < (width * 4).toNat * height.toNat := by
  induction fuel generalizing row with
  | zero => intro idx h; simp [rowIndices] at h
  | succ fuel ih =>
    intro idx h
    unfold rowIndices at h
    by_cases hg : row < gh ∧ pen_y + row < height
    · simp only [hg, and_self, if_true, List.mem_append] at h
      rcases h with h | h
      · exact colIndices_bound gw width height pen_x pen_y row _ 0 hx (le_refl 0) (by omega)
          hg.2 idx h
      · exact ih (row + 1) (by omega) idx h
    · simp only [hg, if_false] at h
      exact absurd h (List.not_mem_nil idx)

theorem glyphIndices_bound (gw gh width height pen_x pen_y : Int)
    (hx : 0 ≤ pen_x) (hy : 0 ≤ pen_y) :
    ∀ idx ∈ glyphIndices gw gh width height (width * 4) pen_x pen_y,
      idx + 3 < (width * 4).toNat * height.toNat :=
  rowIndices_bound gw gh width height pen_x pen_y _ 0 hx hy (le_refl 0)

theorem renderStep_pen_nonneg (gw gh lh width height pitch : Int) (color : SDL_Color)
    (st : RenderState) (c : Char) (hgw : 0 ≤ gw) (hlh : 0 ≤ lh)
    (hx : 0 ≤ st.pen_x) (hy : 0 ≤ st.pen_y) :
    0 ≤ (renderStep gw gh lh width height pitch color st c).pen_x ∧
      0 ≤ (renderStep gw gh lh width height pitch color st c).pen_y := by
  unfold renderStep
  split
  · simp only; omega
  · simp only
    split
    · simp only; omega
    · simp only; omega

theorem renderLoop_pen_nonneg (gw gh lh width height pitch : Int) (color : SDL_Color)
    (t : List Char) (st : RenderState) (hgw : 0 ≤ gw) (hlh : 0 ≤ lh)
    (hx : 0 ≤ st.pen_x) (hy : 0 ≤ st.pen_y) :
    0 ≤ (renderLoop gw gh lh width height pitch color t st).pen_x ∧
      0 ≤ (renderLoop gw gh lh width height pitch color t st).pen_y := by
  induction t generalizing st with
  | nil => exact ⟨hx, hy⟩
  | cons c cs ih =>
    obtain ⟨h1, h2⟩ := renderStep_pen_nonneg gw gh lh width height pitch color st c hgw hlh hx hy
    exact ih _ h1 h2

theorem renderWrites_bound (gw gh lh width height : Int) (color : SDL_Color)
    (t : List Char) (st : RenderState) (hgw : 0 ≤ gw) (hlh : 0 ≤ lh)
    (hx : 0 ≤ st.pen_x) (hy : 0 ≤ st.pen_y) :
    ∀ idx ∈ renderWrites gw gh lh width height (width * 4) color t st,
      idx + 3 < (width * 4).toNat * height.toNat := by
  induction t generalizing st with
  | nil => intro idx h; simp [renderWrites] at h
  | cons c cs ih =>
    intro idx h
    obtain ⟨h1, h2⟩ := renderStep_pen_nonneg gw gh lh width height (width * 4) color st c
      hgw hlh hx hy
    simp only [renderWrites, List.mem_append] at h
    rcases h with h | h
    · split at h
      · exact absurd h (List.not_mem_nil idx)
      · split at h
        · exact glyphIndices_bound gw gh width height st.pen_x st.pen_y hx hy idx h
        · exact absurd h (List.not_mem_nil idx)
    · exact ih _ h1 h2 idx h

theorem renderStep_pixels (gw gh lh width height pitch : Int) (color : SDL_Color)
    (st : RenderState) (c : Char) :
    (renderStep gw gh lh width height pitch color st c).pixels =
      (if c = '\n' then []
        else if c ≠ ' ' then glyphIndices gw gh width height pitch st.pen_x st.pen_y
        else []).foldl (writePixel color) st.pixels := by
  unfold renderStep
  by_cases hn : c = '\n'
  · simp only [hn, if_true, List.foldl_nil]
  · by_cases hw : st.pen_x + (gw + 1) + gw ≥ width
    · by_cases hs : c = ' '
      · subst hs
        have hsn : ¬ (' ' = '\n') := by decide
        simp only [hsn, hw, if_false, if_true, ne_eq, not_true_eq_false, List.foldl_nil]
      · simp only [hn, hs, hw, if_false, if_true, ne_eq, not_false_eq_true]
    · by_cases hs : c = ' '
      · subst hs
        have hsn : ¬ (' ' = '\n') := by decide
        simp only [hsn, hw, if_false, ne_eq, not_true_eq_false, List.foldl_nil]
      · simp only [hn, hs, hw, if_false, if_true, ne_eq, not_false_eq_true]

theorem renderLoop_pixels (gw gh lh width height pitch : Int) (color : SDL_Color)
    (t : List Char) (st : RenderState) :
    (renderLoop gw gh lh width height pitch color t st).pixels =
      (renderWrites gw gh lh width height pitch color t st).foldl (writePixel color) st.pixels := by
  induction t generalizing st with
  | nil => rfl
  | cons c cs ih =>
    have hstep : renderLoop gw gh lh width height pitch color (c :: cs) st =
        renderLoop gw gh lh width height pitch color cs
          (renderStep gw gh lh width height pitch color st c) := rfl
    rw [hstep, ih]
    simp only [renderWrites, List.foldl_append]
    rw [renderStep_pixels]

/-- With the `int` arithmetic taken in `Int`, every pixel store of
`re_font_render` targets a byte offset `idx` with `idx + 3 < buf_size`, where
`buf_size = width × height × 4`; the pen never has a negative coordinate, and
the buffer handed to the surface is the zeroed buffer with exactly these
stores applied. -/
theorem render_writes_in_bounds (face : ReFont) (t : List Char) (color : SDL_Color)
    (idx : Nat) (hl : face.loaded ≠ 0) (ht : t ≠ [])
    (hmem : idx ∈ re_font_render_writes face t color) :
    idx + 3 < render_buf_size face t ∧
      (render_buf_size face t : Int) =
        (re_font_measure (some face) (some t)).1 * (re_font_measure (some face) (some t)).2 * 4 ∧
      (∀ k, 0 ≤ (renderPenAt face t color k).1 ∧ 0 ≤ (renderPenAt face t color k).2) ∧
      (renderLoop (glyph_width (some face)) (glyph_height face) (line_height (some face))
          (re_font_measure (some face) (some t)).1 (re_font_measure (some face) (some t)).2
          ((re_font_measure (some face) (some t)).1 * 4) color t
          { pen_x := 0, pen_y := 0
            pixels := List.replicate (render_buf_size face t) 0 }).pixels =
        (re_font_render_writes face t color).foldl (writePixel color)
          (List.replicate (render_buf_size face t) 0) := by
  have hgw := glyph_width_ge (some face)
  have hlh := line_height_pos (some face)
  obtain ⟨hw, hh⟩ := measure_pos face t hl ht
  refine ⟨?_, ?_, ?_, ?_⟩
  · exact renderWrites_bound _ _ _ _ _ color t _ (by omega) (le_of_lt hlh) (le_refl 0)
      (le_refl 0) idx hmem
  · unfold render_buf_size
    generalize (re_font_measure (some face) (some t)).1 = w at hw
    generalize (re_font_measure (some face) (some t)).2 = h at hh
    obtain ⟨W, rfl⟩ := Int.eq_ofNat_of_zero_le (le_of_lt hw)
    obtain ⟨H, rfl⟩ := Int.eq_ofNat_of_zero_le (le_of_lt hh)
    have e1 : ((W : Int) * 4).toNat = W * 4 := by omega
    rw [e1, Int.toNat_ofNat]
    push_cast
    ring
  · intro k
    exact renderLoop_pen_nonneg _ _ _ _ _ _ color (t.take k) _ (by omega) (le_of_lt hlh)
      (le_refl 0) (le_refl 0)
  · exact renderLoop_pixels _ _ _ _ _ _ color t _

/-! ### The 32-bit `int`: where it agrees with `Int` -/

theorem i32_eq (x : Int) (h0 : -2147483648 ≤ x) (h1 : x ≤ 2147483647) : i32 x = x := by
  unfold i32
  omega

theorem u64_eq (x : Int) (h0 : 0 ≤ x) (h1 : x < 18446744073709551616) : u64 x = x.toNat := by
  unfold u64
  rw [Int.emod_eq_of_lt h0 h1]

theorem machine_glyph_width_eq (f : Option ReFont) (h : 3 * base_size f ≤ 2147483647) :
    Machine.glyph_width f = glyph_width f := by
  have hb := base_size_pos f
  unfold Machine.glyph_width glyph_width
  simp only
  rw [i32_eq _ (by omega) (by omega)]

theorem machine_line_height_eq (f : Option ReFont) (h : 3 * base_size f ≤ 2147483647) :
    Machine.line_height f = line_height f := by
  have hb := base_size_pos f
  unfold Machine.line_height line_height
  simp only
  have e : Int.tdiv (base_size f) 4 = base_size f / 4 :=
    Int.tdiv_eq_ediv (by omega) (by decide)
  rw [e]
  exact i32_eq _ (by omega) (by omega)

theorem measureLoop_le_max (gw lh : Int) (t : List Char) (st : MeasureState) (hgw : 0 ≤ gw) :
    st.width ≤ max (measureLoop gw lh t st).width (measureLoop gw lh t st).max_width ∧
      st.max_width ≤ max (measureLoop gw lh t st).width (measureLoop gw lh t st).max_width := by
  induction t generalizing st with
  | nil => simp [measureLoop]
  | cons c t ih =>
    by_cases hc : c = '\n'
    · simp only [measureLoop, hc, if_true]
      have h := (ih { width := 0
                      max_width := if st.width > st.max_width then st.width else st.max_width
                      height := st.height + lh }).2
      simp only at h
      constructor
      · refine le_trans ?_ h
        split <;> omega
      · refine le_trans ?_ h
        split <;> omega
    · simp only [measureLoop, hc, if_false]
      have h := ih { st with width := st.width + gw }
      simp only at h
      exact ⟨le_trans (by omega) h.1, h.2⟩

theorem machine_measureLoop_eq (gw lh : Int) (t : List Char) (st : MeasureState)
    (hgw : 0 ≤ gw) (hlh : 0 ≤ lh) (hw : 0 ≤ st.width) (hh : 0 ≤ st.height)
    (hW : max (measureLoop gw lh t st).width (measureLoop gw lh t st).max_width ≤ 2147483647)
    (hH : (measureLoop gw lh t st).height ≤ 2147483647) :
    Machine.measureLoop gw lh t st = measureLoop gw lh t st := by
  induction t generalizing st with
  | nil => rfl
  | cons c t ih =>
    by_cases hc : c = '\n'
    · simp only [measureLoop, hc, if_true] at hW hH
      simp only [Machine.measureLoop, measureLoop, hc, if_true]
      have hht := measureLoop_height gw lh t
        { width := 0
          max_width := if st.width > st.max_width then st.width else st.max_width
          height := st.height + lh }
      simp only at hht
      have hcnt : 0 ≤ lh * (t.count '\n' : Int) := mul_nonneg hlh (Int.natCast_nonneg _)
      rw [i32_eq _ (by omega) (by omega)]
      exact ih _ (le_refl 0) (by simp only; omega) hW hH
    · simp only [measureLoop, hc, if_false] at hW hH
      simp only [Machine.measureLoop, measureLoop, hc, if_false]
      have hle := (measureLoop_le_max gw lh t { st with width := st.width + gw } hgw).1
      simp only at hle
      rw [i32_eq _ (by omega) (by omega)]
      exact ih _ (by simp only; omega) hh hW hH

theorem machine_measure_eq (face : ReFont) (t : List Char) (hl : face.loaded ≠ 0) (ht : t ≠ [])
    (h : measureFits face t) :
    Machine.re_font_measure (some face) (some t) = re_font_measure (some face) (some t) := by
  obtain ⟨h3, hw, hh⟩ := h
  rw [← measure_eq_spec] at hw hh
  have hb : base_size (some face) = specPixelSize face := rfl
  have hbp := base_size_pos (some face)
  have hgw := machine_glyph_width_eq (some face) (by rw [hb]; exact h3)
  have hlh := machine_line_height_eq (some face) (by rw [hb]; exact h3)
  have hg3 := glyph_width_ge (some face)
  have hlp := line_height_pos (some face)
  have hgle : glyph_width (some face) ≤ 3 * base_size (some face) := by
    rw [glyph_width_eq_spec, hb]
    unfold specGlyphWidth
    rw [hb] at hbp
    omega
  unfold re_font_measure at hw hh
  simp only [hl, ht, or_self, if_false] at hw hh
  unfold Machine.re_font_measure re_font_measure
  simp only [hl, ht, or_self, if_false, hgw, hlh]
  rw [i32_eq _ (by omega) (by omega)]
  rw [machine_measureLoop_eq _ _ _ _ (by omega) (le_of_lt hlp) (le_refl 0) (le_of_lt hlp)]
  · generalize measureLoop (glyph_width (some face) + 1) (line_height (some face)) t
      { width := 0, max_width := 0, height := line_height (some face) } = st at hw
    rw [max_def]
    split at hw <;> split at hw <;> split <;> omega
  · generalize measureLoop (glyph_width (some face) + 1) (line_height (some face)) t
      { width := 0, max_width := 0, height := line_height (some face) } = st at hh
    split at hh <;> omega

/-! ### `re_font_measure` in 32 bits against the specification's formulas -/

/-- C1 (counterexample): at the pixel size 715827883 the product `base * 3`
of `glyph_width` leaves the range of `int` and wraps to a negative value, so
`glyph_width` returns its floor 3: the loaded face measures `"a"` as 4 wide,
while the formula `(characters) × (max(3, floor(3p/5)) + 1)` gives 429496730. -/
theorem C1_measure_wraps_at_large_size :
    (re_font_load 715827883).loaded ≠ 0 ∧
      Machine.glyph_width (some (re_font_load 715827883)) = 3 ∧
      Machine.re_font_measure (some (re_font_load 715827883)) (some ['a']) = (4, 894784853) ∧
      specMeasure (some (re_font_load 715827883)) (some ['a']) = (429496730, 894784853) := by
  refine ⟨by decide, by decide, by decide, by decide⟩

/-- C1 (amended): `re_font_measure`, with its `int` arithmetic in 32 bits,
returns `(0, 0)` for a null or unloaded face and for a null or empty text;
otherwise, provided `3 × p` and the width and height below do not exceed
`INT_MAX`, with `p` the pixel size (16 when not positive),
`gw = max(3, floor(3p/5))` and `lh = p + floor(p/4)`, the width is the greatest
`(characters in the line) × (gw + 1)` over the newline-separated lines,
replaced by `gw` when that is 0, and the height is
`lh × (number of newlines + 1)`. -/
theorem C1_measure_eq_spec_in_range (f : Option ReFont) (text : Option (List Char))
    (h : ∀ face t, f = some face → text = some t → face.loaded ≠ 0 → t ≠ [] →
      measureFits face t) :
    Machine.re_font_measure f text = specMeasure f text := by
  cases f with
  | none => cases text <;> rfl
  | some face =>
    cases text with
    | none => rfl
    | some t =>
      by_cases hl : face.loaded = 0
      · simp [Machine.re_font_measure, specMeasure, hl]
      · by_cases ht : t = []
        · simp [Machine.re_font_measure, specMeasure, ht]
        · rw [machine_measure_eq face t hl ht (h face t rfl rfl hl ht)]
          exact measure_eq_spec _ _

theorem C1_measure_eq_spec_in_range_witness :
    measureFits (re_font_load 18) ['a', 'b', '\n', 'c'] ∧
      Machine.re_font_measure (some (re_font_load 18)) (some ['a', 'b', '\n', 'c'])
        = specMeasure (some (re_font_load 18)) (some ['a', 'b', '\n', 'c']) ∧
      specMeasure (some (re_font_load 18)) (some ['a', 'b', '\n', 'c']) = (22, 44) :=
  ⟨⟨by decide, by decide, by decide⟩,
    C1_measure_eq_spec_in_range (some (re_font_load 18)) (some ['a', 'b', '\n', 'c'])
      (fun face t hf ht _ _ => by
        cases hf
        cases ht
        exact ⟨by decide, by decide, by decide⟩),
    by decide⟩

/-! ### `re_font_render` in 32 bits: null results -/

theorem machine_render_some (al : Alloc) (r : SDL_Renderer) (face : ReFont) (t : List Char)
    (color : SDL_Color) (hp : al.pixels_ok = true) (hs : al.surface_ok = true)
    (htx : al.texture_ok = true) (hl : face.loaded ≠ 0) (ht : t ≠ [])
    (hw : 0 < (Machine.re_font_measure (some face) (some t)).1)
    (hh : 0 < (Machine.re_font_measure (some face) (some t)).2) :
    ∃ tex, Machine.re_font_render al (some r) (some face) (some t) color = some tex := by
  have hw2 : ¬ (Machine.re_font_measure (some face) (some t)).1 ≤ 0 := by omega
  have hh2 : ¬ (Machine.re_font_measure (some face) (some t)).2 ≤ 0 := by omega
  simp [Machine.re_font_render, hl, ht, hw2, hh2, hp, hs, htx, SDL_CreateRGBSurfaceFrom,
    SDL_CreateTextureFromSurface]

theorem machine_render_none_of_size (al : Alloc) (r : Option SDL_Renderer) (face : ReFont)
    (t : List Char) (color : SDL_Color)
    (h : (Machine.re_font_measure (some face) (some t)).1 ≤ 0 ∨
      (Machine.re_font_measure (some face) (some t)).2 ≤ 0) :
    Machine.re_font_render al r (some face) (some t) color = none := by
  cases r with
  | none => rfl
  | some rr =>
    unfold Machine.re_font_render
    simp only [h, if_true]
    split <;> rfl

/-- C3 (counterexample): at the pixel size 2147483647 the sum `base + base / 4`
of `line_height` wraps to -1610612738; the loaded face measures the non-empty
text `"a"` with a negative height, and `re_font_render` returns null although
the renderer is not null and no allocation fails. -/
theorem C3_render_null_at_max_size :
    (re_font_load 2147483647).loaded ≠ 0 ∧ ['a'] ≠ [] ∧
      Machine.line_height (some (re_font_load 2147483647)) = -1610612738 ∧
      Machine.re_font_measure (some (re_font_load 2147483647)) (some ['a'])
        = (429496730, -1610612738) ∧
      Machine.re_font_render Alloc.all (some ⟨800, 600⟩) (some (re_font_load 2147483647))
        (some ['a']) COL_TEXT = none := by
  refine ⟨by decide, by decide, by decide, by decide, by decide⟩

/-- C3 (amended): with a non-null renderer and no allocation failure,
`re_font_render` (its `int` arithmetic in 32 bits) returns null exactly when
the face is null or unloaded, the text is null or empty, or the measured width
or height is not positive; and for a loaded face and a non-empty text for
which no `int` operation of the measuring overflows (`3 × p` and the stated
width and height do not exceed `INT_MAX`) both measured dimensions are
strictly positive and a texture is returned. -/
theorem C3_render_null_iff_in_range (al : Alloc) (r : SDL_Renderer) (f : Option ReFont)
    (text : Option (List Char)) (color : SDL_Color) (face : ReFont) (t : List Char)
    (hp : al.pixels_ok = true) (hs : al.surface_ok = true) (htx : al.texture_ok = true) :
    (Machine.re_font_render al (some r) f text color = none ↔
        (f = none ∨ (∃ fc, f = some fc ∧ fc.loaded = 0) ∨ text = none ∨ text = some [] ∨
          (Machine.re_font_measure f text).1 ≤ 0 ∨ (Machine.re_font_measure f text).2 ≤ 0)) ∧
      (face.loaded ≠ 0 → t ≠ [] → measureFits face t →
        0 < (Machine.re_font_measure (some face) (some t)).1 ∧
          0 < (Machine.re_font_measure (some face) (some t)).2 ∧
          ∃ tex, Machine.re_font_render al (some r) (some face) (some t) color = some tex) := by
  constructor
  · cases f with
    | none => simp [Machine.re_font_render]
    | some fc =>
      cases text with
      | none => simp [Machine.re_font_render]
      | some tx =>
        by_cases hl : fc.loaded = 0
        · simp [Machine.re_font_render, hl]
        · by_cases ht : tx = []
          · simp [Machine.re_font_render, ht]
          · by_cases hsz : (Machine.re_font_measure (some fc) (some tx)).1 ≤ 0 ∨
                (Machine.re_font_measure (some fc) (some tx)).2 ≤ 0
            · rw [machine_render_none_of_size al (some r) fc tx color hsz]
              simp only [true_iff]
              exact Or.inr (Or.inr (Or.inr (Or.inr hsz)))
            · have hw : 0 < (Machine.re_font_measure (some fc) (some tx)).1 := by omega
              have hh : 0 < (Machine.re_font_measure (some fc) (some tx)).2 := by omega
              obtain ⟨tex, htex⟩ := machine_render_some al r fc tx color hp hs htx hl ht hw hh
              rw [htex]
              simp only [reduceCtorEq, Option.some.injEq, exists_eq_left', hl, ht, false_or,
                false_iff]
              exact hsz
  · intro hl ht hfit
    obtain ⟨hw, hh⟩ := measure_pos face t hl ht
    rw [← machine_measure_eq face t hl ht hfit] at hw hh
    exact ⟨hw, hh, machine_render_some al r face t color hp hs htx hl ht hw hh⟩

theorem C3_render_null_iff_in_range_witness :
    Alloc.all.pixels_ok = true ∧ Alloc.all.surface_ok = true ∧ Alloc.all.texture_ok = true ∧
      (Machine.re_font_render Alloc.all (some ⟨800, 600⟩) (some (re_font_free (re_font_load 18)))
            (some ['H', 'i']) ⟨20, 20, 20, 255⟩ = none ↔
          ((some (re_font_free (re_font_load 18)) = none ∨
            (∃ fc, some (re_font_free (re_font_load 18)) = some fc ∧ fc.loaded = 0) ∨
            some ['H', 'i'] = none ∨ some ['H', 'i'] = some [] ∨
            (Machine.re_font_measure (some (re_font_free (re_font_load 18)))
              (some ['H', 'i'])).1 ≤ 0 ∨
            (Machine.re_font_measure (some (re_font_free (re_font_load 18)))
              (some ['H', 'i'])).2 ≤ 0))) ∧
      (re_font_load 18).loaded ≠ 0 ∧ ['H', 'i'] ≠ [] ∧ measureFits (re_font_load 18) ['H', 'i'] ∧
      0 < (Machine.re_font_measure (some (re_font_load 18)) (some ['H', 'i'])).1 ∧
      0 < (Machine.re_font_measure (some (re_font_load 18)) (some ['H', 'i'])).2 ∧
      ∃ tex, Machine.re_font_render Alloc.all (some ⟨800, 600⟩) (some (re_font_load 18))
        (some ['H', 'i']) ⟨20, 20, 20, 255⟩ = some tex :=
  ⟨rfl, rfl, rfl,
    (C3_render_null_iff_in_range Alloc.all ⟨800, 600⟩ (some (re_font_free (re_font_load 18)))
      (some ['H', 'i']) ⟨20, 20, 20, 255⟩ (re_font_load 18) ['H', 'i'] rfl rfl rfl).1,
    by decide, by decide, ⟨by decide, by decide, by decide⟩,
    (C3_render_null_iff_in_range Alloc.all ⟨800, 600⟩ (some (re_font_free (re_font_load 18)))
      (some ['H', 'i']) ⟨20, 20, 20, 255⟩ (re_font_load 18) ['H', 'i'] rfl rfl rfl).2
      (by decide) (by decide) ⟨by decide, by decide, by decide⟩⟩

/-! ### `re_font_render` in 32 bits: where it agrees with `Int` -/

theorem idx_lt_size_max (a b c : Nat) (ha : a ≤ 2147483647) (hb : b ≤ 2147483647)
    (hc : c ≤ 2147483647) : a * b + c * 4 < 18446744073709551616 := by
  have h := Nat.mul_le_mul ha hb
  omega

theorem machine_idx_eq (y p x : Int) (hy0 : 0 ≤ y) (hy1 : y ≤ 2147483647)
    (hp0 : 0 ≤ p) (hp1 : p ≤ 2147483647) (hx0 : 0 ≤ x) (hx1 : x ≤ 2147483647) :
    (u64 y * u64 p + u64 x * 4) % 18446744073709551616 = y.toNat * p.toNat + x.toNat * 4 := by
  rw [u64_eq y hy0 (by omega), u64_eq p hp0 (by omega), u64_eq x hx0 (by omega)]
  exact Nat.mod_eq_of_lt (idx_lt_size_max _ _ _ (by omega) (by omega) (by omega))

theorem machine_colIndices_eq (gw width pitch pen_x pen_y row : Int) (fuel : Nat) (col : Int)
    (hcol : 0 ≤ col) (hx : 0 ≤ pen_x) (hxg : pen_x + gw ≤ 2147483647)
    (hr0 : 0 ≤ pen_y + row) (hr1 : pen_y + row ≤ 2147483647)
    (hp0 : 0 ≤ pitch) (hp1 : pitch ≤ 2147483647) :
    Machine.colIndices gw width pitch pen_x pen_y row fuel col =
      colIndices gw width pitch pen_x pen_y row fuel col := by
  induction fuel generalizing col with
  | zero => rfl
  | succ fuel ih =>
    unfold Machine.colIndices colIndices
    by_cases hg : col < gw
    · have e1 : i32 (pen_x + col) = pen_x + col := i32_eq _ (by omega) (by omega)
      have e2 : i32 (pen_y + row) = pen_y + row := i32_eq _ (by omega) (by omega)
      have e3 : i32 (col + 1) = col + 1 := i32_eq _ (by omega) (by omega)
      rw [e1, e2, e3, ih (col + 1) (by omega),
        machine_idx_eq _ _ _ hr0 hr1 hp0 hp1 (by omega) (by omega)]
    · simp only [hg, false_and, if_false]

theorem machine_rowIndices_eq (gw gh width height pitch pen_x pen_y : Int) (fuel : Nat)
    (row : Int) (hrow : 0 ≤ row) (hx : 0 ≤ pen_x) (hxg : pen_x + gw ≤ 2147483647)
    (hy : 0 ≤ pen_y) (hyg : pen_y + gh ≤ 2147483647)
    (hp0 : 0 ≤ pitch) (hp1 : pitch ≤ 2147483647) :
    Machine.rowIndices gw gh width height pitch pen_x pen_y fuel row =
      rowIndices gw gh width height pitch pen_x pen_y fuel row := by
  induction fuel generalizing row with
  | zero => rfl
  | succ fuel ih =>
    unfold Machine.rowIndices rowIndices
    by_cases hg : row < gh
    · have e2 : i32 (pen_y + row) = pen_y + row := i32_eq _ (by omega) (by omega)
      have e3 : i32 (row + 1) = row + 1 := i32_eq _ (by omega) (by omega)
      rw [e2, e3, ih (row + 1) (by omega),
        machine_colIndices_eq gw width pitch pen_x pen_y row _ 0 (le_refl 0) hx hxg
          (by omega) (by omega) hp0 hp1]
    · simp only [hg, false_and, if_false]

theorem machine_glyphIndices_eq (gw gh width height pitch pen_x pen_y : Int)
    (hx : 0 ≤ pen_x) (hxg : pen_x + gw ≤ 2147483647)
    (hy : 0 ≤ pen_y) (hyg : pen_y + gh ≤ 2147483647)
    (hp0 : 0 ≤ pitch) (hp1 : pitch ≤ 2147483647) :
    Machine.glyphIndices gw gh width height pitch pen_x pen_y =
      glyphIndices gw gh width height pitch pen_x pen_y :=
  machine_rowIndices_eq gw gh width height pitch pen_x pen_y _ 0 (le_refl 0) hx hxg hy hyg hp0 hp1

theorem machine_renderStep_eq (gw gh lh width height pitch : Int) (color : SDL_Color)
    (st : RenderState) (c : Char) (hgw : 0 ≤ gw) (hlh : 0 ≤ lh)
    (hx : 0 ≤ st.pen_x) (hxg : st.pen_x + 2 * gw + 1 ≤ 2147483647)
    (hy : 0 ≤ st.pen_y) (hyl : st.pen_y + lh ≤ 2147483647) (hyg : st.pen_y + gh ≤ 2147483647)
    (hp0 : 0 ≤ pitch) (hp1 : pitch ≤ 2147483647) :
    Machine.renderStep gw gh lh width height pitch color st c =
      renderStep gw gh lh width height pitch color st c := by
  have e1 : i32 (st.pen_y + lh) = st.pen_y + lh := i32_eq _ (by omega) (by omega)
  have e2 : i32 (gw + 1) = gw + 1 := i32_eq _ (by omega) (by omega)
  have e3 : i32 (st.pen_x + (gw + 1)) = st.pen_x + (gw + 1) := i32_eq _ (by omega) (by omega)
  have e4 : i32 (st.pen_x + (gw + 1) + gw) = st.pen_x + (gw + 1) + gw :=
    i32_eq _ (by omega) (by omega)
  have e5 := machine_glyphIndices_eq gw gh width height pitch st.pen_x st.pen_y hx (by omega)
    hy hyg hp0 hp1
  unfold Machine.renderStep renderStep
  simp only [e1, e2, e3, e4, e5]

theorem renderStep_pen_le (gw gh lh width height pitch : Int) (color : SDL_Color)
    (st : RenderState) (c : Char) (hgw : 0 ≤ gw) (hlh : 0 ≤ lh) (hw : 0 ≤ width)
    (hx : 0 ≤ st.pen_x) (hy : 0 ≤ st.pen_y) :
    0 ≤ (renderStep gw gh lh width height pitch color st c).pen_x ∧
      (renderStep gw gh lh width height pitch color st c).pen_x ≤ width ∧
      0 ≤ (renderStep gw gh lh width height pitch color st c).pen_y ∧
      (renderStep gw gh lh width height pitch color st c).pen_y ≤ st.pen_y + lh := by
  unfold renderStep
  split
  · simp only; omega
  · simp only
    split
    · simp only; omega
    · simp only; omega

theorem machine_renderWrites_eq (gw gh lh width height : Int) (color : SDL_Color)
    (t : List Char) (st : RenderState) (hgw : 0 ≤ gw) (hgww : gw ≤ width) (hlh : 0 ≤ lh)
    (hgl : gh ≤ lh) (hw4 : 4 * width ≤ 2147483647)
    (hx : 0 ≤ st.pen_x) (hxw : st.pen_x ≤ width) (hy : 0 ≤ st.pen_y)
    (hyl : st.pen_y + (t.length : Int) * lh ≤ 2147483647) :
    Machine.renderWrites gw gh lh width height (width * 4) color t st =
      renderWrites gw gh lh width height (width * 4) color t st := by
  induction t generalizing st with
  | nil => rfl
  | cons c cs ih =>
    have hlen : ((c :: cs).length : Int) * lh = (cs.length : Int) * lh + lh := by
      simp only [List.length_cons, Nat.cast_add, Nat.cast_one]
      ring
    rw [hlen] at hyl
    have hcs : 0 ≤ (cs.length : Int) * lh := mul_nonneg (Int.natCast_nonneg _) hlh
    have hstep := machine_renderStep_eq gw gh lh width height (width * 4) color st c hgw hlh hx
      (by omega) hy (by omega) (by omega) (by omega) (by omega)
    have hgi := machine_glyphIndices_eq gw gh width height (width * 4) st.pen_x st.pen_y hx
      (by omega) hy (by omega) (by omega) (by omega)
    obtain ⟨h1, h2, h3, h4⟩ := renderStep_pen_le gw gh lh width height (width * 4) color st c
      hgw hlh (by omega) hx hy
    simp only [Machine.renderWrites, renderWrites, hstep, hgi]
    rw [ih _ h1 h2 h3 (by omega)]

theorem machine_buf_size_eq (width height : Int) (hw0 : 0 ≤ width)
    (hw4 : 4 * width ≤ 2147483647) (hh0 : 0 ≤ height) (hh1 : height ≤ 2147483647) :
    Machine.buf_size width height = (width * 4).toNat * height.toNat := by
  unfold Machine.buf_size
  rw [i32_eq _ (by omega) (by omega), u64_eq _ (by omega) (by omega),
    u64_eq _ hh0 (by omega)]
  have h := idx_lt_size_max (width * 4).toNat height.toNat 0 (by omega) (by omega) (by omega)
  exact Nat.mod_eq_of_lt (by omega)

theorem specMaxLineWidth_zero_or_ge (adv : Int) (hadv : 0 ≤ adv) (t : List Char) :
    specMaxLineWidth adv t = 0 ∨ adv ≤ specMaxLineWidth adv t := by
  unfold specMaxLineWidth
  induction t.splitOn '\n' with
  | nil => left; rfl
  | cons l ls ih =>
    simp only [List.map_cons, List.foldr_cons]
    cases hlen : l.length with
    | zero =>
      simp only [Nat.cast_zero, zero_mul]
      rcases ih with h | h
      · left; rw [h]; rfl
      · right; exact le_max_of_le_right h
    | succ n =>
      right
      apply le_max_of_le_left
      have hn : (0 : Int) ≤ (n : Int) := Int.natCast_nonneg _
      have : 0 ≤ (n : Int) * adv := mul_nonneg hn hadv
      push_cast
      rw [add_mul, one_mul]
      omega

theorem measureFits_of_renderFits (face : ReFont) (t : List Char) (hl : face.loaded ≠ 0)
    (ht : t ≠ []) (h : renderFits face t) : measureFits face t := by
  obtain ⟨h3, hw, hh⟩ := h
  obtain ⟨hwp, _⟩ := measure_pos face t hl ht
  rw [measure_eq_spec] at hwp
  refine ⟨h3, by omega, ?_⟩
  have hlp := line_height_pos (some face)
  rw [line_height_eq_spec] at hlp
  have hcnt : ((t.count '\n' : Nat) : Int) ≤ (t.length : Int) := by
    exact_mod_cast List.count_le_length '\n' t
  have e : (specMeasure (some face) (some t)).2 =
      specLineHeight (specPixelSize face) * ((t.count '\n' : Int) + 1) := by
    simp [specMeasure, hl, ht]
  rw [e]
  have hmul : specLineHeight (specPixelSize face) * ((t.count '\n' : Int) + 1) ≤
      specLineHeight (specPixelSize face) * ((t.length : Int) + 1) :=
    mul_le_mul_of_nonneg_left (by omega) (le_of_lt hlp)
  have hcomm : ((t.length : Int) + 1) * specLineHeight (specPixelSize face) =
      specLineHeight (specPixelSize face) * ((t.length : Int) + 1) := mul_comm _ _
  omega

theorem glyph_width_le_measure (face : ReFont) (t : List Char) (hl : face.loaded ≠ 0)
    (ht : t ≠ []) : glyph_width (some face) ≤ (re_font_measure (some face) (some t)).1 := by
  have hg := glyph_width_ge (some face)
  rw [measure_eq_spec]
  have e : (specMeasure (some face) (some t)).1 =
      if specMaxLineWidth (specGlyphWidth (specPixelSize face) + 1) t = 0 then
        specGlyphWidth (specPixelSize face)
      else specMaxLineWidth (specGlyphWidth (specPixelSize face) + 1) t := by
    simp [specMeasure, hl, ht]
  rw [e, glyph_width_eq_spec]
  rw [glyph_width_eq_spec] at hg
  rcases specMaxLineWidth_zero_or_ge (specGlyphWidth (specPixelSize face) + 1) (by omega) t
    with h | h
  · simp [h]
  · split <;> omega

theorem glyph_height_le_line_height (face : ReFont) :
    glyph_height face ≤ line_height (some face) := by
  have hb := base_size_pos (some face)
  have e : glyph_height face = base_size (some face) := rfl
  rw [e]
  unfold line_height
  simp only
  have h2 : 0 ≤ Int.tdiv (base_size (some face)) 4 := Int.tdiv_nonneg (le_of_lt hb) (by decide)
  omega

theorem machine_render_writes_eq (face : ReFont) (t : List Char) (color : SDL_Color)
    (hl : face.loaded ≠ 0) (ht : t ≠ []) (h : renderFits face t) :
    Machine.render_buf_size face t = render_buf_size face t ∧
      Machine.re_font_render_writes face t color = re_font_render_writes face t color := by
  have hmf := measureFits_of_renderFits face t hl ht h
  have hm := machine_measure_eq face t hl ht hmf
  obtain ⟨h3, hw4, hlen⟩ := h
  obtain ⟨_, hw1, hh1⟩ := hmf
  have hb : base_size (some face) = specPixelSize face := rfl
  have hgw := machine_glyph_width_eq (some face) (by rw [hb]; exact h3)
  have hlh := machine_line_height_eq (some face) (by rw [hb]; exact h3)
  obtain ⟨hwp, hhp⟩ := measure_pos face t hl ht
  have hgle := glyph_width_le_measure face t hl ht
  have hg3 := glyph_width_ge (some face)
  have hlp := line_height_pos (some face)
  have hghl := glyph_height_le_line_height face
  rw [← measure_eq_spec] at hw4 hw1 hh1
  rw [← line_height_eq_spec] at hlen
  have hbuf : Machine.render_buf_size face t = render_buf_size face t := by
    unfold Machine.render_buf_size render_buf_size
    rw [hm]
    exact machine_buf_size_eq _ _ (le_of_lt hwp) hw4 (le_of_lt hhp) hh1
  refine ⟨hbuf, ?_⟩
  unfold Machine.re_font_render_writes re_font_render_writes
  simp only [hm, hgw, hlh, hbuf]
  rw [i32_eq _ (by omega) (by omega)]
  have hl2 : (t.length : Int) * line_height (some face) ≤ 2147483647 := by
    have : ((t.length : Int) + 1) * line_height (some face) =
        (t.length : Int) * line_height (some face) + line_height (some face) := by ring
    omega
  exact machine_renderWrites_eq _ _ _ _ _ color t _ (by omega) hgle (le_of_lt hlp) hghl hw4
    (le_refl 0) (le_of_lt hwp) (le_refl 0) (by simp only; omega)

/-! ### `re_font_render` in 32 bits: the stores and the pixel buffer -/

theorem machine_mem_colIndices (gw width pitch pen_x pen_y row c : Int) (fuel : Nat) (col : Int)
    (h0 : 0 ≤ col) (hcc : col ≤ c) (hcg : c < gw) (hgw : gw ≤ 2147483647)
    (hf : c - col < (fuel : Int)) (hx : 0 ≤ pen_x) (hxw : pen_x + gw ≤ width)
    (hwm : width ≤ 2147483647) :
    (u64 (i32 (pen_y + row)) * u64 pitch + u64 (i32 (pen_x + c)) * 4) % 18446744073709551616
      ∈ Machine.colIndices gw width pitch pen_x pen_y row fuel col := by
  induction fuel generalizing col with
  | zero => simp only [Nat.cast_zero] at hf; omega
  | succ fuel ih =>
    unfold Machine.colIndices
    have e1 : i32 (pen_x + col) = pen_x + col := i32_eq _ (by omega) (by omega)
    have e3 : i32 (col + 1) = col + 1 := i32_eq _ (by omega) (by omega)
    have hg : col < gw ∧ i32 (pen_x + col) < width := ⟨by omega, by rw [e1]; omega⟩
    simp only [hg, and_self, if_true, e3]
    by_cases hcol : col = c
    · subst hcol
      exact List.mem_cons_self _ _
    · apply List.mem_cons_of_mem
      apply ih (col + 1) (by omega) (by omega)
      push_cast at hf
      omega

theorem machine_mem_rowIndices (gw gh width height pitch pen_x pen_y r : Int) (idx : Nat)
    (fuel : Nat) (row : Int) (h0 : 0 ≤ row) (hrr : row ≤ r) (hrg : r < gh)
    (hgh : gh ≤ 2147483647) (hf : r - row < (fuel : Int)) (hy : 0 ≤ pen_y)
    (hyh : pen_y + gh ≤ height) (hhm : height ≤ 2147483647)
    (hmem : idx ∈ Machine.colIndices gw width pitch pen_x pen_y r gw.toNat 0) :
    idx ∈ Machine.rowIndices gw gh width height pitch pen_x pen_y fuel row := by
  induction fuel generalizing row with
  | zero => simp only [Nat.cast_zero] at hf; omega
  | succ fuel ih =>
    unfold Machine.rowIndices
    have e1 : i32 (pen_y + row) = pen_y + row := i32_eq _ (by omega) (by omega)
    have e3 : i32 (row + 1) = row + 1 := i32_eq _ (by omega) (by omega)
    have hg : row < gh ∧ i32 (pen_y + row) < height := ⟨by omega, by rw [e1]; omega⟩
    simp only [hg, and_self, if_true, e3, List.mem_append]
    by_cases hrow : row = r
    · subst hrow
      exact Or.inl hmem
    · right
      apply ih (row + 1) (by omega) (by omega)
      push_cast at hf
      omega

/-- C21 (counterexample): for the loaded face of pixel size 596523235 and the
text `"aaa"` the measured size is 1073741826 × 745654043; `pitch = width * 4`
leaves the range of `int` and wraps to 8, so the buffer allocated holds
`8 × 745654043 = 5965232344` bytes and not `width × height × 4`; the first
glyph, painted with the pen at `(0, 0)`, stores at row 596523234, column
357913940 the byte offset `596523234 × 8 + 357913940 × 4 = 6203841632`, which
lies beyond the end of the buffer. -/
theorem C21_store_past_buffer_when_pitch_wraps :
    (re_font_load 596523235).loaded ≠ 0 ∧
      Machine.re_font_measure (some (re_font_load 596523235)) (some ['a', 'a', 'a'])
        = (1073741826, 745654043) ∧
      i32 (1073741826 * 4) = 8 ∧
      Machine.render_buf_size (re_font_load 596523235) ['a', 'a', 'a'] = 5965232344 ∧
      6203841632 ∈ Machine.re_font_render_writes (re_font_load 596523235) ['a', 'a', 'a']
        COL_TEXT ∧
      ¬ (6203841632 + 3 < Machine.render_buf_size (re_font_load 596523235) ['a', 'a', 'a']) := by
  have hm : Machine.re_font_measure (some (re_font_load 596523235)) (some ['a', 'a', 'a'])
      = (1073741826, 745654043) := by decide
  have hb : Machine.render_buf_size (re_font_load 596523235) ['a', 'a', 'a'] = 5965232344 := by
    decide
  have hgw : Machine.glyph_width (some (re_font_load 596523235)) = 357913941 := by decide
  have hgh : glyph_height (re_font_load 596523235) = 596523235 := by decide
  have hp : i32 (1073741826 * 4) = 8 := by decide
  refine ⟨by decide, hm, hp, hb, ?_, by rw [hb]; decide⟩
  unfold Machine.re_font_render_writes
  simp only [hm, hgw, hgh, hp, Machine.renderWrites, List.mem_append]
  left
  have hn : ¬ ('a' = '\n') := by decide
  have hs : 'a' ≠ ' ' := by decide
  simp only [hn, hs, if_false, if_true, ne_eq, not_false_eq_true]
  have hidx : (u64 (i32 (0 + 596523234)) * u64 8 + u64 (i32 (0 + 357913940)) * 4)
      % 18446744073709551616 = 6203841632 := by decide
  have hcol := machine_mem_colIndices 357913941 1073741826 8 0 0 596523234 357913940
    (357913941 : Int).toNat 0 (le_refl 0) (by decide) (by decide) (by decide) (by decide)
    (le_refl 0) (by decide) (by decide)
  rw [hidx] at hcol
  exact machine_mem_rowIndices 357913941 596523235 1073741826 745654043 8 0 0 596523234
    6203841632 (596523235 : Int).toNat 0 (le_refl 0) (by decide) (by decide) (by decide)
    (by decide) (le_refl 0) (by decide) (by decide) hcol

theorem machine_renderStep_pixels (gw gh lh width height pitch : Int) (color : SDL_Color)
    (st : RenderState) (c : Char) :
    (Machine.renderStep gw gh lh width height pitch color st c).pixels =
      (if c = '\n' then []
        else if c ≠ ' ' then Machine.glyphIndices gw gh width height pitch st.pen_x st.pen_y
        else []).foldl (writePixel color) st.pixels := by
  unfold Machine.renderStep
  by_cases hn : c = '\n'
  · simp only [hn, if_true, List.foldl_nil]
  · by_cases hw : i32 (i32 (st.pen_x + i32 (gw + 1)) + gw) ≥ width
    · by_cases hs : c = ' '
      · subst hs
        have hsn : ¬ (' ' = '\n') := by decide
        simp only [hsn, hw, if_false, if_true, ne_eq, not_true_eq_false, List.foldl_nil]
      · simp only [hn, hs, hw, if_false, if_true, ne_eq, not_false_eq_true]
    · by_cases hs : c = ' '
      · subst hs
        have hsn : ¬ (' ' = '\n') := by decide
        simp only [hsn, hw, if_false, ne_eq, not_true_eq_false, List.foldl_nil]
      · simp only [hn, hs, hw, if_false, if_true, ne_eq, not_false_eq_true]

theorem machine_renderLoop_pixels (gw gh lh width height pitch : Int) (color : SDL_Color)
    (t : List Char) (st : RenderState) :
    (Machine.renderLoop gw gh lh width height pitch color t st).pixels =
      (Machine.renderWrites gw gh lh width height pitch color t st).foldl (writePixel color)
        st.pixels := by
  induction t generalizing st with
  | nil => rfl
  | cons c cs ih =>
    have hstep : Machine.renderLoop gw gh lh width height pitch color (c :: cs) st =
        Machine.renderLoop gw gh lh width height pitch color cs
          (Machine.renderStep gw gh lh width height pitch color st c) := rfl
    rw [hstep, ih]
    simp only [Machine.renderWrites, List.foldl_append]
    rw [machine_renderStep_pixels]

theorem machine_render_eq_writes (al : Alloc) (r : SDL_Renderer) (face : ReFont)
    (t : List Char) (color : SDL_Color) (hp : al.pixels_ok = true) (hs : al.surface_ok = true)
    (hl : face.loaded ≠ 0) (ht : t ≠ [])
    (hw : 0 < (Machine.re_font_measure (some face) (some t)).1)
    (hh : 0 < (Machine.re_font_measure (some face) (some t)).2) :
    Machine.re_font_render al (some r) (some face) (some t) color =
      SDL_CreateTextureFromSurface al (some r)
        (some { pixels := some ((Machine.re_font_render_writes face t color).foldl
                  (writePixel color) (List.replicate (Machine.render_buf_size face t) 0))
                width := (Machine.re_font_measure (some face) (some t)).1
                height := (Machine.re_font_measure (some face) (some t)).2
                pitch := i32 ((Machine.re_font_measure (some face) (some t)).1 * 4) }) := by
  have hw2 : ¬ (Machine.re_font_measure (some face) (some t)).1 ≤ 0 := by omega
  have hh2 : ¬ (Machine.re_font_measure (some face) (some t)).2 ≤ 0 := by omega
  unfold Machine.re_font_render
  simp only [hl, ht, or_self, if_false, hw2, hh2, hp, if_true, SDL_CreateRGBSurfaceFrom, hs,
    machine_renderLoop_pixels]
  rfl

/-- C21 (amended): for a loaded face, a non-empty text and any colour for which
no `int` operation of the rendering overflows (`3 × p`, the pitch `4 × width`
and `lh × (text length + 1)` do not exceed `INT_MAX`), every pixel store of
`re_font_render` (its `int` arithmetic in 32 bits, its index in 64) targets a
byte offset `idx` with `idx + 3 < buf_size`, where `buf_size`, the size of the
buffer allocated, is `width × height × 4` for the measured `width` and
`height`; and the buffer `re_font_render` hands to the surface is the zeroed
buffer with exactly these stores applied. -/
theorem C21_render_writes_in_bounds_in_range (face : ReFont) (t : List Char)
    (color : SDL_Color) (idx : Nat) (hl : face.loaded ≠ 0) (ht : t ≠ [])
    (hfit : renderFits face t)
    (hmem : idx ∈ Machine.re_font_render_writes face t color) :
    idx + 3 < Machine.render_buf_size face t ∧
      (Machine.render_buf_size face t : Int) =
        (Machine.re_font_measure (some face) (some t)).1 *
          (Machine.re_font_measure (some face) (some t)).2 * 4 ∧
      (∀ (al : Alloc) (r : SDL_Renderer), al.pixels_ok = true → al.surface_ok = true →
        Machine.re_font_render al (some r) (some face) (some t) color =
          SDL_CreateTextureFromSurface al (some r)
            (some { pixels := some ((Machine.re_font_render_writes face t color).foldl
                      (writePixel color) (List.replicate (Machine.render_buf_size face t) 0))
                    width := (Machine.re_font_measure (some face) (some t)).1
                    height := (Machine.re_font_measure (some face) (some t)).2
                    pitch := i32 ((Machine.re_font_measure (some face) (some t)).1 * 4) })) := by
  obtain ⟨hbuf, hwr⟩ := machine_render_writes_eq face t color hl ht hfit
  have hm := machine_measure_eq face t hl ht (measureFits_of_renderFits face t hl ht hfit)
  rw [hwr] at hmem
  obtain ⟨h1, h2, _, _⟩ := render_writes_in_bounds face t color idx hl ht hmem
  obtain ⟨hw, hh⟩ := measure_pos face t hl ht
  refine ⟨by rw [hbuf]; exact h1, by rw [hbuf, hm]; exact h2, ?_⟩
  intro al r hp hs
  exact machine_render_eq_writes al r face t color hp hs hl ht (by rw [hm]; exact hw)
    (by rw [hm]; exact hh)

theorem C21_render_writes_in_bounds_in_range_witness :
    (re_font_load 1).loaded ≠ 0 ∧ ['a', 'b', '\n', 'c'] ≠ [] ∧
      renderFits (re_font_load 1) ['a', 'b', '\n', 'c'] ∧
      24 ∈ Machine.re_font_render_writes (re_font_load 1) ['a', 'b', '\n', 'c'] COL_TEXT ∧
      24 + 3 < Machine.render_buf_size (re_font_load 1) ['a', 'b', '\n', 'c'] :=
  ⟨by decide, by decide, ⟨by decide, by decide, by decide⟩, by decide,
    (C21_render_writes_in_bounds_in_range (re_font_load 1) ['a', 'b', '\n', 'c'] COL_TEXT 24
      (by decide) (by decide) ⟨by decide, by decide, by decide⟩ (by decide)).1⟩

theorem measure_no_newline (f : ReFont) (t : List Char) (hl : f.loaded ≠ 0) (ht : t ≠ [])
    (hnl : '\n' ∉ t) :
    re_font_measure (some f) (some t) =
      ((t.length : Int) * (glyph_width (some f) + 1), line_height (some f)) := by
  have h1 := measure_single_line f t hl ht hnl
  have h2 : (re_font_measure (some f) (some t)).2 = line_height (some f) := by
    rw [measure_eq_spec]
    simp [specMeasure, hl, ht, List.count_eq_zero_of_not_mem hnl, line_height_eq_spec]
  exact Prod.ext h1 h2

theorem layout_unterminated (a : List Char) (hsp : ' ' ∉ a) (hnl : '\n' ∉ a)
    (hlen : a.length = 1022) :
    strtok_all (a ++ [' ']) = [a] ∧
      strtok_all (strncpy_buf (a ++ [' ']) ['b']) = [a, ['b']] ∧
      (layoutWords Alloc.all (some ⟨1100, 780⟩) (re_font_load 18) 30 1040 [a] ⟨30, 60, 0⟩).1
        = ⟨11283, 82, 22⟩ ∧
      (layoutWords Alloc.all (some ⟨1100, 780⟩) (re_font_load 18) 30 1040 [a, ['b']]
        ⟨30, 60, 0⟩).1 = ⟨52, 104, 22⟩ ∧
      (layoutWords Alloc.all (some ⟨1100, 780⟩) (re_font_load 18) 30 1040 [a, ['b']]
        ⟨30, 60, 0⟩).2.map (fun c => c.dst) = [⟨30, 82, 11253, 22⟩, ⟨30, 104, 22, 22⟩] := by
  have hne : a ≠ [] := by
    intro h
    rw [h] at hlen
    exact absurd hlen (by decide)
  have htok1 : strtok_all (a ++ [' ']) = [a] := by
    unfold strtok_all
    rw [strtokLoop_word a [] [' '] hsp]
    simp [strtokLoop, hne]
  have hbuf : strncpy_buf (a ++ [' ']) ['b'] = a ++ [' ', 'b'] := by
    have hl2 : (a ++ [' ']).length = 1023 := by
      rw [List.length_append, hlen]; rfl
    unfold strncpy_buf
    rw [if_neg (by rw [hl2]; decide), List.take_of_length_le (by rw [hl2])]
    simp
  have htok2 : strtok_all (strncpy_buf (a ++ [' ']) ['b']) = [a, ['b']] := by
    rw [hbuf]
    unfold strtok_all
    rw [strtokLoop_word a [] [' ', 'b'] hsp]
    simp [strtokLoop, hne]
  have hword : word_of a = a ++ [' '] := word_of_eq a (by omega)
  have hwl : (a ++ [' ']).length = 1023 := by
    rw [List.length_append, hlen]; rfl
  have hwne : a ++ [' '] ≠ [] := by simp
  have hwnl : '\n' ∉ a ++ [' '] := by
    intro h
    rw [List.mem_append, List.mem_singleton] at h
    rcases h with h | h
    · exact hnl h
    · exact absurd h (by decide)
  have hgw : glyph_width (some (re_font_load 18)) = 10 := by decide
  have hlh : line_height (some (re_font_load 18)) = 22 := by decide
  have hld : (re_font_load 18).loaded ≠ 0 := by decide
  have hm1 : re_font_measure (some (re_font_load 18)) (some (word_of a)) = (11253, 22) := by
    rw [hword, measure_no_newline _ _ hld hwne hwnl, hwl, hgw, hlh]
    rfl
  have hm2 : re_font_measure (some (re_font_load 18)) (some (word_of ['b'])) = (22, 22) := by
    decide
  obtain ⟨tex1, hr1⟩ := render_some_of_loaded Alloc.all ⟨1100, 780⟩ (re_font_load 18)
    (word_of a) COL_TEXT rfl rfl rfl hld (by rw [hword]; exact hwne)
  obtain ⟨tex2, hr2⟩ := render_some_of_loaded Alloc.all ⟨1100, 780⟩ (re_font_load 18)
    (word_of ['b']) COL_TEXT rfl rfl rfl hld (by decide)
  have hw1 := layoutWord_wrap Alloc.all (some ⟨1100, 780⟩) (re_font_load 18) 30 1040
    ⟨30, 60, 0⟩ a tex1 11253 22 hm1 hr1 (by decide)
  have hw2 := layoutWord_wrap Alloc.all (some ⟨1100, 780⟩) (re_font_load 18) 30 1040
    ⟨30 + 11253, 60 + (if (0 : Int) = 0 then 22 else 0), max 0 22⟩ ['b'] tex2 22 22 hm2 hr2
    (by decide)
  refine ⟨htok1, htok2, ?_, ?_, ?_⟩
  · simp only [layoutWords, hw1]
    decide
  · simp only [layoutWords, hw1, hw2]
    decide
  · simp only [layoutWords, hw1, hw2, List.map_append, List.map_cons, List.map_nil,
      List.append_nil, List.singleton_append]
    decide

/-! ### `layout`: the words of a text run, with `buf` as `strncpy` leaves it -/

theorem strtokLoop_length (cur t : List Char) :
    ∀ tok ∈ strtokLoop cur t, tok.length ≤ cur.length + t.length := by
  induction t generalizing cur with
  | nil =>
    intro tok htok
    by_cases hc : cur = []
    · simp [strtokLoop, hc] at htok
    · simp only [strtokLoop, hc, if_false, List.mem_singleton] at htok
      subst htok
      simp
  | cons c t ih =>
    intro tok htok
    simp only [List.length_cons]
    by_cases hc : c = ' '
    · simp only [strtokLoop, hc, if_true] at htok
      by_cases hcn : cur = []
      · simp only [hcn, if_true] at htok
        have := ih [] tok htok
        simp only [List.length_nil] at this
        omega
      · simp only [hcn, if_false, List.mem_cons] at htok
        rcases htok with h1 | h2
        · subst h1; omega
        · have := ih [] tok h2
          simp only [List.length_nil] at this
          omega
    · simp only [strtokLoop, hc, if_false] at htok
      have := ih (cur ++ [c]) tok htok
      simp only [List.length_append, List.length_cons, List.length_nil] at this
      omega

theorem strncpy_buf_short (text stack : List Char) (h : text.length ≤ 1022) :
    strncpy_buf text stack = text := by
  unfold strncpy_buf
  rw [if_pos (by omega)]

theorem layoutRun_eq_layoutElem (stack : List Char) (al : Alloc) (r : Option SDL_Renderer)
    (ui : ReUI) (x w : Int) (st : LayoutState) (el : ReElement)
    (ht : el.type = ReElementType.RE_E_TEXT) (hlen : el.text.length ≤ 1022) :
    layoutRun stack al r ui x w st el = layoutElem al r ui x w st el := by
  unfold layoutRun layoutElem
  simp only [ht, if_true, strncpy_buf_short _ stack hlen,
    List.take_of_length_le (show el.text.length ≤ 1023 by omega)]

/-- C17 (amended): for a text run of at most 1022 characters, whatever the
stack holds, the words `layout` measures and paints are the maximal runs of
characters other than the space `' '` of the text, in order, each followed by
one space: a word is not empty and holds no space other than the trailing one,
while tabs and newlines stay inside the words. -/
theorem C17_words_are_space_runs (stack : List Char) (al : Alloc) (r : Option SDL_Renderer)
    (ui : ReUI) (x w : Int) (st : LayoutState) (el : ReElement)
    (hlen : el.text.length ≤ 1022) :
    strtok_all (strncpy_buf el.text stack) = spaceRuns el.text ∧
      (layoutRun stack al r ui x w st el).2 =
        (layoutWords al r (elemFont ui el) x w (spaceRuns el.text) st).2 ∧
      (strtok_all (strncpy_buf el.text stack)).map word_of =
        (spaceRuns el.text).map (fun tok => tok ++ [' ']) ∧
      (∀ tok ∈ spaceRuns el.text, tok ≠ [] ∧ ' ' ∉ tok ∧ word_of tok = tok ++ [' ']) ∧
      (el.type = ReElementType.RE_E_TEXT →
        layoutElem al r ui x w st el = layoutRun stack al r ui x w st el) := by
  have hbuf := strncpy_buf_short el.text stack hlen
  have htoks : ∀ tok ∈ spaceRuns el.text, tok ≠ [] ∧ ' ' ∉ tok ∧ word_of tok = tok ++ [' '] := by
    intro tok htok
    rw [← strtok_all_eq_spaceRuns] at htok
    obtain ⟨h1, h2⟩ := strtokLoop_tokens [] el.text (by simp) tok htok
    have h3 := strtokLoop_length [] el.text tok htok
    simp only [List.length_nil, zero_add] at h3
    exact ⟨h1, h2, word_of_eq tok (by omega)⟩
  refine ⟨by rw [hbuf, strtok_all_eq_spaceRuns], ?_, ?_, htoks, ?_⟩
  · unfold layoutRun
    simp only [hbuf, strtok_all_eq_spaceRuns]
  · rw [hbuf, strtok_all_eq_spaceRuns]
    apply List.map_congr_left
    intro tok htok
    exact (htoks tok htok).2.2
  · intro ht
    exact (layoutRun_eq_layoutElem stack al r ui x w st el ht hlen).symm

theorem C17_words_are_space_runs_witness :
    (textRun ['a', '\t', 'b', ' ', 'c']).text.length ≤ 1022 ∧
      strtok_all (strncpy_buf (textRun ['a', '\t', 'b', ' ', 'c']).text ['z'])
        = spaceRuns (textRun ['a', '\t', 'b', ' ', 'c']).text ∧
      spaceRuns (textRun ['a', '\t', 'b', ' ', 'c']).text = [['a', '\t', 'b'], ['c']] ∧
      (strtok_all (strncpy_buf (textRun ['a', '\t', 'b', ' ', 'c']).text ['z'])).map word_of =
        [['a', '\t', 'b', ' '], ['c', ' ']] :=
  ⟨by decide,
    (C17_words_are_space_runs ['z'] Alloc.all (some ⟨1100, 780⟩) reui_init 30 1040 ⟨30, 60, 0⟩
      (textRun ['a', '\t', 'b', ' ', 'c']) (by decide)).1,
    by decide, by decide⟩

/-! ### `layout`: the end of a text run -/

theorem layoutRun_newline_break (stack : List Char) (al : Alloc) (r : Option SDL_Renderer)
    (ui : ReUI) (x w : Int) (st : LayoutState) (el : ReElement) :
    ('\n' ∈ el.text →
        (layoutRun stack al r ui x w st el).1 =
          { cx := x
            cy := (layoutWords al r (elemFont ui el) x w
                (strtok_all (strncpy_buf el.text stack)) st).1.cy +
              (if (layoutWords al r (elemFont ui el) x w
                  (strtok_all (strncpy_buf el.text stack)) st).1.lh = 0 then 20
                else (layoutWords al r (elemFont ui el) x w
                  (strtok_all (strncpy_buf el.text stack)) st).1.lh)
            lh := 0 }) ∧
      ('\n' ∉ el.text →
        (layoutRun stack al r ui x w st el).1 =
          (layoutWords al r (elemFont ui el) x w
            (strtok_all (strncpy_buf el.text stack)) st).1) ∧
      (layoutRun stack al r ui x w st el).2 =
        (layoutWords al r (elemFont ui el) x w
          (strtok_all (strncpy_buf el.text stack)) st).2 := by
  unfold layoutRun
  refine ⟨?_, ?_, rfl⟩
  · intro hn
    simp only [hn, if_true, LayoutState.mk.injEq, true_and, and_true]
    by_cases h0 : (layoutWords al r (elemFont ui el) x w
        (strtok_all (strncpy_buf el.text stack)) st).1.lh = 0
    · simp [h0]
    · simp [h0]
  · intro hn
    simp only [hn, if_false]

/-- C18 (evaluation at the failing input): the text run holds 1023 characters
and no newline, 1022 letters `a` and a space, so its only word is the 1022
letters, after which the pen is at `(11283, 82)` with line height 22.
`strncpy` copies the 1023 characters without a NUL; with `buf[1023]` holding
`'b'` (and a NUL after it) `strtok` hands out a second token `"b"`, `layout`
paints the extra word `"b "` at `(30, 104)`, and the pen is left at
`(52, 104)`, not where the last word of the run left it. -/
theorem C18_unterminated_run_extra_word :
    text1023.length = 1023 ∧ '\n' ∉ text1023 ∧
      strtok_all text1023 = [List.replicate 1022 'a'] ∧
      (layoutWords Alloc.all (some ⟨1100, 780⟩) (elemFont reui_init (textRun text1023)) 30 1040
        (strtok_all text1023) ⟨30, 60, 0⟩).1 = ⟨11283, 82, 22⟩ ∧
      strtok_all (strncpy_buf text1023 ['b']) = [List.replicate 1022 'a', ['b']] ∧
      (layoutRun ['b'] Alloc.all (some ⟨1100, 780⟩) reui_init 30 1040 ⟨30, 60, 0⟩
        (textRun text1023)).1 = ⟨52, 104, 22⟩ ∧
      (layoutRun ['b'] Alloc.all (some ⟨1100, 780⟩) reui_init 30 1040 ⟨30, 60, 0⟩
        (textRun text1023)).2.map (fun c => c.dst)
        = [⟨30, 82, 11253, 22⟩, ⟨30, 104, 22, 22⟩] := by
  have hsp : ' ' ∉ List.replicate 1022 'a' := by
    intro h
    exact absurd (List.eq_of_mem_replicate h) (by decide)
  have hnl : '\n' ∉ List.replicate 1022 'a' := by
    intro h
    exact absurd (List.eq_of_mem_replicate h) (by decide)
  have hlen : (List.replicate 1022 'a').length = 1022 := List.length_replicate _ _
  obtain ⟨h1, h2, h3, h4, h5⟩ := layout_unterminated (List.replicate 1022 'a') hsp hnl hlen
  have hnl2 : '\n' ∉ text1023 := by
    unfold text1023
    intro h
    rw [List.mem_append, List.mem_singleton] at h
    rcases h with h | h
    · exact hnl h
    · exact absurd h (by decide)
  have hfont : elemFont reui_init (textRun text1023) = re_font_load 18 := rfl
  have htext : (textRun text1023).text = text1023 := rfl
  have hrun := layoutRun_newline_break ['b'] Alloc.all (some ⟨1100, 780⟩) reui_init 30 1040
    ⟨30, 60, 0⟩ (textRun text1023)
  rw [htext] at hrun
  have hst := hrun.2.1 hnl2
  have hcmd := hrun.2.2
  have e : text1023 = List.replicate 1022 'a' ++ [' '] := rfl
  refine ⟨?_, hnl2, ?_, ?_, ?_, ?_, ?_⟩
  · rw [e, List.length_append, hlen]; rfl
  · rw [e]; exact h1
  · rw [hfont, e, h1]; exact h3
  · rw [e]; exact h2
  · rw [hst, hfont, e, h2]; exact h4
  · rw [hcmd, hfont, e, h2]; exact h5

theorem layoutRun_nil (al : Alloc) (r : Option SDL_Renderer) (ui : ReUI) (x w : Int)
    (st : LayoutState) (el : ReElement) (ht : el.type = ReElementType.RE_E_TEXT) :
    layoutRun [] al r ui x w st el = layoutElem al r ui x w st el := by
  have hbuf : strncpy_buf el.text [] = el.text.take 1023 := by
    unfold strncpy_buf
    by_cases h : el.text.length < 1023
    · rw [if_pos h, List.take_of_length_le (by omega)]
    · rw [if_neg h, List.append_nil]
  unfold layoutRun layoutElem
  simp only [ht, if_true, hbuf]

end SolarEx
